import Mathlib

set_option maxRecDepth 10000000

/-!
# Verification of the `rut` version-control engine against its specification

This file shallowly embeds the core data structures and algorithms of the
`rut` git engine (index file codec, index bookkeeping, Myers diff engine,
hunk chunking, object-id prefix lookup, revision resolution) as executable
Lean definitions, translated from the Rust source, and proves or refutes
the specification's claims about them.

Conventions used throughout:
* Rust `u8`/`u32` values are modelled as `Nat` with explicit `% 2^w`
  truncation wherever the Rust code can overflow or casts.
* Byte strings are `List Nat`.
* Rust `PathBuf` values are modelled as lists of components, where each
  component is a list of bytes (`RPath`); this matches `Path` semantics
  (comparison, `parent`, `file_name`, `ancestors` all operate on normal
  components).
* `HashMap`/`HashSet` are modelled as canonically sorted association
  lists / sorted duplicate-free lists; the operations below maintain that
  canonical form, and the Rust equality of two hash containers coincides
  with structural equality of the canonical forms.
* Rust panics (out-of-bounds slices, explicit `panic!`) are modelled as
  `Except.error`.
-/

namespace Rut

/-! ## Hex codec (`src/src/hex.rs`) -/

/-- Rust `hex::unhexlify`: unpack each byte into its two half-bytes
(`left = b >> 4`, `right = b & 0b00001111`). -/
def unhexlify : List Nat → List Nat
  | [] => []
  | b :: rest => (b >>> 4) :: (b &&& 15) :: unhexlify rest

/-- Rust `hex::hexlify`: pack consecutive pairs of half-byte values into single
bytes via `(left << 4) | right` in `u8` arithmetic.  The Rust loop visits
`(0..len-1).step_by(2)`, so a trailing unpaired element is dropped; on an
empty input the Rust index arithmetic underflows (a panic), which no caller
reaches with well-formed object ids. -/
def hexlify : List Nat → List Nat
  | l :: r :: rest => (Nat.lor ((l <<< 4) % 256) (r % 256)) :: hexlify rest
  | _ => []

/-! ## Big-endian integer codec (`src/src/index.rs`) -/

/-- Rust `u32::to_be_bytes` as used by `add_all`. -/
def u32be (v : Nat) : List Nat :=
  [v / 2 ^ 24 % 256, v / 2 ^ 16 % 256, v / 2 ^ 8 % 256, v % 256]

/-- Rust `u16::to_be_bytes`, used for the path-length field. -/
def u16be (v : Nat) : List Nat :=
  [v / 2 ^ 8 % 256, v % 256]

/-- Rust `to_be_u32`: fold four bytes with `result |= byte << (3 - index) * 8`;
any other byte count is an error. -/
def toBeU32 (bytes : List Nat) : Except String Nat :=
  match bytes with
  | [b0, b1, b2, b3] =>
      .ok (Nat.lor (Nat.lor (Nat.lor (b0 <<< 24) (b1 <<< 16)) (b2 <<< 8)) b3)
  | _ => .error "Expected 4 bytes"

/-- Rust `to_be_u16`: fold two bytes with `result |= byte << (1 - index) * 8`. -/
def toBeU16 (bytes : List Nat) : Except String Nat :=
  match bytes with
  | [b0, b1] => .ok (Nat.lor (b0 <<< 8) b1)
  | _ => .error "Expected 2 bytes"

/-- Read `n` bytes from the front of a byte stream.  Models the Rust
pattern `&bytes[position..position + n]` followed by `position += n`; an
out-of-range slice is a panic, modelled as an error. -/
def readBytes (n : Nat) (bs : List Nat) : Except String (List Nat × List Nat) :=
  if n ≤ bs.length then .ok (bs.take n, bs.drop n)
  else .error "slice index out of range"

/-- Absolute slice `bytes[start..start + len]` with the panic modelled as
an error. -/
def sliceCk (bytes : List Nat) (start len : Nat) : Except String (List Nat) :=
  if start + len ≤ bytes.length then .ok ((bytes.drop start).take len)
  else .error "slice index out of range"

/-! ## SHA-1 (`src/src/hashing.rs`, via the external `sha1` crate)

The index trailer is the SHA-1 digest of the preceding index bytes.  The
Rust code delegates to the `sha1` crate; we embed the standard SHA-1
algorithm directly (FIPS 180-1), operating on byte lists with `u32`
arithmetic modelled as `Nat` mod `2^32`. -/

def w32 (v : Nat) : Nat := v % 2 ^ 32

/-- Rotate a 32-bit word left by `s`. -/
def rotl32 (s v : Nat) : Nat := w32 ((v <<< s) + (v >>> (32 - s)))

/-- SHA-1 message padding: append `0x80`, zero bytes to 56 mod 64, then the
bit length as a 64-bit big-endian integer. -/
def sha1Pad (msg : List Nat) : List Nat :=
  let l := msg.length
  let zeros := (55 + 64 - l % 64) % 64
  let bitLen := l * 8
  msg ++ [128] ++ List.replicate zeros 0 ++
    [bitLen / 2 ^ 56 % 256, bitLen / 2 ^ 48 % 256, bitLen / 2 ^ 40 % 256,
     bitLen / 2 ^ 32 % 256, bitLen / 2 ^ 24 % 256, bitLen / 2 ^ 16 % 256,
     bitLen / 2 ^ 8 % 256, bitLen % 256]

/-- Split a padded message into 16-word (64-byte) blocks of 32-bit words. -/
def sha1Words : List Nat → List Nat
  | b0 :: b1 :: b2 :: b3 :: rest =>
      (((b0 * 256 + b1) * 256 + b2) * 256 + b3) :: sha1Words rest
  | _ => []

/-- Message schedule: expand 16 words to 80. `w[i] = rotl1 (w[i-3] ^ w[i-8]
^ w[i-14] ^ w[i-16])`, computed here by extending the list `count` times. -/
def sha1Extend : Nat → List Nat → List Nat
  | 0, ws => ws
  | n + 1, ws =>
      let i := ws.length
      let word := rotl32 1 (Nat.xor (Nat.xor (ws.getD (i - 3) 0) (ws.getD (i - 8) 0))
        (Nat.xor (ws.getD (i - 14) 0) (ws.getD (i - 16) 0)))
      sha1Extend n (ws ++ [word])

/-- One SHA-1 compression round. -/
def sha1Round (t : Nat) (word : Nat) (st : Nat × Nat × Nat × Nat × Nat) :
    Nat × Nat × Nat × Nat × Nat :=
  let (a, b, c, d, e) := st
  let f :=
    if t < 20 then Nat.lor (Nat.land b c) (Nat.land (Nat.xor b (2 ^ 32 - 1)) d)
    else if t < 40 then Nat.xor (Nat.xor b c) d
    else if t < 60 then Nat.lor (Nat.lor (Nat.land b c) (Nat.land b d)) (Nat.land c d)
    else Nat.xor (Nat.xor b c) d
  let k :=
    if t < 20 then 0x5A827999
    else if t < 40 then 0x6ED9EBA1
    else if t < 60 then 0x8F1BBCDC
    else 0xCA62C1D6
  (w32 (rotl32 5 a + f + e + k + word), a, rotl32 30 b, c, d)

/-- Run the 80 rounds of one block. -/
def sha1Rounds : Nat → List Nat → (Nat × Nat × Nat × Nat × Nat) →
    Nat × Nat × Nat × Nat × Nat
  | _, [], st => st
  | t, word :: rest, st => sha1Rounds (t + 1) rest (sha1Round t word st)

/-- Process the 64-byte blocks of a padded message.  The first argument is
recursion fuel; one word list element is consumed per block, so fuel equal
to the word-list length always suffices. -/
def sha1Blocks : Nat → List Nat → (Nat × Nat × Nat × Nat × Nat) →
    Nat × Nat × Nat × Nat × Nat
  | 0, _, h => h
  | fuel + 1, ws, (h0, h1, h2, h3, h4) =>
      if ws.length < 16 then (h0, h1, h2, h3, h4)
      else
        let sched := sha1Extend 64 (ws.take 16)
        let (a, b, c, d, e) := sha1Rounds 0 sched (h0, h1, h2, h3, h4)
        sha1Blocks fuel (ws.drop 16)
          (w32 (h0 + a), w32 (h1 + b), w32 (h2 + c), w32 (h3 + d), w32 (h4 + e))

/-- Rust `hashing::sha1_hash`: the 20-byte SHA-1 digest of a byte string. -/
def sha1Hash (msg : List Nat) : List Nat :=
  let ws := sha1Words (sha1Pad msg)
  let (h0, h1, h2, h3, h4) :=
    sha1Blocks ws.length ws (0x67452301, 0xEFCDAB89, 0x98BADCFE, 0x10325476, 0xC3D2E1F0)
  u32be h0 ++ u32be h1 ++ u32be h2 ++ u32be h3 ++ u32be h4

/-! ## Paths

A Rust `PathBuf` holding a worktree-relative path is modelled as the list
of its (normal) components, each component being its byte string.  The
empty path is `[]`.  `Path` equality, ordering, `parent`, `file_name` and
`ancestors` are all component-based in Rust, matching this model. -/

/-- A path component: the bytes of one file name. -/
abbrev Comp := List Nat

/-- A worktree-relative path: its list of components. -/
abbrev RPath := List Comp

/-- Total comparison on `Nat` producing an `Ordering`. -/
def cmpNat (a b : Nat) : Ordering :=
  if a < b then .lt else if a = b then .eq else .gt

/-- Lexicographic comparison on lists, given a comparison on elements.
This is how Rust compares `OsStr` (byte-wise) and `Path` (component-wise). -/
def cmpList (c : α → α → Ordering) : List α → List α → Ordering
  | [], [] => .eq
  | [], _ :: _ => .lt
  | _ :: _, [] => .gt
  | a :: as_, b :: bs =>
      match c a b with
      | .eq => cmpList c as_ bs
      | o => o

/-- Byte-wise comparison of components (Rust `OsStr` ordering). -/
def cmpComp : Comp → Comp → Ordering := cmpList cmpNat

/-- Component-wise comparison of paths (Rust `Path` ordering). -/
def cmpPath : RPath → RPath → Ordering := cmpList cmpComp

/-- The byte string of a path as stored in the index file: components
joined by `/` (byte 47).  This is `path.to_str().unwrap().as_bytes()`. -/
def pathBytes : RPath → List Nat
  | [] => []
  | [c] => c
  | c :: rest => c ++ 47 :: pathBytes rest

/-- Helper for `splitOnSlash`: split the remaining bytes, carrying the
current (reversed) component. -/
def splitOnSlashAux : List Nat → Comp → RPath
  | [], cur => [cur.reverse]
  | b :: rest, cur =>
      if b = 47 then cur.reverse :: splitOnSlashAux rest []
      else splitOnSlashAux rest (b :: cur)

/-- Components of `PathBuf::from(str)` for a byte string: split on `/`.
The empty string gives the empty path. -/
def splitOnSlash : List Nat → RPath
  | [] => []
  | bs => splitOnSlashAux bs []

/-- Rust `path.ancestors()`: the path itself, then each parent, down to
the empty path: `[p, dropLast p, …, []]`. -/
def ancestorsList (p : RPath) : List RPath :=
  ((List.range (p.length + 1)).reverse).map (fun n => p.take n)

/-! ## Index data model (`src/src/index.rs`) -/

/-- Rust `FileMode`. -/
inductive FileMode
  | directory
  | executable
  | regular
deriving DecidableEq, Repr

/-- Rust `Mode`: the coerced file mode together with the raw mode that is
written back to disk. -/
structure Mode where
  file_mode : FileMode
  raw_mode : Nat
deriving DecidableEq, Repr

/-- Rust `Mode::new`: if all three user permission bits are set
(`m & 0o700 == 0o700`) the mode is executable with raw mode `0o100755`,
otherwise regular with raw mode `0o100644`. -/
def Mode.new (actual_mode : Nat) : Mode :=
  if Nat.land actual_mode 0o700 = 0o700 then
    { file_mode := .executable, raw_mode := 0o100755 }
  else
    { file_mode := .regular, raw_mode := 0o100644 }

/-- Rust `IndexEntry` (current implementation, `src/src/index.rs`).  The
`object_id` field holds the id as a list of half-byte values (the in-memory
`ObjectId` representation: one value per hex digit, 40 values for a real
id). -/
structure IndexEntry where
  ctime_seconds : Nat
  ctime_nanoseconds : Nat
  mtime_seconds : Nat
  mtime_nanoseconds : Nat
  dev : Nat
  ino : Nat
  mode : Mode
  uid : Nat
  gid : Nat
  file_size : Nat
  path : RPath
  object_id : List Nat
deriving DecidableEq, Repr

/-- Rust `IndexEntry::new`: build an entry from stat metadata (all numeric
fields are `as u32` casts, hence the `% 2^32`), coercing the mode through
`Mode::new`. -/
def IndexEntry.new (path : RPath) (object_id : List Nat)
    (ctime ctimeNs mtime mtimeNs dev ino rawMode uid gid size : Nat) : IndexEntry :=
  { ctime_seconds := ctime % 2 ^ 32
    ctime_nanoseconds := ctimeNs % 2 ^ 32
    mtime_seconds := mtime % 2 ^ 32
    mtime_nanoseconds := mtimeNs % 2 ^ 32
    dev := dev % 2 ^ 32
    ino := ino % 2 ^ 32
    mode := Mode.new (rawMode % 2 ^ 32)
    uid := uid % 2 ^ 32
    gid := gid % 2 ^ 32
    file_size := size % 2 ^ 32
    path := path
    object_id := object_id }

/-- Rust `pad_to_block_size`: pad with zero bytes until the length is a
multiple of 8. -/
def padToBlockSize (bytes : List Nat) : List Nat :=
  bytes ++ List.replicate ((8 - bytes.length % 8) % 8) 0

/-- Rust `IndexEntry::as_vec`: ten big-endian `u32` fields, the packed
object id (`hexlify`), the big-endian `u16` path length, the path bytes, a
NUL terminator, and padding to a multiple of 8 bytes. -/
def IndexEntry.asVec (e : IndexEntry) : List Nat :=
  let pb := pathBytes e.path
  padToBlockSize
    (u32be e.ctime_seconds ++ u32be e.ctime_nanoseconds ++
     u32be e.mtime_seconds ++ u32be e.mtime_nanoseconds ++
     u32be e.dev ++ u32be e.ino ++ u32be e.mode.raw_mode ++
     u32be e.uid ++ u32be e.gid ++ u32be e.file_size ++
     hexlify e.object_id ++ u16be pb.length ++ pb ++ [0])

/-- Rust `Index::parse_entry` (`src/src/index.rs`): read the ten `u32`
fields, 20 packed object-id bytes (`BYTES_PER_PACKED_OID`) which are
unpacked with `unhexlify`, the `u16` path length, and the path bytes; the
consumed size is the unpadded size (`position + path_size + 1`, with
`position = 62`) rounded up to a multiple of 8, with no padding added when
it is already a multiple of 8.  Reads are sequential, equivalent to the
Rust `position` bookkeeping over one byte slice. -/
def parseEntry (bytes : List Nat) : Except String (IndexEntry × Nat) := do
  let (f1, r1) ← readBytes 4 bytes
  let ctime_seconds ← toBeU32 f1
  let (f2, r2) ← readBytes 4 r1
  let ctime_nanoseconds ← toBeU32 f2
  let (f3, r3) ← readBytes 4 r2
  let mtime_seconds ← toBeU32 f3
  let (f4, r4) ← readBytes 4 r3
  let mtime_nanoseconds ← toBeU32 f4
  let (f5, r5) ← readBytes 4 r4
  let dev ← toBeU32 f5
  let (f6, r6) ← readBytes 4 r5
  let ino ← toBeU32 f6
  let (f7, r7) ← readBytes 4 r6
  let rawMode ← toBeU32 f7
  let mode := Mode.new rawMode
  let (f8, r8) ← readBytes 4 r7
  let uid ← toBeU32 f8
  let (f9, r9) ← readBytes 4 r8
  let gid ← toBeU32 f9
  let (f10, r10) ← readBytes 4 r9
  let file_size ← toBeU32 f10
  let (oidBytes, r11) ← readBytes 20 r10
  let object_id := unhexlify oidBytes
  let (psb, r12) ← readBytes 2 r11
  let path_size ← toBeU16 psb
  let (pb, _r13) ← readBytes path_size r12
  let path := splitOnSlash pb
  let entry : IndexEntry :=
    { ctime_seconds, ctime_nanoseconds, mtime_seconds, mtime_nanoseconds,
      dev, ino, mode, uid, gid, file_size, path, object_id }
  let unpaddedEntrySize := 62 + path_size + 1
  let entryPadding := if unpaddedEntrySize % 8 ≠ 0 then 8 - unpaddedEntrySize % 8 else 0
  .ok (entry, unpaddedEntrySize + entryPadding)

/-! ## The index maps

`Index` holds `entries: HashMap<PathBuf, IndexEntry>` and
`directories: HashMap<PathBuf, HashSet<String>>`.  Both are modelled as
association lists kept sorted by key (`cmpPath`), with set values kept
sorted and duplicate-free (`cmpComp`); hash-container equality coincides
with structural equality of these canonical forms. -/

/-- Sorted duplicate-free insertion into a set of components
(canonical `HashSet<String>::insert`). -/
def insComp (c : Comp) : List Comp → List Comp
  | [] => [c]
  | x :: xs =>
      match cmpComp c x with
      | .lt => c :: x :: xs
      | .eq => x :: xs
      | .gt => x :: insComp c xs

/-- Sorted insertion of an entry keyed by its path, replacing an existing
entry with the same path (canonical `HashMap::insert`). -/
def insEntry (e : IndexEntry) : List IndexEntry → List IndexEntry
  | [] => [e]
  | x :: xs =>
      match cmpPath e.path x.path with
      | .lt => e :: x :: xs
      | .eq => e :: xs
      | .gt => x :: insEntry e xs

/-- Key lookup in the entries map. -/
def lookupEntry (entries : List IndexEntry) (p : RPath) : Option IndexEntry :=
  entries.find? (fun e => e.path = p)

/-- Key removal in the entries map (`HashMap::remove`; keys are unique in
canonical form, so removing all occurrences is the same operation). -/
def eraseEntry (entries : List IndexEntry) (p : RPath) : List IndexEntry :=
  entries.filter (fun e => ¬ e.path = p)

/-- The canonical directories map. -/
abbrev DirsMap := List (RPath × List Comp)

/-- Key lookup in the directories map. -/
def dirsLookup (dirs : DirsMap) (p : RPath) : Option (List Comp) :=
  (dirs.find? (fun kv => kv.1 = p)).map (·.2)

/-- Key removal in the directories map. -/
def dirsEraseKey (dirs : DirsMap) (p : RPath) : DirsMap :=
  dirs.filter (fun kv => ¬ kv.1 = p)

/-- Replace the value stored at an existing key, keeping its position
(the Rust `get_mut` in-place mutation). -/
def dirsSetValue (dirs : DirsMap) (p : RPath) (v : List Comp) : DirsMap :=
  dirs.map (fun kv => if kv.1 = p then (p, v) else kv)

/-- Sorted insertion of a child name into the set stored at a key,
creating the key if absent (the body of `insert_into_directories_map` for
one directory level). -/
def dirsInsertChild (dirs : DirsMap) (p : RPath) (c : Comp) : DirsMap :=
  match dirs with
  | [] => [(p, [c])]
  | kv :: rest =>
      match cmpPath p kv.1 with
      | .lt => (p, [c]) :: kv :: rest
      | .eq => (kv.1, insComp c kv.2) :: rest
      | .gt => kv :: dirsInsertChild rest p c

/-- Rust `Index` (current implementation). -/
structure Index where
  entries : List IndexEntry
  directories : DirsMap
deriving DecidableEq, Repr

/-- Rust `Index::new`. -/
def Index.empty : Index := { entries := [], directories := [] }

/-- Rust `Index::insert_into_directories_map`, which walks from the leaf
to the root: for each proper ancestor `take j p` it inserts the next
component `p[j]` into that ancestor's child set.  The counter starts at
`p.length` and the recursion stops at the empty path, mirroring
`ancestors().skip(1)`. -/
def insertIntoDirectoriesMapAux (p : RPath) : Nat → DirsMap → DirsMap
  | 0, dirs => dirs
  | j + 1, dirs =>
      insertIntoDirectoriesMapAux p j (dirsInsertChild dirs (p.take j) (p.getD j []))

/-- Rust `Index::remove_from_directories_map`: starting from the removed
entry's path, delete its name from the parent's child set; when a set
becomes empty, delete the directory key and continue with the parent.
When a parent key is missing, stop.  The counter tracks the current path
length, as in `insertIntoDirectoriesMapAux`. -/
def removeFromDirectoriesMapAux (p : RPath) : Nat → DirsMap → DirsMap
  | 0, dirs => dirs
  | j + 1, dirs =>
      let parent := p.take j
      match dirsLookup dirs parent with
      | none => dirs
      | some children =>
          let children' := children.filter (fun c => ¬ c = p.getD j [])
          if children'.isEmpty then
            removeFromDirectoriesMapAux p j (dirsEraseKey dirs parent)
          else
            dirsSetValue dirs parent children'

/-- Rust `Index::remove`: remove the entry if present, then prune the
directories map; if no entry exists, do nothing. -/
def Index.remove (i : Index) (p : RPath) : Index :=
  if (lookupEntry i.entries p).isSome then
    { entries := eraseEntry i.entries p
      directories := removeFromDirectoriesMapAux p p.length i.directories }
  else i

/-- Work items for the `remove_directory` recursion: `remove_directory(d)`
pops the child set of `d` and, for each child `c` in turn, runs
`remove(d ++ [c])` then `remove_directory(d ++ [c])`. -/
inductive DirTask
  | entry (p : RPath)
  | dir (p : RPath)
deriving DecidableEq, Repr

/-- The sum over the directories map of `1 +` the child-set size; a
strictly decreasing measure for the `remove_directory` traversal. -/
def dirsSize (dirs : DirsMap) : Nat :=
  (dirs.map (fun kv => 1 + kv.2.length)).sum

/-- Rust `Index::remove_directory`, defunctionalized: the task list holds
the pending `remove`/`remove_directory` calls in depth-first order.  The
first argument is recursion fuel; every step strictly decreases
`tasks.length + 2 * dirsSize`, so fuel equal to that quantity always
suffices (see `removeDirLoop_stable`-style lemmas below). -/
def removeDirLoop : Nat → Index → List DirTask → Index
  | 0, i, _ => i
  | _ + 1, i, [] => i
  | fuel + 1, i, .entry p :: rest => removeDirLoop fuel (i.remove p) rest
  | fuel + 1, i, .dir p :: rest =>
      match dirsLookup i.directories p with
      | none => removeDirLoop fuel i rest
      | some children =>
          let i' : Index := { i with directories := dirsEraseKey i.directories p }
          let tasks := children.flatMap (fun c => [DirTask.entry (p ++ [c]), DirTask.dir (p ++ [c])])
          removeDirLoop fuel i' (tasks ++ rest)

/-- Rust `Index::remove_directory`, with sufficient fuel supplied. -/
def removeDirectory (i : Index) (p : RPath) : Index :=
  removeDirLoop (1 + 2 * dirsSize i.directories + 1) i [.dir p]

/-- Rust `Index::discard_conflicting_entries`: `remove_directory(path)`,
then `remove(parent)` for every ancestor of `path` (including `path`
itself and the empty path). -/
def discardConflictingEntries (i : Index) (p : RPath) : Index :=
  (ancestorsList p).foldl Index.remove (removeDirectory i p)

/-- Rust `Index::add_entry`: discard conflicting entries, record the
path's ancestors in the directories map, and insert the entry. -/
def Index.addEntry (i : Index) (e : IndexEntry) : Index :=
  let i1 := discardConflictingEntries i e.path
  { entries := insEntry e i1.entries
    directories := insertIntoDirectoriesMapAux e.path e.path.length i1.directories }

/-- Rust `Index::get_entries`: the entries sorted by path ascending.  The
canonical representation is already sorted. -/
def Index.getEntries (i : Index) : List IndexEntry := i.entries

/-- Rust `Index::as_vec` (via the `AsVec` impl): signature, version,
big-endian entry count, the sorted entries, and the SHA-1 trailer.  The
`DIRC` signature bytes are 68, 73, 82, 67. -/
def Index.asVec (i : Index) : List Nat :=
  let body := [68, 73, 82, 67] ++ [0, 0, 0, 2] ++ u32be i.entries.length ++
    (i.getEntries.flatMap IndexEntry.asVec)
  body ++ sha1Hash body

/-- The entry-parsing loop of `Index::from_bytes`: parse `n` entries,
adding each to the index with `add_entry`; each iteration slices
`&bytes[position..]` (a panic, hence an error, when `position` exceeds the
length). -/
def parseEntries (bytes : List Nat) : Index → Nat → Nat → Except String Index
  | idx, 0, _ => .ok idx
  | idx, n + 1, pos =>
      if pos ≤ bytes.length then do
        let (e, consumed) ← parseEntry (bytes.drop pos)
        parseEntries bytes (idx.addEntry e) n (pos + consumed)
      else .error "slice index out of range"

/-- Rust `Index::from_bytes` (current implementation): read the entry
count at offset 8 (after the 4-byte signature and 4-byte version, neither
of which is validated) and parse that many entries starting at offset 12.
The SHA-1 trailer is never examined. -/
def Index.fromBytes (bytes : List Nat) : Except String Index := do
  let pre ← sliceCk bytes 8 4
  let numEntries ← toBeU32 pre
  parseEntries bytes Index.empty numEntries 12

/-- Decidable equality for `Except`, used to evaluate parser results on
concrete inputs. -/
instance {ε α : Type} [DecidableEq ε] [DecidableEq α] : DecidableEq (Except ε α) := by
  intro a b
  cases a <;> cases b
  case error.error x y =>
    exact match decEq x y with
    | isTrue h => isTrue (by rw [h])
    | isFalse h => isFalse (by intro hc; cases hc; exact h rfl)
  case ok.ok x y =>
    exact match decEq x y with
    | isTrue h => isTrue (by rw [h])
    | isFalse h => isFalse (by intro hc; cases hc; exact h rfl)
  case error.ok x y => exact isFalse (by intro hc; cases hc)
  case ok.error x y => exact isFalse (by intro hc; cases hc)

/-! ## The legacy index parser (`src/index.rs`)

The repository keeps an earlier parallel implementation of the index.
Its entry struct stores the raw (uncoerced) mode, its `Index` is a plain
vector of entries in parse order, and its entry-size computation pads
unconditionally with `8 - unpadded % 8` bytes — adding 8 spurious bytes
when the unpadded size is already a multiple of 8. -/

/-- Legacy `IndexEntry` (`src/index.rs`): same fields, but the mode is the
raw `u32` read from disk, with no coercion. -/
structure OldIndexEntry where
  ctime_seconds : Nat
  ctime_nanoseconds : Nat
  mtime_seconds : Nat
  mtime_nanoseconds : Nat
  dev : Nat
  ino : Nat
  mode : Nat
  uid : Nat
  gid : Nat
  file_size : Nat
  path : RPath
  object_id : List Nat
deriving DecidableEq, Repr

/-- The entry-parsing step of the legacy `Index::from_bytes`
(`src/index.rs` lines 57–112): identical field reads, but
`entry_padding = 8 - unpadded_entry_size % 8` without the zero guard. -/
def oldParseEntry (bytes : List Nat) : Except String (OldIndexEntry × Nat) := do
  let (f1, r1) ← readBytes 4 bytes
  let ctime_seconds ← toBeU32 f1
  let (f2, r2) ← readBytes 4 r1
  let ctime_nanoseconds ← toBeU32 f2
  let (f3, r3) ← readBytes 4 r2
  let mtime_seconds ← toBeU32 f3
  let (f4, r4) ← readBytes 4 r3
  let mtime_nanoseconds ← toBeU32 f4
  let (f5, r5) ← readBytes 4 r4
  let dev ← toBeU32 f5
  let (f6, r6) ← readBytes 4 r5
  let ino ← toBeU32 f6
  let (f7, r7) ← readBytes 4 r6
  let mode ← toBeU32 f7
  let (f8, r8) ← readBytes 4 r7
  let uid ← toBeU32 f8
  let (f9, r9) ← readBytes 4 r8
  let gid ← toBeU32 f9
  let (f10, r10) ← readBytes 4 r9
  let file_size ← toBeU32 f10
  let (oidBytes, r11) ← readBytes 20 r10
  let object_id := unhexlify oidBytes
  let (psb, r12) ← readBytes 2 r11
  let path_size ← toBeU16 psb
  let (pb, _r13) ← readBytes path_size r12
  let path := splitOnSlash pb
  let entry : OldIndexEntry :=
    { ctime_seconds, ctime_nanoseconds, mtime_seconds, mtime_nanoseconds,
      dev, ino, mode, uid, gid, file_size, path, object_id }
  let unpaddedEntrySize := 62 + path_size + 1
  let entryPadding := 8 - unpaddedEntrySize % 8
  .ok (entry, unpaddedEntrySize + entryPadding)

/-- The entry loop of the legacy `Index::from_bytes`: entries are
collected in parse order (plain `Vec::push`, no collision handling). -/
def oldParseEntriesLoop (bytes : List Nat) : List OldIndexEntry → Nat → Nat →
    Except String (List OldIndexEntry)
  | acc, 0, _ => .ok acc
  | acc, n + 1, pos =>
      if pos ≤ bytes.length then do
        let (e, consumed) ← oldParseEntry (bytes.drop pos)
        oldParseEntriesLoop bytes (acc ++ [e]) n (pos + consumed)
      else .error "slice index out of range"

/-- Legacy `Index::from_bytes` (`src/index.rs`). -/
def oldFromBytes (bytes : List Nat) : Except String (List OldIndexEntry) := do
  let pre ← sliceCk bytes 8 4
  let numEntries ← toBeU32 pre
  oldParseEntriesLoop bytes [] numEntries 12

/-- View a legacy entry through the current entry type: the only
difference in the parsed data is that the current parser coerces the mode
through `Mode::new`. -/
def OldIndexEntry.toNew (e : OldIndexEntry) : IndexEntry :=
  { ctime_seconds := e.ctime_seconds, ctime_nanoseconds := e.ctime_nanoseconds,
    mtime_seconds := e.mtime_seconds, mtime_nanoseconds := e.mtime_nanoseconds,
    dev := e.dev, ino := e.ino, mode := Mode.new e.mode, uid := e.uid,
    gid := e.gid, file_size := e.file_size, path := e.path,
    object_id := e.object_id }

/-! ## Myers diff engine (`src/src/diff.rs`)

The `edit_script` pipeline: `compute_edit_path_graph` (forward pass with a
trace of the `v` arrays), `trace_edit_points` (backtracking), and
`compute_edit_script` (emitting typed edits).  Loops are modelled as
recursions with exact iteration counts; out-of-bounds accesses (Rust
`unwrap` panics and `usize` wrap-arounds of negative indices, which always
land out of bounds here) are modelled as errors. -/

/-- Rust `adjust_index`: negative indices address from the end. -/
def adjustIndex (len : Nat) (index : Int) : Int :=
  if index < 0 then (len : Int) + index else index

/-- Rust `get`: bounds-checked read with negative-index support; the Rust
`unwrap` panic is an error. -/
def getv (v : List Nat) (index : Int) : Except String Nat :=
  let i := adjustIndex v.length index
  if 0 ≤ i ∧ i.toNat < v.length then .ok (v.getD i.toNat 0)
  else .error "index out of range"

/-- Rust `set`: bounds-checked write with negative-index support. -/
def setv (v : List Nat) (index : Int) (value : Nat) : Except String (List Nat) :=
  let i := adjustIndex v.length index
  if 0 ≤ i ∧ i.toNat < v.length then .ok (v.set i.toNat value)
  else .error "index out of range"

/-- Bounds-checked element access `xs[i]` for an `Int` index cast to
`usize` (negative values wrap out of bounds, a panic). -/
def listGetE (xs : List α) (i : Int) : Except String α :=
  if h : 0 ≤ i ∧ i.toNat < xs.length then .ok (xs.get ⟨i.toNat, h.2⟩)
  else .error "index out of range"

/-- Rust `EditKind`. -/
inductive EditKind
  | addition
  | deletion
  | equal
deriving DecidableEq, Repr

/-- Rust `Edit`: an edit-script element with its content and recorded
positions. -/
structure Edit (α : Type) where
  content : α
  a_position : Option Nat
  b_position : Option Nat
  kind : EditKind
deriving DecidableEq, Repr

/-- Rust `Edit::addition`. -/
def Edit.addition (content : α) (b_position : Nat) : Edit α :=
  ⟨content, none, some b_position, .addition⟩

/-- Rust `Edit::deletion`. -/
def Edit.deletion (content : α) (a_position : Nat) : Edit α :=
  ⟨content, some a_position, none, .deletion⟩

/-- Rust `Edit::equal`. -/
def Edit.equal (content : α) (a_position b_position : Nat) : Edit α :=
  ⟨content, some a_position, some b_position, .equal⟩

/-- The length of the common prefix of two lists: the diagonal "snake"
`while x < a.len() && y < b.len() && a[x] == b[y]`, expressed on the
suffixes `a.drop x` and `b.drop y`. -/
def snakeLen [DecidableEq α] : List α → List α → Nat
  | a :: as_, b :: bs => if a = b then snakeLen as_ bs + 1 else 0
  | _, _ => 0

/-- The inner `k` loop of `compute_edit_path_graph` at depth `d`: for each
`k`, choose the predecessor diagonal, snake, store `x` in `v`, and signal
early return (`some k`) when both sequences are exhausted.  `y` is an
`i32`-minus cast to `usize` in Rust; a negative value wraps above every
length, which the guards reproduce. -/
def processKs [DecidableEq α] (a b : List α) (d : Int) :
    List Int → List Nat → Except String (List Nat × Option Int)
  | [], v => .ok (v, none)
  | k :: rest, v => do
      let x1 ←
        if k = -d then getv v (k + 1)
        else do
          let l ← getv v (k - 1)
          if k ≠ d then do
            let r ← getv v (k + 1)
            if l < r then getv v (k + 1) else pure (l + 1)
          else pure (l + 1)
      let y0 : Int := (x1 : Int) - k
      let s := if 0 ≤ y0 then snakeLen (a.drop x1) (b.drop y0.toNat) else 0
      let x2 := x1 + s
      let y2 := y0 + s
      let v' ← setv v k x2
      if a.length ≤ x2 ∧ (y2 < 0 ∨ (b.length : Int) ≤ y2) then .ok (v', some k)
      else processKs a b d rest v'

/-- The outer `d` loop of `compute_edit_path_graph`.  The Rust loop runs
`d` over `0..v.len()` and panics if it completes; the fuel counts the
remaining iterations. -/
def computeEditPathGraphLoop [DecidableEq α] (a b : List α) :
    Nat → Int → List Nat → List (List Nat) → Except String (Int × List (List Nat))
  | 0, _, _, _ => .error "could not find the shortest path"
  | fuel + 1, d, v, trace => do
      let ks := (List.range (d.toNat + 1)).map (fun j => -d + 2 * (j : Int))
      match ← processKs a b d ks v with
      | (v', some k) => .ok (k, trace ++ [v'])
      | (v', none) => computeEditPathGraphLoop a b fuel (d + 1) v' (trace ++ [v'])

/-- Rust `compute_edit_path_graph`. -/
def computeEditPathGraph [DecidableEq α] (a b : List α) :
    Except String (Int × List (List Nat)) :=
  let maxDepth := a.length + b.length
  let v := List.replicate (2 * maxDepth + 1) 0
  computeEditPathGraphLoop a b v.length 0 v []

/-- Rust `compute_previous_k`. -/
def computePreviousK (k d : Int) (v : List Nat) : Except String Int :=
  if k = -d then .ok (k + 1)
  else if k = d then .ok (k - 1)
  else do
    let l ← getv v (k - 1)
    let r ← getv v (k + 1)
    if l < r then .ok (k + 1) else .ok (k - 1)

/-- The backward loop of `trace_edit_points`: `for d in
(0..trace.len()-1).rev()`.  The counter `m + 1` runs from `trace.len() - 1`
down to `1`, so the loop variable `d` is `m`. -/
def traceEditPointsLoop (trace : List (List Nat)) :
    Nat → Int → List (Int × Int) → Except String (List (Int × Int))
  | 0, _, acc => .ok acc
  | m + 1, k, acc => do
      let v ← listGetE trace (m : Int)
      let k' ← computePreviousK k (m : Int) v
      let x ← getv v k'
      let y : Int := (x : Int) - k'
      traceEditPointsLoop trace m k' (acc ++ [((x : Int), y)])

/-- Rust `trace_edit_points`. -/
def traceEditPoints (finalK : Int) (trace : List (List Nat)) :
    Except String (List (Int × Int)) := do
  let finalV ← listGetE trace ((trace.length : Int) - 1)
  let finalX ← getv finalV finalK
  let finalY : Int := (finalX : Int) - finalK
  traceEditPointsLoop trace (trace.length - 1) finalK [((finalX : Int), finalY)]

/-- The `while x > *prev_x && y > *prev_y` snake-replay loop of
`compute_edit_script`, emitting `Equal` edits; also used (with bounds `0`)
for the trailing `while x > 0 && y > 0` loop.  Fuel bounds the iteration
count; `(x - px).toNat` iterations always suffice since `x` decreases by
one per iteration. -/
def whileEqBack [DecidableEq α] (a : List α) (px py : Int) :
    Nat → Int → Int → List (Edit α) → Except String (Int × Int × List (Edit α))
  | 0, x, y, acc => .ok (x, y, acc)
  | fuel + 1, x, y, acc =>
      if px < x ∧ py < y then do
        let x' := x - 1
        let y' := y - 1
        let c ← listGetE a x'
        whileEqBack a px py fuel x' y' (acc ++ [Edit.equal c x'.toNat y'.toNat])
      else .ok (x, y, acc)

/-- The per-point loop of `compute_edit_script`: replay the snake, then
emit one `Deletion` (when `x > prev_x`) or one `Addition`. -/
def computeEditScriptLoop [DecidableEq α] (a b : List α) :
    List (Int × Int) → Int → Int → List (Edit α) → Except String (Int × Int × List (Edit α))
  | [], x, y, acc => .ok (x, y, acc)
  | (px, py) :: rest, x, y, acc => do
      let (x1, y1, acc1) ← whileEqBack a px py (x - px).toNat x y acc
      if px < x1 then do
        let x2 := x1 - 1
        let c ← listGetE a x2
        computeEditScriptLoop a b rest x2 y1 (acc1 ++ [Edit.deletion c x2.toNat])
      else do
        let y2 := y1 - 1
        let c ← listGetE b y2
        computeEditScriptLoop a b rest x1 y2 (acc1 ++ [Edit.addition c y2.toNat])

/-- Rust `compute_edit_script`: start from the first reversed edit point
(`reversed_edit_points[0]`, a panic when absent), walk the remaining
points, finish with the trailing equal-snake to the origin, and reverse
the accumulated edits. -/
def computeEditScript [DecidableEq α] (a b : List α)
    (reversedEditPoints : List (Int × Int)) : Except String (List (Edit α)) := do
  let (x0, y0) ← listGetE reversedEditPoints 0
  let (x1, y1, acc1) ← computeEditScriptLoop a b reversedEditPoints.tail x0 y0 []
  let (_, _, acc2) ← whileEqBack a 0 0 x1.toNat x1 y1 acc1
  .ok acc2.reverse

/-- Rust `edit_script`: the full Myers pipeline. -/
def editScript [DecidableEq α] (a b : List α) : Except String (List (Edit α)) := do
  let (finalK, graph) ← computeEditPathGraph a b
  let pts ← traceEditPoints finalK graph
  computeEditScript a b pts

/-- Applying an edit script, in the sense of the specification: each
`Equal` element is kept, each `Addition` element is inserted, each
`Deletion` element is removed; the retained contents, in script order, are
the claimed reconstruction of `B`. -/
def applyEditScript (script : List (Edit α)) : List α :=
  script.filterMap (fun e =>
    match e.kind with
    | .deletion => none
    | _ => some e.content)

/-- The number of edits of a given kind in a script. -/
def countKind (k : EditKind) (script : List (Edit α)) : Nat :=
  (script.filter (fun e => e.kind = k)).length

/-- Longest-common-subsequence length, as referenced by the specification
("LCS(A,B)"), via the textbook recursion.  The first argument is fuel;
`a.length + b.length` always suffices. -/
def lcsLen [DecidableEq α] : Nat → List α → List α → Nat
  | 0, _, _ => 0
  | _ + 1, [], _ => 0
  | _ + 1, _, [] => 0
  | fuel + 1, a :: as_, b :: bs =>
      if a = b then lcsLen fuel as_ bs + 1
      else max (lcsLen fuel as_ (b :: bs)) (lcsLen fuel (a :: as_) bs)

/-! ## Hunk chunking (`src/src/diff.rs`: `chunk_edit_script`)

The chunker is used with string-like contents (`T: AsRef<str>`); contents
are modelled as byte lists.  Rust chunks hold references into the edit
script; a reference is modelled as the pair of the edit's script position
and the edit itself. -/

/-- An edit over line contents, as chunked. -/
abbrev EditS := Edit (List Nat)

/-- Rust `Chunk`: the member edits (position-tagged references) and the
four 1-indexed display bounds computed by `Chunk::new`. -/
structure Chunk where
  edits : List (Nat × EditS)
  a_start : Nat
  a_end : Nat
  b_start : Nat
  b_end : Nat
deriving DecidableEq, Repr

/-- The fold inside Rust `Chunk::new` collecting the first/last `a` and
`b` positions. -/
def chunkBoundsFold (st : Option Nat × Option Nat × Option Nat × Option Nat)
    (ie : Nat × EditS) : Option Nat × Option Nat × Option Nat × Option Nat :=
  let (aStart, aEnd, bStart, bEnd) := st
  let e := ie.2
  match e.kind with
  | .equal =>
      (if aStart.isNone then e.a_position else aStart,
       e.a_position,
       if bStart.isNone then e.b_position else bStart,
       e.b_position)
  | .deletion =>
      (if aStart.isNone then e.a_position else aStart, e.a_position, bStart, bEnd)
  | .addition =>
      (aStart, aEnd, if bStart.isNone then e.b_position else bStart, e.b_position)

/-- Rust `Chunk::new`: derive the 1-indexed, end-exclusive bounds from the
member edits (`0` when a side is absent). -/
def Chunk.new (edits : List (Nat × EditS)) : Chunk :=
  let (aStart, aEnd, bStart, bEnd) := edits.foldl chunkBoundsFold (none, none, none, none)
  { edits := edits
    a_start := (aStart.map (· + 1)).getD 0
    a_end := (aEnd.map (· + 2)).getD 0
    b_start := (bStart.map (· + 1)).getD 0
    b_end := (bEnd.map (· + 2)).getD 0 }

/-- Rust `should_show`: every edit is shown except the last edit of the
script when its content is empty (the suppressed trailing newline line). -/
def shouldShow (e : EditS) (position editScriptSize : Nat) : Bool :=
  if position < editScriptSize - 1 then true else ¬ e.content.isEmpty

/-- Rust `drain_context_into_chunk`: move the last `context_size` context
edits into the chunk and clear the context. -/
def drainContextIntoChunk (context chunkContent : List (Nat × EditS)) (contextSize : Nat) :
    List (Nat × EditS) :=
  let contextToSkip := if contextSize < context.length then context.length - contextSize else 0
  chunkContent ++ context.drop contextToSkip

/-- The loop state of `chunk_edit_script`. -/
structure ChunkState where
  chunks : List Chunk
  chunkContent : List (Nat × EditS)
  context : List (Nat × EditS)
  lastMutatingEditIdx : Nat
deriving Repr

/-- One iteration of the `chunk_edit_script` loop on the edit at script
position `i`.  (The Rust source appends the already-drained context a
second time, a no-op.) -/
def chunkStep (editScriptSize contextSize : Nat) (st : ChunkState) (i : Nat) (e : EditS) :
    ChunkState :=
  match e.kind with
  | .equal =>
      let st :=
        if contextSize < i - st.lastMutatingEditIdx ∧ ¬ st.chunkContent.isEmpty then
          { st with chunks := st.chunks ++ [Chunk.new (st.chunkContent ++ st.context)]
                    chunkContent := []
                    context := [] }
        else st
      if shouldShow e i editScriptSize then
        { st with context := st.context ++ [(i, e)] }
      else st
  | .deletion =>
      let st := { st with lastMutatingEditIdx := i
                          chunkContent := drainContextIntoChunk st.context st.chunkContent contextSize
                          context := [] }
      if shouldShow e i editScriptSize then
        { st with chunkContent := st.chunkContent ++ [(i, e)] }
      else st
  | .addition =>
      let st := { st with lastMutatingEditIdx := i
                          chunkContent := drainContextIntoChunk st.context st.chunkContent contextSize
                          context := [] }
      { st with chunkContent := st.chunkContent ++ [(i, e)] }

/-- The loop of `chunk_edit_script` over the edits from position `i`. -/
def chunkLoop (editScriptSize contextSize : Nat) : ChunkState → Nat → List EditS → ChunkState
  | st, _, [] => st
  | st, i, e :: rest =>
      chunkLoop editScriptSize contextSize (chunkStep editScriptSize contextSize st i e) (i + 1) rest

/-- Rust `chunk_edit_script`: run the loop, then flush a trailing
non-empty chunk, draining the remaining context into it. -/
def chunkEditScript (script : List EditS) (contextSize : Nat) : List Chunk :=
  let st := chunkLoop script.length contextSize
    { chunks := [], chunkContent := [], context := [], lastMutatingEditIdx := 0 } 0 script
  if ¬ st.chunkContent.isEmpty then
    st.chunks ++ [Chunk.new (drainContextIntoChunk st.context st.chunkContent contextSize)]
  else st.chunks

/-- All position-tagged edits appearing in some chunk. -/
def chunksEdits (chunks : List Chunk) : List (Nat × EditS) :=
  chunks.flatMap Chunk.edits

/-! ## Object-id prefix lookup (`src/src/workspace.rs`: `Database::prefix_match`)

The object database directory layout is modelled as the list of
`(directory name, file names)` pairs in the order the filesystem yields
them; names are byte strings of ASCII characters. -/

/-- The value of an ASCII hex digit, as accepted by Rust
`u8::from_str_radix(-, 16)` on a single character. -/
def hexDigitVal (b : Nat) : Option Nat :=
  if 48 ≤ b ∧ b ≤ 57 then some (b - 48)
  else if 97 ≤ b ∧ b ≤ 102 then some (b - 87)
  else if 65 ≤ b ∧ b ≤ 70 then some (b - 55)
  else none

/-- Rust `hex::from_hex_string` / `ObjectId::from_sha`: every character
must be a hex digit; the result is the list of half-byte values. -/
def fromHexString : List Nat → Option (List Nat)
  | [] => some []
  | b :: rest => do
      let v ← hexDigitVal b
      let vs ← fromHexString rest
      pure (v :: vs)

/-- Boolean string-prefix test (Rust `str::starts_with`). -/
def bytesStartWith : List Nat → List Nat → Bool
  | [], _ => true
  | _ :: _, [] => false
  | a :: as_, b :: bs => a = b ∧ bytesStartWith as_ bs

/-- The inner file loop of `prefix_match` for one prefix directory: the
first file whose concatenated name starts with the query is converted with
`ObjectId::from_sha` and returned; a conversion failure aborts the whole
lookup with `None` (the `?` operator).  `none` means "keep scanning". -/
def prefixMatchFiles (dirName : List Nat) (short : List Nat) :
    List (List Nat) → Option (Option (List Nat))
  | [] => none
  | f :: rest =>
      let oid := dirName ++ f
      if bytesStartWith short oid then some (fromHexString oid)
      else prefixMatchFiles dirName short rest

/-- Rust `Database::prefix_match`: scan the prefix directories in
filesystem order and return the first object id whose name starts with the
query; `none` when nothing matches.  No ambiguity detection is performed
(the source carries a `TODO handle ambiguous short commit ids`). -/
def prefixMatch (objectsDir : List (List Nat × List (List Nat))) (short : List Nat) :
    Option (List Nat) :=
  match objectsDir with
  | [] => none
  | (dirName, files) :: rest =>
      match prefixMatchFiles dirName short files with
      | some r => r
      | none => prefixMatch rest short

/-- The number of stored objects whose name starts with the query, used to
state the lookup claims. -/
def prefixMatchCount (objectsDir : List (List Nat × List (List Nat))) (short : List Nat) : Nat :=
  (objectsDir.flatMap (fun df => df.2.map (fun f => df.1 ++ f))).countP
    (fun oid => bytesStartWith short oid)

/-! ## Revision resolution (`src/src/refs.rs`)

`Revision::resolve` needs a repository: only the commit graph (each commit
id's optional first parent) and reference dereferencing are consulted.
The commit graph is an association list from commit id to parent; `deref`
is passed as a function.  `io::Result` failures are collapsed to `none`
(the claims concern success and failure, not messages). -/

/-- Rust `Revision` (reference names are opaque to resolution and
modelled as `Nat`). -/
inductive Revision
  | reference (name : Nat)
  | parent (rev : Revision)
  | ancestor (rev : Revision) (count : Nat)
deriving DecidableEq, Repr

/-- A commit database: commit id to optional first-parent id.
`Database::load_commit` of a missing id is an I/O error. -/
abbrev CommitDb := List (Nat × Option Nat)

/-- Rust `Database::load_commit`, restricted to the parent field. -/
def loadCommitParent (db : CommitDb) (oid : Nat) : Option (Option Nat) :=
  (db.find? (fun kv => kv.1 = oid)).map (·.2)

/-- The `for _ in 1..count` loop of the `Ancestor` arm: follow `n` more
first-parent links from `parent_oid`. -/
def ancestorLoop (db : CommitDb) : Nat → Nat → Option Nat
  | 0, oid => some oid
  | n + 1, oid => do
      let parent ← loadCommitParent db oid
      let parentOid ← parent
      ancestorLoop db n parentOid

/-- Rust `Revision::resolve`: a `Reference` defers to `deref`; `Parent`
takes the resolved commit's first parent (failing when there is none);
`Ancestor(rev, count)` takes the first parent once and then walks
`count - 1` further hops — so `count = 0` behaves like `count = 1`. -/
def Revision.resolve (db : CommitDb) (deref : Nat → Option Nat) : Revision → Option Nat
  | .reference name => deref name
  | .parent rev => do
      let oid ← rev.resolve db deref
      let parent ← loadCommitParent db oid
      parent
  | .ancestor rev count => do
      let oid ← rev.resolve db deref
      let parent ← loadCommitParent db oid
      let parentOid ← parent
      ancestorLoop db (count - 1) parentOid

/-- Walking exactly `n` first-parent hops from a commit, as the
specification describes `X~N` ("the commit reached by walking exactly N
first-parent hops, failing if any commit on the way has no parent"). -/
def specWalkN (db : CommitDb) : Nat → Nat → Option Nat
  | 0, oid => some oid
  | n + 1, oid => do
      let parent ← loadCommitParent db oid
      let parentOid ← parent
      specWalkN db n parentOid

/-! ## Claim theorems: prefix lookup (C7) -/

/-- An objects directory holding two objects whose 40-character names both
start with `60`: directory `60` with files `0…0` (38 zeros) and `0…01`. -/
def c7ObjectsDir : List (List Nat × List (List Nat)) :=
  [([54, 48], [List.replicate 38 48, List.replicate 37 48 ++ [49]])]

/-! ## Claim theorems: revision resolution (C8) -/

/-- A two-commit database: commit `1` has parent `0`, commit `0` is a
root. -/
def c8Db : CommitDb := [(1, some 0), (0, none)]

/-- A dereference map resolving reference `7` to commit `1`. -/
def c8Deref : Nat → Option Nat := fun n => if n = 7 then some 1 else none

/-- A component is well formed when it is nonempty and its bytes are
ASCII without the path separator. -/
def WfComp (c : Comp) : Prop := ¬ c = [] ∧ ∀ b ∈ c, b < 128 ∧ ¬ b = 47

/-- A path is well formed when it is nonempty with well-formed
components. -/
def WfPath (p : RPath) : Prop := ¬ p = [] ∧ ∀ c ∈ p, WfComp c

instance (c : Comp) : Decidable (WfComp c) := by unfold WfComp; infer_instance

instance (p : RPath) : Decidable (WfPath p) := by unfold WfPath; infer_instance

/-! ## Entry-level round trip -/

/-- A well-formed object id: 40 half-byte values (the in-memory form of a
real SHA-1 id). -/
def WfOid (oid : List Nat) : Prop := oid.length = 40 ∧ ∀ x ∈ oid, x < 16

instance (oid : List Nat) : Decidable (WfOid oid) := by unfold WfOid; infer_instance

/-- A well-formed index entry: `u32`-sized numeric fields, a mode in the
image of `Mode::new`, a well-formed path whose byte form fits the `u16`
length field, and a well-formed object id.  Every entry arising from
`IndexEntry::new` with a real blob id, or from `parse_entry`, is well
formed. -/
def WfEntry (e : IndexEntry) : Prop :=
  e.ctime_seconds < 2 ^ 32 ∧ e.ctime_nanoseconds < 2 ^ 32 ∧
  e.mtime_seconds < 2 ^ 32 ∧ e.mtime_nanoseconds < 2 ^ 32 ∧
  e.dev < 2 ^ 32 ∧ e.ino < 2 ^ 32 ∧
  (e.mode = Mode.new 0o100644 ∨ e.mode = Mode.new 0o100755) ∧
  e.uid < 2 ^ 32 ∧ e.gid < 2 ^ 32 ∧ e.file_size < 2 ^ 32 ∧
  WfPath e.path ∧ (pathBytes e.path).length < 2 ^ 16 ∧
  WfOid e.object_id

instance (e : IndexEntry) : Decidable (WfEntry e) := by unfold WfEntry; infer_instance

/-! ## Claim theorems: on-disk object-id field (C2) -/

/-- The on-disk object-id field shape asserted by the specification,
stated from its words: 40 bytes holding the object id as ASCII hex
characters (lowercase digits). -/
def specAsciiHexOfNibbles (oid : List Nat) : List Nat :=
  oid.map (fun v => if v < 10 then 48 + v else 87 + v)

/-- A concrete well-formed entry (the repository's own test fixture:
path `Cargo.toml`, object id = forty half-bytes cycling 0–9). -/
def c2Entry : IndexEntry :=
  { ctime_seconds := 1657658046, ctime_nanoseconds := 444900053,
    mtime_seconds := 1657658046, mtime_nanoseconds := 444900053,
    dev := 65026, ino := 3831260, mode := Mode.new 33188,
    uid := 1000, gid := 985, file_size := 262,
    path := [[67, 97, 114, 103, 111, 46, 116, 111, 109, 108]],
    object_id := (List.range 40).map (· % 10) }

/-- A concrete well-formed entry with a one-byte path (`a`): its unpadded
size `63 + 1 = 64` is a multiple of 8. -/
def c9Entry : IndexEntry :=
  { ctime_seconds := 1657658046, ctime_nanoseconds := 444900053,
    mtime_seconds := 1657658046, mtime_nanoseconds := 444900053,
    dev := 65026, ino := 3831260, mode := Mode.new 33188,
    uid := 1000, gid := 985, file_size := 262,
    path := [[97]],
    object_id := (List.range 40).map (· % 10) }

/-- The legacy-parser view of `c9Entry`. -/
def c9OldEntry : OldIndexEntry :=
  { ctime_seconds := 1657658046, ctime_nanoseconds := 444900053,
    mtime_seconds := 1657658046, mtime_nanoseconds := 444900053,
    dev := 65026, ino := 3831260, mode := 33188,
    uid := 1000, gid := 985, file_size := 262,
    path := [[97]],
    object_id := (List.range 40).map (· % 10) }

/-- The edit of a script at a position (the default is never consulted at
in-range positions). -/
def scriptEdit (script : List EditS) (j : Nat) : EditS :=
  script.getD j (Edit.equal [] 0 0)

/-- Position `j` lies within `C` script positions of an `Addition` or
`Deletion` edit of the script. -/
def nearMutation (script : List EditS) (C j : Nat) : Prop :=
  ∃ m, m < script.length ∧ (scriptEdit script m).kind ≠ EditKind.equal ∧
    j ≤ m + C ∧ m ≤ j + C

/-- The flush tail of Rust `chunk_edit_script` (the code after its loop),
split from the loop for the statements below. -/
def chunkFinish (st : ChunkState) (contextSize : Nat) : List Chunk :=
  if ¬ st.chunkContent.isEmpty then
    st.chunks ++ [Chunk.new (drainContextIntoChunk st.context st.chunkContent contextSize)]
  else st.chunks

/-- A mutating edit that `chunk_edit_script` displays: every `Addition`
(pushed unconditionally), and every `Deletion` kept by `should_show`. -/
def coveredMutation (script : List EditS) (j : Nat) : Prop :=
  (scriptEdit script j).kind = EditKind.addition ∨
    ((scriptEdit script j).kind = EditKind.deletion ∧
      shouldShow (scriptEdit script j) j script.length = true)

/-- Chunk coverage: every displayed mutating edit of the script appears in
the chunks, and every chunk member is the script edit at its position, in
range, with `Equal` members within `C` positions of a mutating edit. -/
def CoverageProps (script : List EditS) (C : Nat) (cs : List Chunk) : Prop :=
  (∀ j, j < script.length → coveredMutation script j →
      (j, scriptEdit script j) ∈ chunksEdits cs) ∧
  (∀ p ∈ chunksEdits cs, p.2 = scriptEdit script p.1 ∧ p.1 < script.length ∧
      ((scriptEdit script p.1).kind = EditKind.equal → nearMutation script C p.1))

/-- The counterexample script: one `Equal` line followed by a final
`Deletion` with empty content. -/
def c6Script : List EditS := [Edit.equal [120] 0 0, Edit.deletion [] 1]

/-- A script exercising all three edit kinds for the coverage witness. -/
def c6CoverageScript : List EditS :=
  [Edit.equal [97] 0 0, Edit.deletion [98] 1, Edit.addition [99] 1, Edit.equal [100] 2 2]

/-- The invariant of the `chunk_edit_script` loop before processing
position `i`: the context holds the shown `Equal` edits of the `n`
positions just before `i`; while the open chunk is non-empty, the last
mutating edit is real, lies before the context, and the flush point has
not been passed; members of emitted chunks and of the open chunk are
in-range script edits with `Equal` members near a mutation; and every
displayed mutating edit before `i` is in an emitted chunk or the open
chunk. -/
structure ChunkInv (script : List EditS) (C i : Nat) (st : ChunkState) : Prop where
  hiL : i ≤ script.length
  hctx : ∃ n, n ≤ i ∧
    st.context = (List.range' (i - n) n).map (fun j => (j, scriptEdit script j)) ∧
    (∀ j, i - n ≤ j → j < i → (scriptEdit script j).kind = EditKind.equal) ∧
    (¬ st.chunkContent.isEmpty →
      st.lastMutatingEditIdx + n + 1 ≤ i ∧ i ≤ st.lastMutatingEditIdx + C + 1)
  hlm : ¬ st.chunkContent.isEmpty →
    (scriptEdit script st.lastMutatingEditIdx).kind ≠ EditKind.equal ∧
    st.lastMutatingEditIdx < script.length
  hmem : ∀ p ∈ chunksEdits st.chunks ++ st.chunkContent,
    p.2 = scriptEdit script p.1 ∧ p.1 < script.length ∧
    ((scriptEdit script p.1).kind = EditKind.equal → nearMutation script C p.1)
  hcov : ∀ j, j < i → coveredMutation script j →
    (j, scriptEdit script j) ∈ chunksEdits st.chunks ++ st.chunkContent

/-- The state facts that survive to the flush tail: like `ChunkInv` at the
end of the script, but with the context bounds relative to an arbitrary
start `t` and the mutation coverage ranging over the whole script. -/
structure FinalInv (script : List EditS) (C : Nat) (st : ChunkState) : Prop where
  hctx : ∃ t n, t + n ≤ script.length ∧
    st.context = (List.range' t n).map (fun j => (j, scriptEdit script j)) ∧
    (∀ j, t ≤ j → j < t + n → (scriptEdit script j).kind = EditKind.equal) ∧
    (¬ st.chunkContent.isEmpty →
      st.lastMutatingEditIdx < t ∧ t + n ≤ st.lastMutatingEditIdx + C + 1)
  hlm : ¬ st.chunkContent.isEmpty →
    (scriptEdit script st.lastMutatingEditIdx).kind ≠ EditKind.equal ∧
    st.lastMutatingEditIdx < script.length
  hmem : ∀ p ∈ chunksEdits st.chunks ++ st.chunkContent,
    p.2 = scriptEdit script p.1 ∧ p.1 < script.length ∧
    ((scriptEdit script p.1).kind = EditKind.equal → nearMutation script C p.1)
  hcov : ∀ j, j < script.length → coveredMutation script j →
    (j, scriptEdit script j) ∈ chunksEdits st.chunks ++ st.chunkContent

/-! ## Prefix relations on paths -/

/-- Path `d` is a (possibly improper) component prefix of `q`. -/
def underEq (d q : RPath) : Prop := q.take d.length = d

/-- Path `d` is a proper component prefix of `q`. -/
def underDir (d q : RPath) : Prop := q.take d.length = d ∧ d.length < q.length

instance (d q : RPath) : Decidable (underEq d q) := by unfold underEq; infer_instance

instance (d q : RPath) : Decidable (underDir d q) := by unfold underDir; infer_instance

/-! ## Sorted canonical forms -/

/-- A child-name set in canonical (strictly sorted) form. -/
def SortedC (s : List Comp) : Prop := s.Pairwise (fun a b => cmpComp a b = .lt)

/-- An entries map in canonical form: strictly sorted by path. -/
def SortedE (l : List IndexEntry) : Prop :=
  l.Pairwise (fun a b => cmpPath a.path b.path = .lt)

/-- A directories map in canonical form: strictly sorted by key. -/
def SortedD (d : DirsMap) : Prop := d.Pairwise (fun a b => cmpPath a.1 b.1 = .lt)

/-! ## The derived-directories invariant -/

/-- Component `c` is a child name of directory `d` on the way to some
entry: some entry lies strictly below `d` with `c` as the next component. -/
def childOf (entries : List IndexEntry) (d : RPath) (c : Comp) : Prop :=
  ∃ e ∈ entries, underDir d e.path ∧ e.path.getD d.length [] = c

/-- The directories map agrees at key `q` with the children derived from
`entries`: a stored set holds exactly the derived children and is
non-empty, and a missing key has no derived children. -/
def dirsAgree (entries : List IndexEntry) (dirs : DirsMap) (q : RPath) : Prop :=
  (∀ s, dirsLookup dirs q = some s → (∀ c, c ∈ s ↔ childOf entries q c) ∧ s ≠ []) ∧
  (dirsLookup dirs q = none → ∀ c, ¬ childOf entries q c)

/-- No entry path is a proper prefix of another entry path. -/
def PrefixFree (entries : List IndexEntry) : Prop :=
  ∀ e1 ∈ entries, ∀ e2 ∈ entries, underEq e1.path e2.path → e1.path = e2.path

/-- The canonical-state invariant of `Index`: sorted canonical maps, no
path-prefix collisions, and a directories map that matches the entries. -/
structure INV (i : Index) : Prop where
  sE : SortedE i.entries
  sD : SortedD i.directories
  sV : ∀ kv ∈ i.directories, SortedC kv.2
  ne : ∀ kv ∈ i.directories, kv.2 ≠ []
  pf : PrefixFree i.entries
  agree : ∀ q, dirsAgree i.entries i.directories q

/-! ## The remove-directory loop: normalization to a task fold -/

/-- The semantic effect of one `remove_directory` work item. -/
def taskStep (i : Index) : DirTask → Index
  | .entry p => i.remove p
  | .dir p => removeDirectory i p

/-- The preconditions of the `remove_directory` traversal at `p`: the maps
are structurally canonical, every entry strictly below `p` is connected
downward through the directories map, and every key strictly below `p` is
connected to its parent key. -/
structure PruneInv (i : Index) (p : RPath) : Prop where
  sE : SortedE i.entries
  sD : SortedD i.directories
  sV : ∀ kv ∈ i.directories, SortedC kv.2
  nE : ∀ kv ∈ i.directories, kv.2 ≠ []
  cover : ∀ e ∈ i.entries, underDir p e.path → ∀ j, p.length ≤ j → j < e.path.length →
    ∃ s, dirsLookup i.directories (e.path.take j) = some s ∧ e.path.getD j [] ∈ s
  keyPar : ∀ d s, dirsLookup i.directories d = some s → underDir p d →
    ∃ s2, dirsLookup i.directories (d.take (d.length - 1)) = some s2 ∧
      d.getD (d.length - 1) [] ∈ s2

/-- What `discard_conflicting_entries` guarantees: canonical sorted maps,
prefix-freeness, the exact surviving entries, exact agreement of the
directories map away from the target path's proper ancestors, and
one-sided agreement (at most one extra child, the one on the way to `p`)
at the proper ancestors. -/
structure DiscardOut (i : Index) (p : RPath) (d : Index) : Prop where
  sE : SortedE d.entries
  sD : SortedD d.directories
  sV : ∀ kv ∈ d.directories, SortedC kv.2
  nE : ∀ kv ∈ d.directories, kv.2 ≠ []
  pf : PrefixFree d.entries
  ent : d.entries = i.entries.filter
    (fun e => ¬ underDir p e.path ∧ ¬ underEq e.path p)
  agreeOut : ∀ q, ¬ underDir q p → dirsAgree d.entries d.directories q
  agreeAnc : ∀ q, underDir q p →
    (∀ s, dirsLookup d.directories q = some s →
      (∀ c, childOf d.entries q c → c ∈ s) ∧
      (∀ c, c ∈ s → childOf d.entries q c ∨ c = p.getD q.length [])) ∧
    (dirsLookup d.directories q = none → ∀ c, ¬ childOf d.entries q c)

/-! ## Reachable states and the collision invariant -/

/-- One mutating index operation. -/
inductive IndexOp where
  | add (e : IndexEntry)
  | del (p : RPath)

/-- Apply one operation (`Index::add_entry` / `Index::remove`). -/
def applyOp (i : Index) : IndexOp → Index
  | .add e => i.addEntry e
  | .del p => i.remove p

/-- The index state reached from `Index::new` by a sequence of operations. -/
def runOps (ops : List IndexOp) : Index := ops.foldl applyOp Index.empty

instance (d q : RPath) : Decidable (underEq d q) :=
  inferInstanceAs (Decidable (q.take d.length = d))

instance (d q : RPath) : Decidable (underDir d q) :=
  inferInstanceAs (Decidable (q.take d.length = d ∧ d.length < q.length))

/-- A file entry at path `p` with fixed metadata, used to instantiate the
collision claim on concrete paths. -/
def c3Entry (p : RPath) : IndexEntry :=
  { ctime_seconds := 0, ctime_nanoseconds := 0, mtime_seconds := 0,
    mtime_nanoseconds := 0, dev := 0, ino := 0, mode := Mode.new 33188,
    uid := 0, gid := 0, file_size := 0, path := p, object_id := [] }

/-- A reachable index holding one entry whose object id is not in packed
half-byte form. -/
def c1BadEntry : IndexEntry :=
  { ctime_seconds := 0, ctime_nanoseconds := 0, mtime_seconds := 0,
    mtime_nanoseconds := 0, dev := 0, ino := 0, mode := Mode.new 33188,
    uid := 0, gid := 0, file_size := 0,
    path := [[97]], object_id := [1, 2] }

/-! ## Inversion helpers for the entry parser -/

/-- Inversion for a successful `Except` bind. -/
theorem exceptBind_ok {α β : Type} {x : Except String α} {f : α → Except String β} {v : β}
    (h : (x >>= f) = .ok v) : ∃ w, x = .ok w ∧ f w = .ok v := by
  cases x with
  | error e => exact absurd h (by simp [Bind.bind, Except.bind])
  | ok w => exact ⟨w, rfl, by simpa [Bind.bind, Except.bind] using h⟩

/-- A successfully parsed entry's mode is the image of some raw mode under
`Mode::new`. -/
theorem parseEntry_mode_shape (bytes : List Nat) (e : IndexEntry) (n : Nat)
    (h : parseEntry bytes = .ok (e, n)) : ∃ raw, e.mode = Mode.new raw := by
  unfold parseEntry at h
  obtain ⟨w1, -, h⟩ := exceptBind_ok h
  obtain ⟨f1, r1⟩ := w1
  obtain ⟨v1, -, h⟩ := exceptBind_ok h
  obtain ⟨w2, -, h⟩ := exceptBind_ok h
  obtain ⟨f2, r2⟩ := w2
  obtain ⟨v2, -, h⟩ := exceptBind_ok h
  obtain ⟨w3, -, h⟩ := exceptBind_ok h
  obtain ⟨f3, r3⟩ := w3
  obtain ⟨v3, -, h⟩ := exceptBind_ok h
  obtain ⟨w4, -, h⟩ := exceptBind_ok h
  obtain ⟨f4, r4⟩ := w4
  obtain ⟨v4, -, h⟩ := exceptBind_ok h
  obtain ⟨w5, -, h⟩ := exceptBind_ok h
  obtain ⟨f5, r5⟩ := w5
  obtain ⟨v5, -, h⟩ := exceptBind_ok h
  obtain ⟨w6, -, h⟩ := exceptBind_ok h
  obtain ⟨f6, r6⟩ := w6
  obtain ⟨v6, -, h⟩ := exceptBind_ok h
  obtain ⟨w7, -, h⟩ := exceptBind_ok h
  obtain ⟨f7, r7⟩ := w7
  obtain ⟨raw, -, h⟩ := exceptBind_ok h
  refine ⟨raw, ?_⟩
  obtain ⟨w8, -, h⟩ := exceptBind_ok h
  obtain ⟨f8, r8⟩ := w8
  obtain ⟨v8, -, h⟩ := exceptBind_ok h
  obtain ⟨w9, -, h⟩ := exceptBind_ok h
  obtain ⟨f9, r9⟩ := w9
  obtain ⟨v9, -, h⟩ := exceptBind_ok h
  obtain ⟨w10, -, h⟩ := exceptBind_ok h
  obtain ⟨f10, r10⟩ := w10
  obtain ⟨v10, -, h⟩ := exceptBind_ok h
  obtain ⟨w11, -, h⟩ := exceptBind_ok h
  obtain ⟨oidB, r11⟩ := w11
  obtain ⟨w12, -, h⟩ := exceptBind_ok h
  obtain ⟨psb, r12⟩ := w12
  obtain ⟨ps, -, h⟩ := exceptBind_ok h
  obtain ⟨w13, -, h⟩ := exceptBind_ok h
  obtain ⟨pb, r13⟩ := w13
  simp only [Except.ok.injEq, Prod.mk.injEq] at h
  rw [← h.1]

/-! ## Claim theorems: mode coercion (C10) -/

/-- C10: `Mode::new(m)` yields the executable mode with raw mode
`0o100755` exactly when all three user permission bits are set
(`m & 0o700 = 0o700`) and the regular mode with raw mode `0o100644`
otherwise; consequently every entry built by `IndexEntry::new` and every
entry returned by `parse_entry` carries raw mode `0o100644` or
`0o100755`. -/
theorem mode_coercion_rule :
    (∀ m : Nat,
      (Mode.new m = { file_mode := .executable, raw_mode := 0o100755 } ↔
        Nat.land m 0o700 = 0o700) ∧
      (Mode.new m = { file_mode := .regular, raw_mode := 0o100644 } ↔
        ¬ Nat.land m 0o700 = 0o700)) ∧
    (∀ p oid c cn mt mn d i rm u g s,
      (IndexEntry.new p oid c cn mt mn d i rm u g s).mode.raw_mode = 0o100644 ∨
      (IndexEntry.new p oid c cn mt mn d i rm u g s).mode.raw_mode = 0o100755) ∧
    (∀ bytes e n, parseEntry bytes = .ok (e, n) →
      e.mode.raw_mode = 0o100644 ∨ e.mode.raw_mode = 0o100755) := by
  refine ⟨fun m => ⟨?_, ?_⟩, fun p oid c cn mt mn d i rm u g s => ?_, fun bytes e n h => ?_⟩
  · unfold Mode.new
    split
    · simp [*]
    · simp only [Mode.mk.injEq]
      constructor
      · rintro ⟨h1, h2⟩
        cases h1
      · intro h
        exact absurd h (by assumption)
  · unfold Mode.new
    split
    · simp only [Mode.mk.injEq]
      constructor
      · rintro ⟨h1, h2⟩
        cases h1
      · intro h
        exact absurd (by assumption) h
    · simp [*]
  · unfold IndexEntry.new Mode.new
    split <;> simp
  · obtain ⟨raw, hmode⟩ := parseEntry_mode_shape bytes e n h
    rw [hmode]
    unfold Mode.new
    split <;> simp

/-! ## Claim theorems: diff composition (C4) -/

/-- C4: `edit_script` does not compose.  For `A = [0]` and `B = [1, 0]`
(two one-line sequences), the backtracking step `compute_previous_k` is
called with the previous depth instead of the current depth, so the forced
`k = -d` case never fires (a parity mismatch) and the produced script is a
single deletion of `A[0]`; applying it to `A` yields `[]`, not `B`.  (The
intended behaviour is documented by the function's own comments and by the
module's doctests.) -/
theorem edit_script_composition_fails :
    editScript [0] [1, 0] = .ok [Edit.deletion 0 0] ∧
    applyEditScript [Edit.deletion (0 : Nat) 0] = [] ∧
    ([] : List Nat) ≠ [1, 0] := by
  refine ⟨by decide, by decide, by decide⟩

/-! ## Claim theorems: edit-script minimality (C5) -/

/-- C5: the edit script is not minimal in the claimed sense.  For
`A = [0]`, `B = [1, 0]` we have `LCS(A,B) = 1`, so the claim requires
exactly one `Equal` edit and exactly `1 + 2 - 2·1 = 1` mutations; the
returned script `[Deletion 0@0]` has zero `Equal` edits (and fails to
relate `A` to `B` at all). -/
theorem edit_script_minimality_fails :
    editScript [0] [1, 0] = .ok [Edit.deletion 0 0] ∧
    countKind .equal [Edit.deletion (0 : Nat) 0] = 0 ∧
    lcsLen 3 [0] [1, 0] = 1 ∧
    (0 : Nat) ≠ 1 := by
  refine ⟨by decide, by decide, by decide, by decide⟩

/-- C7: `prefix_match` does not fail on an ambiguous prefix.  With two
stored objects matching the query `60` (length 2), it returns the first
match in scan order instead of an "ambiguous argument" failure; the
repository's own test `test_error_on_ambiguous_id` expects the failure,
and the source carries `TODO handle ambiguous short commit ids`. -/
theorem prefix_match_no_ambiguity_detection :
    prefixMatchCount c7ObjectsDir [54, 48] = 2 ∧
    prefixMatch c7ObjectsDir [54, 48] = some (6 :: List.replicate 39 0) ∧
    (prefixMatchCount c7ObjectsDir [97, 97] = 0 ∧
      prefixMatch c7ObjectsDir [97, 97] = none) := by
  exact ⟨by decide, by decide, by decide, by decide⟩

/-- C8 counterexample: `X~0` does not resolve to `X`.  With `X` a
reference resolving to commit `1` (whose parent is `0`), walking zero
first-parent hops must yield `1`, but `resolve` takes the first parent
before its `1..count` loop and returns `0`. -/
theorem revision_resolve_ancestor_zero_counterexample :
    Revision.resolve c8Db c8Deref (.ancestor (.reference 7) 0) = some 0 ∧
    (Revision.resolve c8Db c8Deref (.reference 7)).bind (specWalkN c8Db 0) = some 1 ∧
    Revision.resolve c8Db c8Deref (.ancestor (.reference 7) 0) ≠
      (Revision.resolve c8Db c8Deref (.reference 7)).bind (specWalkN c8Db 0) := by
  refine ⟨by decide, by decide, by decide⟩

/-- The `1..count` loop walks exactly like the specification's
first-parent walk. -/
theorem ancestorLoop_eq_specWalkN (db : CommitDb) :
    ∀ n oid, ancestorLoop db n oid = specWalkN db n oid := by
  intro n
  induction n with
  | zero => intro oid; rfl
  | succ m ih =>
      intro oid
      unfold ancestorLoop specWalkN
      cases loadCommitParent db oid with
      | none => rfl
      | some p =>
          cases p with
          | none => rfl
          | some q => simpa using ih q

/-- C8 (amended): for every revision `X`, resolving `X^` and `X~1` both
walk exactly one first-parent hop from the commit `X` resolves to
(failing when that commit is missing or has no parent); for every
`N ≥ 1`, resolving `X~N` walks exactly `N` first-parent hops (failing if
any commit on the way has no parent); and `X~0` behaves like `X~1`
(one hop), not like `X`. -/
theorem revision_resolution (db : CommitDb) (deref : Nat → Option Nat)
    (r : Revision) (n : Nat) (hn : 1 ≤ n) :
    Revision.resolve db deref (.parent r) =
      (Revision.resolve db deref r).bind (specWalkN db 1) ∧
    Revision.resolve db deref (.ancestor r n) =
      (Revision.resolve db deref r).bind (specWalkN db n) ∧
    Revision.resolve db deref (.ancestor r 0) =
      Revision.resolve db deref (.ancestor r 1) := by
  refine ⟨?_, ?_, ?_⟩
  · cases hr : Revision.resolve db deref r with
    | none => simp [Revision.resolve, hr]
    | some oid =>
        cases hp : loadCommitParent db oid with
        | none => simp [Revision.resolve, hr, hp, specWalkN]
        | some p =>
            cases p with
            | none => simp [Revision.resolve, hr, hp, specWalkN]
            | some q => simp [Revision.resolve, hr, hp, specWalkN]
  · obtain ⟨m, rfl⟩ : ∃ m, n = m + 1 := ⟨n - 1, by omega⟩
    cases hr : Revision.resolve db deref r with
    | none => simp [Revision.resolve, hr]
    | some oid =>
        cases hp : loadCommitParent db oid with
        | none => simp [Revision.resolve, hr, hp, specWalkN]
        | some p =>
            cases p with
            | none => simp [Revision.resolve, hr, hp, specWalkN]
            | some q =>
                simp only [Revision.resolve, hr, hp, specWalkN, Option.bind_eq_bind,
                  Option.some_bind, Nat.add_sub_cancel]
                exact ancestorLoop_eq_specWalkN db m q
  · rfl

/-- Witness for `revision_resolution` at a concrete database, reference
and hop count. -/
theorem revision_resolution_witness :
    Revision.resolve c8Db c8Deref (.parent (.reference 7)) =
      (Revision.resolve c8Db c8Deref (.reference 7)).bind (specWalkN c8Db 1) ∧
    Revision.resolve c8Db c8Deref (.ancestor (.reference 7) 1) =
      (Revision.resolve c8Db c8Deref (.reference 7)).bind (specWalkN c8Db 1) ∧
    Revision.resolve c8Db c8Deref (.ancestor (.reference 7) 0) =
      Revision.resolve c8Db c8Deref (.ancestor (.reference 7) 1) :=
  revision_resolution c8Db c8Deref (.reference 7) 1 (by decide)

/-! ## Codec round-trip lemmas -/

theorem testBit_mul_pow (a k j : Nat) :
    Nat.testBit (a * 2 ^ k) j = if j < k then false else Nat.testBit a (j - k) := by
  rw [show a * 2 ^ k = 2 ^ k * a + 0 by ring,
    Nat.testBit_mul_pow_two_add a (Nat.pos_pow_of_pos k (by norm_num)) j]
  simp [Nat.zero_testBit]

theorem land_fifteen (x : Nat) : x &&& 15 = x % 16 := by
  apply Nat.eq_of_testBit_eq
  intro j
  rw [Nat.testBit_and, show (16 : Nat) = 2 ^ 4 from rfl, Nat.testBit_mod_two_pow]
  by_cases hj : j < 4
  · interval_cases j <;> simp <;> intro _ <;> decide
  · have h15 : Nat.testBit 15 j = false := by
      apply Nat.testBit_lt_two_pow
      calc (15 : Nat) < 2 ^ 4 := by norm_num
      _ ≤ 2 ^ j := Nat.pow_le_pow_right (by norm_num) (by omega)
    simp [h15, hj]

theorem lor_mul_pow_add {a b k : Nat} (hb : b < 2 ^ k) :
    Nat.lor (a * 2 ^ k) b = a * 2 ^ k + b := by
  apply Nat.eq_of_testBit_eq
  intro j
  rw [show Nat.lor (a * 2 ^ k) b = (a * 2 ^ k) ||| b from rfl, Nat.testBit_or,
    show a * 2 ^ k + b = 2 ^ k * a + b by ring, Nat.testBit_mul_pow_two_add a hb j,
    testBit_mul_pow]
  by_cases hj : j < k
  · simp [hj]
  · have hb' : Nat.testBit b j = false := by
      apply Nat.testBit_lt_two_pow
      calc b < 2 ^ k := hb
      _ ≤ 2 ^ j := Nat.pow_le_pow_right (by norm_num) (by omega)
    simp [hb', hj]

theorem be4_value {b0 b1 b2 b3 : Nat} (h1 : b1 < 256) (h2 : b2 < 256) (h3 : b3 < 256) :
    Nat.lor (Nat.lor (Nat.lor (b0 <<< 24) (b1 <<< 16)) (b2 <<< 8)) b3 =
      b0 * 2 ^ 24 + b1 * 2 ^ 16 + b2 * 2 ^ 8 + b3 := by
  simp only [Nat.shiftLeft_eq]
  rw [lor_mul_pow_add (show b1 * 2 ^ 16 < 2 ^ 24 by nlinarith),
    show b0 * 2 ^ 24 + b1 * 2 ^ 16 = (b0 * 2 ^ 8 + b1) * 2 ^ 16 by ring,
    lor_mul_pow_add (show b2 * 2 ^ 8 < 2 ^ 16 by nlinarith),
    show (b0 * 2 ^ 8 + b1) * 2 ^ 16 + b2 * 2 ^ 8 = (b0 * 2 ^ 16 + b1 * 2 ^ 8 + b2) * 2 ^ 8 by ring,
    lor_mul_pow_add (show b3 < 2 ^ 8 by omega)]

/-- Four-byte big-endian round trip for values below `2^32`. -/
theorem toBeU32_u32be {v : Nat} (hv : v < 2 ^ 32) : toBeU32 (u32be v) = .ok v := by
  have h : toBeU32 (u32be v) = .ok (Nat.lor (Nat.lor (Nat.lor
      ((v / 2 ^ 24 % 256) <<< 24) ((v / 2 ^ 16 % 256) <<< 16)) ((v / 2 ^ 8 % 256) <<< 8))
      (v % 256)) := rfl
  rw [h, be4_value (Nat.mod_lt _ (by norm_num)) (Nat.mod_lt _ (by norm_num))
    (show v % 256 < 256 from Nat.mod_lt _ (by norm_num))]
  congr 1
  omega

/-- Two-byte big-endian round trip for values below `2^16`. -/
theorem toBeU16_u16be {v : Nat} (hv : v < 2 ^ 16) : toBeU16 (u16be v) = .ok v := by
  have h : toBeU16 (u16be v) = .ok (Nat.lor ((v / 2 ^ 8 % 256) <<< 8) (v % 256)) := rfl
  rw [h, Nat.shiftLeft_eq, lor_mul_pow_add (show v % 256 < 2 ^ 8 by omega)]
  congr 1
  omega

theorem hexlify_cons {l r : Nat} (rest : List Nat) (hl : l < 16) (hr : r < 16) :
    hexlify (l :: r :: rest) = (16 * l + r) :: hexlify rest := by
  have h : hexlify (l :: r :: rest) = (Nat.lor ((l <<< 4) % 256) (r % 256)) :: hexlify rest := rfl
  rw [h]
  congr 1
  rw [Nat.shiftLeft_eq,
    Nat.mod_eq_of_lt (show l * 2 ^ 4 < 256 by nlinarith),
    Nat.mod_eq_of_lt (show r < 256 by omega),
    lor_mul_pow_add (show r < 2 ^ 4 by omega)]
  ring

theorem unhexlify_cons16 {l r : Nat} (rest : List Nat) (hl : l < 16) (hr : r < 16) :
    unhexlify ((16 * l + r) :: rest) = l :: r :: unhexlify rest := by
  have h : unhexlify ((16 * l + r) :: rest) =
      ((16 * l + r) >>> 4) :: ((16 * l + r) &&& 15) :: unhexlify rest := rfl
  rw [h, Nat.shiftRight_eq_div_pow, land_fifteen,
    show (16 * l + r) / 2 ^ 4 = l by omega, show (16 * l + r) % 16 = r by omega]

/-- Packing then unpacking half-byte values is the identity on even-length
lists of values below 16. -/
theorem unhexlify_hexlify : ∀ (l : List Nat), (∀ x ∈ l, x < 16) → 2 ∣ l.length →
    unhexlify (hexlify l) = l
  | [], _, _ => rfl
  | [_], _, hpar => by simp at hpar
  | l :: r :: rest, h, hpar => by
      have hl : l < 16 := h l (by simp)
      have hr : r < 16 := h r (by simp)
      rw [hexlify_cons rest hl hr, unhexlify_cons16 (hexlify rest) hl hr,
        unhexlify_hexlify rest (fun x hx => h x (by simp [hx])) (by simp at hpar ⊢; omega)]

/-- The packed form halves the length (rounding down). -/
theorem hexlify_length : ∀ l : List Nat, (hexlify l).length = l.length / 2
  | [] => rfl
  | [_] => by simp [hexlify]
  | _ :: _ :: rest => by
      show (hexlify rest).length + 1 = _
      rw [hexlify_length rest]
      simp only [List.length_cons]
      omega

theorem readBytes_append (xs rest : List Nat) :
    readBytes xs.length (xs ++ rest) = .ok (xs, rest) := by
  unfold readBytes
  rw [if_pos (by simp)]
  rw [List.take_left, List.drop_left]

/-! ## Path codec lemmas -/

theorem splitOnSlashAux_ne_nil (bs : List Nat) (cur : Comp) : splitOnSlashAux bs cur ≠ [] := by
  induction bs generalizing cur with
  | nil => simp [splitOnSlashAux]
  | cons b rest ih =>
      unfold splitOnSlashAux
      split
      · simp
      · exact ih _

theorem splitOnSlashAux_no_slash (c : Comp) (cur : Comp) (hc : ∀ b ∈ c, ¬ b = 47) :
    splitOnSlashAux c cur = [cur.reverse ++ c] := by
  induction c generalizing cur with
  | nil => simp [splitOnSlashAux]
  | cons b rest ih =>
      unfold splitOnSlashAux
      rw [if_neg (hc b (by simp))]
      rw [ih (b :: cur) (fun x hx => hc x (by simp [hx]))]
      simp

theorem splitOnSlashAux_cons_ne (b : Nat) (rest : List Nat) (cur : Comp) (hb : ¬ b = 47) :
    splitOnSlashAux (b :: rest) cur = splitOnSlashAux rest (b :: cur) := by
  rw [splitOnSlashAux, if_neg hb]

theorem splitOnSlashAux_append (c : Comp) (rest : List Nat) (cur : Comp)
    (hc : ∀ b ∈ c, ¬ b = 47) :
    splitOnSlashAux (c ++ 47 :: rest) cur = (cur.reverse ++ c) :: splitOnSlashAux rest [] := by
  induction c generalizing cur with
  | nil =>
      show splitOnSlashAux (47 :: rest) cur = _
      rw [splitOnSlashAux, if_pos rfl]
      simp
  | cons b cr ih =>
      show splitOnSlashAux (b :: (cr ++ 47 :: rest)) cur = _
      rw [splitOnSlashAux_cons_ne b _ cur (hc b (by simp))]
      rw [ih (b :: cur) (fun x hx => hc x (by simp [hx]))]
      simp

theorem pathBytes_ne_nil (p : RPath) (hp : WfPath p) : ¬ pathBytes p = [] := by
  obtain ⟨hne, hcs⟩ := hp
  cases p with
  | nil => exact absurd rfl hne
  | cons c rest =>
      cases rest with
      | nil => exact (hcs c (by simp)).1
      | cons c2 r2 =>
          show ¬ c ++ 47 :: pathBytes (c2 :: r2) = []
          simp

/-- Path serialization round trip: splitting the joined components
recovers the components, for well-formed paths. -/
theorem splitOnSlash_pathBytes : ∀ (p : RPath), WfPath p → splitOnSlash (pathBytes p) = p
  | [], hp => absurd rfl hp.1
  | [c], hp => by
      have hcwf : WfComp c := hp.2 c (by simp)
      show splitOnSlash c = [c]
      cases hcl : c with
      | nil => exact absurd hcl hcwf.1
      | cons b bs =>
          show splitOnSlashAux (b :: bs) [] = [b :: bs]
          rw [← hcl, splitOnSlashAux_no_slash c [] (fun x hx => (hcwf.2 x hx).2)]
          simp
  | c :: c2 :: r2, hp => by
      have hcwf : WfComp c := hp.2 c (by simp)
      have hrwf : WfPath (c2 :: r2) := ⟨by simp, fun x hx => hp.2 x (by simp [hx])⟩
      show splitOnSlash (c ++ 47 :: pathBytes (c2 :: r2)) = c :: c2 :: r2
      have hcc : ∀ x ∈ c, ¬ x = 47 := fun x hx => (hcwf.2 x hx).2
      have hstep : splitOnSlash (c ++ 47 :: pathBytes (c2 :: r2)) =
          splitOnSlashAux (c ++ 47 :: pathBytes (c2 :: r2)) [] := by
        cases hcl : c with
        | nil => exact absurd hcl hcwf.1
        | cons b bs => rfl
      rw [hstep, splitOnSlashAux_append c _ [] hcc]
      simp only [List.reverse_nil, List.nil_append, List.cons.injEq, true_and]
      have hrest : splitOnSlashAux (pathBytes (c2 :: r2)) [] =
          splitOnSlash (pathBytes (c2 :: r2)) := by
        cases hpb : pathBytes (c2 :: r2) with
        | nil => exact absurd hpb (pathBytes_ne_nil _ hrwf)
        | cons u us => rfl
      rw [hrest]
      exact splitOnSlash_pathBytes (c2 :: r2) hrwf

/-- Joining the split components recovers the original byte string, for
every byte string (the parse side used by the legacy-parser comparison). -/
theorem pathBytes_splitOnSlashAux (bs : List Nat) (cur : Comp) :
    pathBytes (splitOnSlashAux bs cur) = cur.reverse ++ bs := by
  induction bs generalizing cur with
  | nil => simp [splitOnSlashAux, pathBytes]
  | cons b rest ih =>
      unfold splitOnSlashAux
      split
      · rename_i hb
        subst hb
        have hpb : pathBytes (cur.reverse :: splitOnSlashAux rest []) =
            cur.reverse ++ 47 :: pathBytes (splitOnSlashAux rest []) := by
          cases h : splitOnSlashAux rest [] with
          | nil => exact absurd h (splitOnSlashAux_ne_nil rest [])
          | cons u us => rfl
        rw [hpb, ih []]
        simp
      · rw [ih (b :: cur)]
        simp

theorem pathBytes_splitOnSlash (bs : List Nat) : pathBytes (splitOnSlash bs) = bs := by
  cases bs with
  | nil => rfl
  | cons b rest =>
      show pathBytes (splitOnSlashAux (b :: rest) []) = b :: rest
      rw [pathBytes_splitOnSlashAux]
      simp

theorem mode_new_raw {m : Mode} (h : m = Mode.new 0o100644 ∨ m = Mode.new 0o100755) :
    Mode.new m.raw_mode = m := by
  rcases h with h | h <;> rw [h] <;> rfl

theorem exceptOkBind {α β : Type} (w : α) (f : α → Except String β) :
    (Except.ok (ε := String) w >>= f) = f w := rfl

theorem readBytes_append' {n : Nat} (xs rest : List Nat) (h : xs.length = n) :
    readBytes n (xs ++ rest) = .ok (xs, rest) := by
  subst h
  exact readBytes_append xs rest

/-- A well-formed entry's mode raw value is below `2^32`. -/
theorem wf_mode_raw_lt {m : Mode} (h : m = Mode.new 0o100644 ∨ m = Mode.new 0o100755) :
    m.raw_mode < 2 ^ 32 := by
  rcases h with h | h <;> rw [h] <;> decide

/-- The emitted entry length: the unpadded size `63 + |path bytes|`
rounded up to a multiple of 8. -/
theorem asVec_length (e : IndexEntry) (hoid : e.object_id.length = 40) :
    e.asVec.length = 63 + (pathBytes e.path).length +
      (8 - (63 + (pathBytes e.path).length) % 8) % 8 := by
  show (padToBlockSize _).length = _
  unfold padToBlockSize
  simp only [List.length_append, List.length_replicate, hexlify_length, hoid,
    List.length_cons, List.length_nil, u32be, u16be]
  omega

set_option maxHeartbeats 2000000 in
/-- The emitted entry bytes, decomposed into the unpadded core and the
padding. -/
theorem asVec_decomp (e : IndexEntry) (holen : e.object_id.length = 40) :
    e.asVec =
      (u32be e.ctime_seconds ++ u32be e.ctime_nanoseconds ++ u32be e.mtime_seconds ++
       u32be e.mtime_nanoseconds ++ u32be e.dev ++ u32be e.ino ++ u32be e.mode.raw_mode ++
       u32be e.uid ++ u32be e.gid ++ u32be e.file_size ++ hexlify e.object_id ++
       u16be (pathBytes e.path).length ++ pathBytes e.path ++ [0]) ++
      List.replicate ((8 - (63 + (pathBytes e.path).length) % 8) % 8) 0 := by
  show padToBlockSize _ = _
  unfold padToBlockSize
  congr 2
  simp only [List.length_append, List.length_cons, List.length_nil, hexlify_length, holen,
    u32be, u16be, List.length_replicate]
  omega

set_option maxHeartbeats 2000000 in
/-- Parsing an emitted well-formed entry (followed by anything) recovers
the entry and consumes exactly its emitted length. -/
theorem parseEntry_asVec (e : IndexEntry) (hwf : WfEntry e) (rest : List Nat) :
    parseEntry (e.asVec ++ rest) = .ok (e, e.asVec.length) := by
  obtain ⟨h1, h2, h3, h4, h5, h6, hmode, h8, h9, h10, hpath, hlen, hoid⟩ := hwf
  obtain ⟨holen, holt⟩ := hoid
  have hcore : e.asVec =
      (u32be e.ctime_seconds ++ u32be e.ctime_nanoseconds ++ u32be e.mtime_seconds ++
       u32be e.mtime_nanoseconds ++ u32be e.dev ++ u32be e.ino ++ u32be e.mode.raw_mode ++
       u32be e.uid ++ u32be e.gid ++ u32be e.file_size ++ hexlify e.object_id ++
       u16be (pathBytes e.path).length ++ pathBytes e.path ++ [0]) ++
      List.replicate ((8 - (63 + (pathBytes e.path).length) % 8) % 8) 0 := by
    show padToBlockSize _ = _
    unfold padToBlockSize
    congr 2
    simp only [List.length_append, List.length_cons, List.length_nil, hexlify_length, holen,
      u32be, u16be, List.length_replicate]
    omega
  rw [asVec_length e holen, hcore]
  simp only [List.append_assoc, List.cons_append, List.nil_append]
  unfold parseEntry
  rw [readBytes_append' _ _ (by simp [u32be]), exceptOkBind]
  simp only []
  rw [toBeU32_u32be h1, exceptOkBind]
  rw [readBytes_append' _ _ (by simp [u32be]), exceptOkBind]
  simp only []
  rw [toBeU32_u32be h2, exceptOkBind]
  rw [readBytes_append' _ _ (by simp [u32be]), exceptOkBind]
  simp only []
  rw [toBeU32_u32be h3, exceptOkBind]
  rw [readBytes_append' _ _ (by simp [u32be]), exceptOkBind]
  simp only []
  rw [toBeU32_u32be h4, exceptOkBind]
  rw [readBytes_append' _ _ (by simp [u32be]), exceptOkBind]
  simp only []
  rw [toBeU32_u32be h5, exceptOkBind]
  rw [readBytes_append' _ _ (by simp [u32be]), exceptOkBind]
  simp only []
  rw [toBeU32_u32be h6, exceptOkBind]
  rw [readBytes_append' _ _ (by simp [u32be]), exceptOkBind]
  simp only []
  rw [toBeU32_u32be (wf_mode_raw_lt hmode), exceptOkBind]
  rw [readBytes_append' _ _ (by simp [u32be]), exceptOkBind]
  simp only []
  rw [toBeU32_u32be h8, exceptOkBind]
  rw [readBytes_append' _ _ (by simp [u32be]), exceptOkBind]
  simp only []
  rw [toBeU32_u32be h9, exceptOkBind]
  rw [readBytes_append' _ _ (by simp [u32be]), exceptOkBind]
  simp only []
  rw [toBeU32_u32be h10, exceptOkBind]
  rw [readBytes_append' _ _ (by rw [hexlify_length, holen]), exceptOkBind]
  simp only []
  rw [readBytes_append' _ _ (by simp [u16be]), exceptOkBind]
  simp only []
  rw [toBeU16_u16be hlen, exceptOkBind]
  rw [readBytes_append' _ _ rfl, exceptOkBind]
  simp only []
  rw [unhexlify_hexlify e.object_id holt (by rw [holen]; decide),
    splitOnSlash_pathBytes e.path hpath, mode_new_raw hmode]
  congr 2
  split <;> omega

/-- C2 counterexample: the emitted object-id field is not the 40-byte
ASCII hex form.  The emitted entry is 80 bytes in total (40 metadata
bytes, 20 packed id bytes, 2 length bytes, 10 path bytes, NUL, 7 bytes of
padding), and the 40 bytes following the metadata are not the ASCII hex
rendition of the id. -/
theorem index_entry_oid_ascii_counterexample :
    (c2Entry.asVec.drop 40).take 40 ≠ specAsciiHexOfNibbles c2Entry.object_id ∧
    c2Entry.asVec.length = 80 := by
  refine ⟨by decide, by decide⟩

set_option maxHeartbeats 1000000 in
/-- C2 (amended): in every index entry emitted by `IndexEntry::as_vec`
from a well-formed entry, the field following the ten `u32` metadata
fields is 20 bytes holding the object id in packed form (two half-bytes
per byte, `hexlify`), and `Index::parse_entry` consumes that field as 20
packed bytes, recovering the id with `unhexlify`. -/
theorem index_entry_oid_field (e : IndexEntry) (hwf : WfEntry e) :
    (e.asVec.drop 40).take 20 = hexlify e.object_id ∧
    (hexlify e.object_id).length = 20 ∧
    unhexlify ((e.asVec.drop 40).take 20) = e.object_id ∧
    (∀ rest, parseEntry (e.asVec ++ rest) = .ok (e, e.asVec.length)) := by
  have holen := hwf.2.2.2.2.2.2.2.2.2.2.2.2.1
  have holt := hwf.2.2.2.2.2.2.2.2.2.2.2.2.2
  have hhl : (hexlify e.object_id).length = 20 := by rw [hexlify_length, holen]
  have hdrop : e.asVec.drop 40 = hexlify e.object_id ++
      (u16be (pathBytes e.path).length ++ (pathBytes e.path ++ ([0] ++
        List.replicate ((8 - (63 + (pathBytes e.path).length) % 8) % 8) 0))) := by
    have hcore : e.asVec =
        (u32be e.ctime_seconds ++ u32be e.ctime_nanoseconds ++ u32be e.mtime_seconds ++
         u32be e.mtime_nanoseconds ++ u32be e.dev ++ u32be e.ino ++ u32be e.mode.raw_mode ++
         u32be e.uid ++ u32be e.gid ++ u32be e.file_size) ++
        (hexlify e.object_id ++ (u16be (pathBytes e.path).length ++ (pathBytes e.path ++ ([0] ++
         List.replicate ((8 - (63 + (pathBytes e.path).length) % 8) % 8) 0)))) := by
      rw [asVec_decomp e holen]
      simp [List.append_assoc]
    rw [hcore]
    rw [show (40 : Nat) = (u32be e.ctime_seconds ++ u32be e.ctime_nanoseconds ++
      u32be e.mtime_seconds ++ u32be e.mtime_nanoseconds ++ u32be e.dev ++ u32be e.ino ++
      u32be e.mode.raw_mode ++ u32be e.uid ++ u32be e.gid ++ u32be e.file_size).length
      from by simp [u32be]]
    rw [List.drop_left]
  refine ⟨?_, hhl, ?_, fun rest => parseEntry_asVec e hwf rest⟩
  · rw [hdrop, show (20 : Nat) = (hexlify e.object_id).length from hhl.symm, List.take_left]
  · rw [hdrop, show (20 : Nat) = (hexlify e.object_id).length from hhl.symm, List.take_left]
    exact unhexlify_hexlify e.object_id holt (by rw [holen]; decide)

/-- Witness for `index_entry_oid_field` at the concrete entry. -/
theorem index_entry_oid_field_witness :
    (c2Entry.asVec.drop 40).take 20 = hexlify c2Entry.object_id ∧
    (hexlify c2Entry.object_id).length = 20 ∧
    unhexlify ((c2Entry.asVec.drop 40).take 20) = c2Entry.object_id ∧
    (∀ rest, parseEntry (c2Entry.asVec ++ rest) = .ok (c2Entry, c2Entry.asVec.length)) :=
  index_entry_oid_field c2Entry (by decide)

/-! ## Claim theorems: the two parallel index parsers (C9) -/

/-- Inversion for a successful byte read. -/
theorem readBytes_ok {n : Nat} {bs xs r : List Nat} (h : readBytes n bs = .ok (xs, r)) :
    xs.length = n := by
  unfold readBytes at h
  split at h
  · rename_i hle
    cases h
    simp [List.length_take]
    omega
  · cases h

/-- C9 counterexample: the two parsers do not consume the same number of
bytes for an entry whose unpadded size is a multiple of 8.  For the
emitted entry with path `a` (64 bytes, no padding), the current parser
consumes 64 bytes while the legacy parser consumes 72 — precisely the case
the claim asserts they agree on. -/
theorem index_parsers_divergence_counterexample :
    parseEntry c9Entry.asVec = .ok (c9Entry, 64) ∧
    oldParseEntry c9Entry.asVec =
      .ok ({ ctime_seconds := 1657658046, ctime_nanoseconds := 444900053,
             mtime_seconds := 1657658046, mtime_nanoseconds := 444900053,
             dev := 65026, ino := 3831260, mode := 33188,
             uid := 1000, gid := 985, file_size := 262,
             path := [[97]],
             object_id := (List.range 40).map (· % 10) }, 72) ∧
    ¬ (64 : Nat) = 72 := by
  refine ⟨by decide, by decide, by decide⟩

set_option maxHeartbeats 2000000 in
/-- C9 (amended): whenever the legacy parser (`src/index.rs`) accepts an
entry, the current parser (`src/src/index.rs`) accepts the same bytes and
reads the same path, metadata and object id, except that the current
parser coerces the mode through `Mode::new` while the legacy parser keeps
the raw value; and the consumed sizes agree exactly when the unpadded
entry size `63 + |path bytes|` is not a multiple of 8 — when it is, the
legacy parser consumes 8 bytes more. -/
theorem index_parsers_relation (bs : List Nat) (eo : OldIndexEntry) (co : Nat)
    (h : oldParseEntry bs = .ok (eo, co)) :
    parseEntry bs =
      .ok (eo.toNew, co - (if (63 + (pathBytes eo.path).length) % 8 = 0 then 8 else 0)) := by
  unfold oldParseEntry at h
  obtain ⟨w1, e1, h⟩ := exceptBind_ok h
  obtain ⟨f1, r1⟩ := w1
  obtain ⟨v1, g1, h⟩ := exceptBind_ok h
  obtain ⟨w2, e2, h⟩ := exceptBind_ok h
  obtain ⟨f2, r2⟩ := w2
  obtain ⟨v2, g2, h⟩ := exceptBind_ok h
  obtain ⟨w3, e3, h⟩ := exceptBind_ok h
  obtain ⟨f3, r3⟩ := w3
  obtain ⟨v3, g3, h⟩ := exceptBind_ok h
  obtain ⟨w4, e4, h⟩ := exceptBind_ok h
  obtain ⟨f4, r4⟩ := w4
  obtain ⟨v4, g4, h⟩ := exceptBind_ok h
  obtain ⟨w5, e5, h⟩ := exceptBind_ok h
  obtain ⟨f5, r5⟩ := w5
  obtain ⟨v5, g5, h⟩ := exceptBind_ok h
  obtain ⟨w6, e6, h⟩ := exceptBind_ok h
  obtain ⟨f6, r6⟩ := w6
  obtain ⟨v6, g6, h⟩ := exceptBind_ok h
  obtain ⟨w7, e7, h⟩ := exceptBind_ok h
  obtain ⟨f7, r7⟩ := w7
  obtain ⟨v7, g7, h⟩ := exceptBind_ok h
  obtain ⟨w8, e8, h⟩ := exceptBind_ok h
  obtain ⟨f8, r8⟩ := w8
  obtain ⟨v8, g8, h⟩ := exceptBind_ok h
  obtain ⟨w9, e9, h⟩ := exceptBind_ok h
  obtain ⟨f9, r9⟩ := w9
  obtain ⟨v9, g9, h⟩ := exceptBind_ok h
  obtain ⟨w10, e10, h⟩ := exceptBind_ok h
  obtain ⟨f10, r10⟩ := w10
  obtain ⟨v10, g10, h⟩ := exceptBind_ok h
  obtain ⟨w11, e11, h⟩ := exceptBind_ok h
  obtain ⟨oidB, r11⟩ := w11
  obtain ⟨w12, e12, h⟩ := exceptBind_ok h
  obtain ⟨psb, r12⟩ := w12
  obtain ⟨ps, g12, h⟩ := exceptBind_ok h
  obtain ⟨w13, e13, h⟩ := exceptBind_ok h
  obtain ⟨pb, r13⟩ := w13
  simp only [Except.ok.injEq, Prod.mk.injEq] at h
  obtain ⟨heo, hco⟩ := h
  have hpbl : pb.length = ps := readBytes_ok e13
  unfold parseEntry
  rw [e1, exceptOkBind]
  simp only []
  rw [g1, exceptOkBind, e2, exceptOkBind]
  simp only []
  rw [g2, exceptOkBind, e3, exceptOkBind]
  simp only []
  rw [g3, exceptOkBind, e4, exceptOkBind]
  simp only []
  rw [g4, exceptOkBind, e5, exceptOkBind]
  simp only []
  rw [g5, exceptOkBind, e6, exceptOkBind]
  simp only []
  rw [g6, exceptOkBind, e7, exceptOkBind]
  simp only []
  rw [g7, exceptOkBind, e8, exceptOkBind]
  simp only []
  rw [g8, exceptOkBind, e9, exceptOkBind]
  simp only []
  rw [g9, exceptOkBind, e10, exceptOkBind]
  simp only []
  rw [g10, exceptOkBind, e11, exceptOkBind]
  simp only []
  rw [e12, exceptOkBind]
  simp only []
  rw [g12, exceptOkBind, e13, exceptOkBind]
  simp only []
  have hpath2 : eo.path = splitOnSlash pb := by rw [← heo]
  have htoNew : eo.toNew =
      { ctime_seconds := v1, ctime_nanoseconds := v2, mtime_seconds := v3,
        mtime_nanoseconds := v4, dev := v5, ino := v6, mode := Mode.new v7, uid := v8, gid := v9,
        file_size := v10, path := splitOnSlash pb, object_id := unhexlify oidB } := by
    rw [← heo]
    rfl
  rw [htoNew, hpath2, pathBytes_splitOnSlash pb, hpbl, ← hco]
  rw [Except.ok.injEq, Prod.mk.injEq]
  refine ⟨rfl, ?_⟩
  split <;> split <;> omega

/-- Witness for `index_parsers_relation` at the concrete emitted entry. -/
theorem index_parsers_relation_witness :
    parseEntry c9Entry.asVec =
      .ok (c9OldEntry.toNew,
        72 - (if (63 + (pathBytes c9OldEntry.path).length) % 8 = 0 then 8 else 0)) :=
  index_parsers_relation c9Entry.asVec c9OldEntry 72 (by decide)

theorem range'_snoc (s n : Nat) : List.range' s (n + 1) = List.range' s n ++ [s + n] := by
  induction n generalizing s with
  | zero => simp [List.range'_succ]
  | succ m ih =>
      have h : s + 1 + m = s + (m + 1) := by omega
      rw [List.range'_succ, ih, List.range'_succ, h, List.cons_append]

theorem drop_range' (k s n : Nat) :
    (List.range' s n).drop k = List.range' (s + k) (n - k) := by
  induction n generalizing s k with
  | zero => simp
  | succ m ih =>
      cases k with
      | zero => simp
      | succ k2 =>
          rw [List.range'_succ]
          show (List.range' (s + 1) m).drop k2 = _
          rw [ih]
          congr 1 <;> omega

theorem Chunk_new_edits (l : List (Nat × EditS)) : (Chunk.new l).edits = l := by
  unfold Chunk.new
  split
  rfl

theorem chunksEdits_append (c1 c2 : List Chunk) :
    chunksEdits (c1 ++ c2) = chunksEdits c1 ++ chunksEdits c2 := by
  simp [chunksEdits]

theorem chunksEdits_single (l : List (Nat × EditS)) : chunksEdits [Chunk.new l] = l := by
  simp [chunksEdits, Chunk_new_edits]

theorem length_lt_of_drop (script : List EditS) (i : Nat) (e : EditS) (rest : List EditS)
    (h : script.drop i = e :: rest) : i < script.length := by
  have := congrArg List.length h
  simp [List.length_drop] at this
  omega

theorem scriptEdit_of_drop (script : List EditS) (i : Nat) (e : EditS) (rest : List EditS)
    (h : script.drop i = e :: rest) : scriptEdit script i = e := by
  have hi : i < script.length := length_lt_of_drop script i e rest h
  unfold scriptEdit
  rw [List.getD_eq_getElem _ _ hi]
  have h0 : (script.drop i)[0]? = some e := by rw [h]; simp
  rw [List.getElem?_drop] at h0
  simp only [Nat.add_zero] at h0
  rw [List.getElem?_eq_getElem hi] at h0
  exact Option.some.inj h0

theorem drop_succ_of_drop (script : List EditS) (i : Nat) (e : EditS) (rest : List EditS)
    (h : script.drop i = e :: rest) : script.drop (i + 1) = rest := by
  have h2 : script.drop (i + 1) = (script.drop i).drop 1 := by rw [List.drop_drop]
  rw [h2, h]
  rfl

theorem mem_drain_left (context cc : List (Nat × EditS)) (C : Nat) (p : Nat × EditS)
    (hp : p ∈ cc) : p ∈ drainContextIntoChunk context cc C := by
  unfold drainContextIntoChunk
  exact List.mem_append_left _ hp

theorem mem_drain_range (script : List EditS) (s n C : Nat) (cc : List (Nat × EditS))
    (p : Nat × EditS)
    (hp : p ∈ drainContextIntoChunk
        ((List.range' s n).map (fun j => (j, scriptEdit script j))) cc C) :
    p ∈ cc ∨ ∃ j, s ≤ j ∧ j < s + n ∧ s + n ≤ j + C ∧ p = (j, scriptEdit script j) := by
  unfold drainContextIntoChunk at hp
  simp only [List.length_map, List.length_range'] at hp
  rcases List.mem_append.mp hp with h1 | h2
  · exact Or.inl h1
  right
  rw [← List.map_drop, drop_range'] at h2
  obtain ⟨j, hj, hje⟩ := List.mem_map.mp h2
  rw [List.mem_range'_1] at hj
  have hk : (if C < n then n - C else 0) ≤ n ∧ n ≤ (if C < n then n - C else 0) + C := by
    split <;> omega
  exact ⟨j, by omega, by omega, by omega, hje.symm⟩

theorem chunkStep_mutation (L C : Nat) (st : ChunkState) (i : Nat) (e : EditS)
    (hk : e.kind = EditKind.addition ∨
      (e.kind = EditKind.deletion ∧ shouldShow e i L = true)) :
    chunkStep L C st i e =
      ⟨st.chunks, drainContextIntoChunk st.context st.chunkContent C ++ [(i, e)], [], i⟩ := by
  obtain ⟨cks, cc, ctx, lm⟩ := st
  rcases hk with hk | ⟨hk, hs⟩
  · simp [chunkStep, hk]
  · simp [chunkStep, hk, hs]

theorem chunkStep_deletion_hidden (L C : Nat) (st : ChunkState) (i : Nat) (e : EditS)
    (hk : e.kind = EditKind.deletion) (hs : shouldShow e i L = false) :
    chunkStep L C st i e =
      ⟨st.chunks, drainContextIntoChunk st.context st.chunkContent C, [], i⟩ := by
  obtain ⟨cks, cc, ctx, lm⟩ := st
  simp [chunkStep, hk, hs]

theorem chunkStep_equal_noflush (L C : Nat) (st : ChunkState) (i : Nat) (e : EditS)
    (hk : e.kind = EditKind.equal)
    (hnf : ¬ (C < i - st.lastMutatingEditIdx ∧ ¬ st.chunkContent.isEmpty))
    (hs : shouldShow e i L = true) :
    chunkStep L C st i e =
      ⟨st.chunks, st.chunkContent, st.context ++ [(i, e)], st.lastMutatingEditIdx⟩ := by
  obtain ⟨cks, cc, ctx, lm⟩ := st
  simp only [chunkStep, hk]
  rw [if_neg hnf]
  simp [hs]

theorem chunkStep_equal_noflush_hidden (L C : Nat) (st : ChunkState) (i : Nat) (e : EditS)
    (hk : e.kind = EditKind.equal)
    (hnf : ¬ (C < i - st.lastMutatingEditIdx ∧ ¬ st.chunkContent.isEmpty))
    (hs : shouldShow e i L = false) :
    chunkStep L C st i e = st := by
  obtain ⟨cks, cc, ctx, lm⟩ := st
  simp only [chunkStep, hk]
  rw [if_neg hnf]
  simp [hs]

theorem chunkStep_equal_flush (L C : Nat) (st : ChunkState) (i : Nat) (e : EditS)
    (hk : e.kind = EditKind.equal)
    (hf : C < i - st.lastMutatingEditIdx ∧ ¬ st.chunkContent.isEmpty)
    (hs : shouldShow e i L = true) :
    chunkStep L C st i e =
      ⟨st.chunks ++ [Chunk.new (st.chunkContent ++ st.context)], [], [(i, e)],
        st.lastMutatingEditIdx⟩ := by
  obtain ⟨cks, cc, ctx, lm⟩ := st
  simp only [chunkStep, hk]
  rw [if_pos hf]
  simp [hs]

theorem chunkStep_equal_flush_hidden (L C : Nat) (st : ChunkState) (i : Nat) (e : EditS)
    (hk : e.kind = EditKind.equal)
    (hf : C < i - st.lastMutatingEditIdx ∧ ¬ st.chunkContent.isEmpty)
    (hs : shouldShow e i L = false) :
    chunkStep L C st i e =
      ⟨st.chunks ++ [Chunk.new (st.chunkContent ++ st.context)], [], [],
        st.lastMutatingEditIdx⟩ := by
  obtain ⟨cks, cc, ctx, lm⟩ := st
  simp only [chunkStep, hk]
  rw [if_pos hf]
  simp [hs]

theorem shouldShow_last_of_false (e : EditS) (i L : Nat)
    (hs : shouldShow e i L = false) (hi : i < L) : L = i + 1 := by
  unfold shouldShow at hs
  by_cases hlt : i < L - 1
  · rw [if_pos hlt] at hs
    exact absurd hs (by simp)
  · omega

theorem coverage_of_finalInv (script : List EditS) (C : Nat) (st : ChunkState)
    (h : FinalInv script C st) : CoverageProps script C (chunkFinish st C) := by
  obtain ⟨hctx, hlm, hmem, hcov⟩ := h
  by_cases hcc : st.chunkContent.isEmpty
  · have hccnil : st.chunkContent = [] := by
      cases hcl : st.chunkContent
      · rfl
      · rw [hcl] at hcc; simp at hcc
    have hfe : chunkFinish st C = st.chunks := by simp [chunkFinish, hcc]
    rw [hfe]
    constructor
    · intro j hj hcm
      have hj2 := hcov j hj hcm
      rw [hccnil, List.append_nil] at hj2
      exact hj2
    · intro p hp
      exact hmem p (List.mem_append_left _ hp)
  · have hfe : chunkFinish st C =
        st.chunks ++ [Chunk.new (drainContextIntoChunk st.context st.chunkContent C)] := by
      simp [chunkFinish, hcc]
    obtain ⟨t, n, htn, hctxeq, hall, hccp⟩ := hctx
    obtain ⟨hmlt, hmub⟩ := hccp hcc
    obtain ⟨hmkind, hmL⟩ := hlm hcc
    rw [hfe]
    constructor
    · intro j hj hcm
      have hj2 := hcov j hj hcm
      rw [chunksEdits_append, chunksEdits_single]
      rcases List.mem_append.mp hj2 with h1 | h2
      · exact List.mem_append_left _ h1
      · exact List.mem_append_right _
          (mem_drain_left st.context st.chunkContent C _ h2)
    · intro p hp
      rw [chunksEdits_append, chunksEdits_single] at hp
      rcases List.mem_append.mp hp with h1 | h2
      · exact hmem p (List.mem_append_left _ h1)
      rw [hctxeq] at h2
      rcases mem_drain_range script t n C st.chunkContent p h2 with h3 | ⟨j, hj1, hj2, hj3, hje⟩
      · exact hmem p (List.mem_append_right _ h3)
      · subst hje
        refine ⟨rfl, by omega, fun _ => ?_⟩
        exact ⟨st.lastMutatingEditIdx, hmL, hmkind, by omega, by omega⟩

theorem chunkInv_step_mutation (script : List EditS) (C i : Nat) (st : ChunkState)
    (e : EditS)
    (hk : e.kind = EditKind.addition ∨
      (e.kind = EditKind.deletion ∧ shouldShow e i script.length = true))
    (he : scriptEdit script i = e) (hi : i < script.length)
    (hinv : ChunkInv script C i st) :
    ChunkInv script C (i + 1) (chunkStep script.length C st i e) := by
  obtain ⟨hiL, ⟨n, hn, hctxeq, hall, hccp⟩, hlm, hmem, hcov⟩ := hinv
  have hkind : e.kind ≠ EditKind.equal := by
    rcases hk with hk | ⟨hk, _⟩ <;> rw [hk] <;> intro hx <;> cases hx
  rw [chunkStep_mutation script.length C st i e hk]
  refine ⟨by omega, ⟨0, by omega, by simp, ?_, ?_⟩, ?_, ?_, ?_⟩
  · intro j h1 h2; omega
  · intro _
    dsimp only
    constructor <;> omega
  · intro _
    rw [he]
    exact ⟨hkind, hi⟩
  · intro p hp
    simp only [List.mem_append] at hp
    rcases hp with hp | hp
    · exact hmem p (List.mem_append_left _ hp)
    rcases hp with hp | hp
    · rw [hctxeq] at hp
      rcases mem_drain_range script (i - n) n C st.chunkContent p
          (by exact hp) with h3 | ⟨j, hj1, hj2, hj3, hje⟩
      · exact hmem p (List.mem_append_right _ h3)
      · subst hje
        refine ⟨rfl, by omega, fun _ => ?_⟩
        refine ⟨i, hi, by rw [he]; exact hkind, by omega, by omega⟩
    · have hpe : p = (i, e) := by simpa using hp
      subst hpe
      refine ⟨by rw [he], hi, ?_⟩
      intro hx
      rw [he] at hx
      exact absurd hx hkind
  · intro j hj hcm
    by_cases hji : j = i
    · subst hji
      simp only [List.mem_append]
      right; right
      rw [he]
      simp
    · have hj2 := hcov j (by omega) hcm
      simp only [List.mem_append] at hj2 ⊢
      rcases hj2 with h1 | h2
      · exact Or.inl h1
      · exact Or.inr (Or.inl (mem_drain_left st.context st.chunkContent C _ h2))

theorem chunkInv_step_equal (script : List EditS) (C i : Nat) (st : ChunkState)
    (e : EditS) (hk : e.kind = EditKind.equal) (he : scriptEdit script i = e)
    (hi : i < script.length) (hs : shouldShow e i script.length = true)
    (hinv : ChunkInv script C i st) :
    ChunkInv script C (i + 1) (chunkStep script.length C st i e) := by
  obtain ⟨hiL, ⟨n, hn, hctxeq, hall, hccp⟩, hlm, hmem, hcov⟩ := hinv
  by_cases hf : C < i - st.lastMutatingEditIdx ∧ ¬ st.chunkContent.isEmpty
  · obtain ⟨hmub, hmlb⟩ := hccp hf.2
    obtain ⟨hmkind, hmL⟩ := hlm hf.2
    rw [chunkStep_equal_flush script.length C st i e hk hf hs]
    refine ⟨by omega, ⟨1, by omega, ?_, ?_, ?_⟩, ?_, ?_, ?_⟩
    · have h1 : i + 1 - 1 = i := by omega
      rw [h1]
      simp [List.range'_succ, he]
    · intro j h1 h2
      have hji : j = i := by omega
      subst hji
      rw [he, hk]
    · intro habs; simp at habs
    · intro habs; simp at habs
    · intro p hp
      rw [chunksEdits_append, chunksEdits_single, List.append_nil] at hp
      simp only [List.mem_append] at hp
      rcases hp with hp | hp
      · exact hmem p (List.mem_append_left _ hp)
      rcases hp with hp | hp
      · exact hmem p (List.mem_append_right _ hp)
      · rw [hctxeq] at hp
        obtain ⟨j, hj, hje⟩ := List.mem_map.mp hp
        rw [List.mem_range'_1] at hj
        have hje2 : p = (j, scriptEdit script j) := hje.symm
        subst hje2
        refine ⟨rfl, by omega, fun _ => ?_⟩
        exact ⟨st.lastMutatingEditIdx, hmL, hmkind, by omega, by omega⟩
    · intro j hj hcm
      rw [chunksEdits_append, chunksEdits_single, List.append_nil]
      by_cases hji : j = i
      · subst hji
        rcases hcm with hcm | ⟨hcm, _⟩ <;> rw [he, hk] at hcm <;> cases hcm
      · have hj2 := hcov j (by omega) hcm
        simp only [List.mem_append] at hj2 ⊢
        rcases hj2 with h1 | h2
        · exact Or.inl h1
        · exact Or.inr (Or.inl h2)
  · rw [chunkStep_equal_noflush script.length C st i e hk hf hs]
    refine ⟨by omega, ⟨n + 1, by omega, ?_, ?_, ?_⟩, hlm, hmem, ?_⟩
    · have h1 : i + 1 - (n + 1) = i - n := by omega
      have h2 : i - n + n = i := by omega
      dsimp only
      rw [hctxeq, h1, range'_snoc, List.map_append, h2]
      simp [he]
    · intro j h1 h2
      by_cases hji : j = i
      · subst hji; rw [he, hk]
      · exact hall j (by omega) (by omega)
    · intro hne
      obtain ⟨h1, h2⟩ := hccp hne
      have hle : i - st.lastMutatingEditIdx ≤ C := by
        by_contra hx
        exact hf ⟨by omega, hne⟩
      dsimp only
      constructor <;> omega
    · intro j hj hcm
      by_cases hji : j = i
      · subst hji
        rcases hcm with hcm | ⟨hcm, _⟩ <;> rw [he, hk] at hcm <;> cases hcm
      · exact hcov j (by omega) hcm

theorem finalInv_last_deletion (script : List EditS) (C i : Nat) (st : ChunkState)
    (e : EditS) (hk : e.kind = EditKind.deletion) (he : scriptEdit script i = e)
    (hi : i < script.length) (hs : shouldShow e i script.length = false)
    (hinv : ChunkInv script C i st) :
    FinalInv script C (chunkStep script.length C st i e) := by
  obtain ⟨hiL, ⟨n, hn, hctxeq, hall, hccp⟩, hlm, hmem, hcov⟩ := hinv
  have hlen : script.length = i + 1 := shouldShow_last_of_false e i script.length hs hi
  have hkind : e.kind ≠ EditKind.equal := by rw [hk]; intro hx; cases hx
  rw [chunkStep_deletion_hidden script.length C st i e hk hs]
  refine ⟨⟨i + 1, 0, by omega, by simp, ?_, ?_⟩, ?_, ?_, ?_⟩
  · intro j h1 h2; omega
  · intro _
    dsimp only
    constructor <;> omega
  · intro _
    rw [he]
    exact ⟨hkind, hi⟩
  · intro p hp
    simp only [List.mem_append] at hp
    rcases hp with hp | hp
    · exact hmem p (List.mem_append_left _ hp)
    · rw [hctxeq] at hp
      rcases mem_drain_range script (i - n) n C st.chunkContent p
          (by exact hp) with h3 | ⟨j, hj1, hj2, hj3, hje⟩
      · exact hmem p (List.mem_append_right _ h3)
      · subst hje
        refine ⟨rfl, by omega, fun _ => ?_⟩
        refine ⟨i, hi, by rw [he]; exact hkind, by omega, by omega⟩
  · intro j hj hcm
    by_cases hji : j = i
    · subst hji
      rcases hcm with hcm | ⟨_, hcm⟩
      · rw [he, hk] at hcm; cases hcm
      · rw [he, hs] at hcm; cases hcm
    · have hj2 := hcov j (by omega) hcm
      simp only [List.mem_append] at hj2 ⊢
      rcases hj2 with h1 | h2
      · exact Or.inl h1
      · exact Or.inr (mem_drain_left st.context st.chunkContent C _ h2)

theorem finalInv_last_equal (script : List EditS) (C i : Nat) (st : ChunkState)
    (e : EditS) (hk : e.kind = EditKind.equal) (he : scriptEdit script i = e)
    (hi : i < script.length) (hs : shouldShow e i script.length = false)
    (hinv : ChunkInv script C i st) :
    FinalInv script C (chunkStep script.length C st i e) := by
  obtain ⟨hiL, ⟨n, hn, hctxeq, hall, hccp⟩, hlm, hmem, hcov⟩ := hinv
  have hlen : script.length = i + 1 := shouldShow_last_of_false e i script.length hs hi
  by_cases hf : C < i - st.lastMutatingEditIdx ∧ ¬ st.chunkContent.isEmpty
  · obtain ⟨hmub, hmlb⟩ := hccp hf.2
    obtain ⟨hmkind, hmL⟩ := hlm hf.2
    rw [chunkStep_equal_flush_hidden script.length C st i e hk hf hs]
    refine ⟨⟨0, 0, by omega, by simp, ?_, ?_⟩, ?_, ?_, ?_⟩
    · intro j h1 h2; omega
    · intro habs; simp at habs
    · intro habs; simp at habs
    · intro p hp
      rw [chunksEdits_append, chunksEdits_single, List.append_nil] at hp
      simp only [List.mem_append] at hp
      rcases hp with hp | hp
      · exact hmem p (List.mem_append_left _ hp)
      rcases hp with hp | hp
      · exact hmem p (List.mem_append_right _ hp)
      · rw [hctxeq] at hp
        obtain ⟨j, hj, hje⟩ := List.mem_map.mp hp
        rw [List.mem_range'_1] at hj
        have hje2 : p = (j, scriptEdit script j) := hje.symm
        subst hje2
        refine ⟨rfl, by omega, fun _ => ?_⟩
        exact ⟨st.lastMutatingEditIdx, hmL, hmkind, by omega, by omega⟩
    · intro j hj hcm
      rw [chunksEdits_append, chunksEdits_single, List.append_nil]
      by_cases hji : j = i
      · subst hji
        rcases hcm with hcm | ⟨hcm, _⟩ <;> rw [he, hk] at hcm <;> cases hcm
      · have hj2 := hcov j (by omega) hcm
        simp only [List.mem_append] at hj2 ⊢
        rcases hj2 with h1 | h2
        · exact Or.inl h1
        · exact Or.inr (Or.inl h2)
  · rw [chunkStep_equal_noflush_hidden script.length C st i e hk hf hs]
    refine ⟨⟨i - n, n, by omega, hctxeq, ?_, ?_⟩, hlm, hmem, ?_⟩
    · intro j h1 h2
      exact hall j h1 (by omega)
    · intro hne
      obtain ⟨h1, h2⟩ := hccp hne
      constructor <;> omega
    · intro j hj hcm
      by_cases hji : j = i
      · subst hji
        rcases hcm with hcm | ⟨hcm, _⟩ <;> rw [he, hk] at hcm <;> cases hcm
      · exact hcov j (by omega) hcm

theorem chunkLoop_coverage (script : List EditS) (C : Nat) :
    ∀ (remaining : List EditS) (i : Nat) (st : ChunkState),
      script.drop i = remaining → ChunkInv script C i st →
      CoverageProps script C (chunkFinish (chunkLoop script.length C st i remaining) C) := by
  intro remaining
  induction remaining with
  | nil =>
      intro i st hdrop hinv
      have hge : script.length ≤ i := by
        have := congrArg List.length hdrop
        simp [List.length_drop] at this
        omega
      obtain ⟨hiL, ⟨n, hn, hctxeq, hall, hccp⟩, hlm, hmem, hcov⟩ := hinv
      have hieq : i = script.length := Nat.le_antisymm hiL hge
      rw [chunkLoop]
      apply coverage_of_finalInv
      refine ⟨⟨i - n, n, by omega, hctxeq, ?_, ?_⟩, hlm, hmem, ?_⟩
      · intro j h1 h2
        exact hall j h1 (by omega)
      · intro hne
        obtain ⟨h1, h2⟩ := hccp hne
        constructor <;> omega
      · intro j hj hcm
        exact hcov j (by omega) hcm
  | cons e rest ih =>
      intro i st hdrop hinv
      have hi : i < script.length := length_lt_of_drop script i e rest hdrop
      have he : scriptEdit script i = e := scriptEdit_of_drop script i e rest hdrop
      have hdrop2 : script.drop (i + 1) = rest := drop_succ_of_drop script i e rest hdrop
      rw [chunkLoop]
      cases hk : e.kind with
      | addition =>
          exact ih (i + 1) _ hdrop2
            (chunkInv_step_mutation script C i st e (Or.inl hk) he hi hinv)
      | deletion =>
          cases hs : shouldShow e i script.length with
          | true =>
              exact ih (i + 1) _ hdrop2
                (chunkInv_step_mutation script C i st e (Or.inr ⟨hk, hs⟩) he hi hinv)
          | false =>
              have hlen : script.length = i + 1 :=
                shouldShow_last_of_false e i script.length hs hi
              have hrest : rest = [] := by
                have := congrArg List.length hdrop
                simp [List.length_drop] at this
                cases rest with
                | nil => rfl
                | cons r rs => simp at this; omega
              subst hrest
              rw [chunkLoop]
              exact coverage_of_finalInv script C _
                (finalInv_last_deletion script C i st e hk he hi hs hinv)
      | equal =>
          cases hs : shouldShow e i script.length with
          | true =>
              exact ih (i + 1) _ hdrop2
                (chunkInv_step_equal script C i st e hk he hi hs hinv)
          | false =>
              have hrest : rest = [] := by
                have hlen : script.length = i + 1 :=
                  shouldShow_last_of_false e i script.length hs hi
                have := congrArg List.length hdrop
                simp [List.length_drop] at this
                cases rest with
                | nil => rfl
                | cons r rs => simp at this; omega
              subst hrest
              rw [chunkLoop]
              exact coverage_of_finalInv script C _
                (finalInv_last_equal script C i st e hk he hi hs hinv)

/-- C6.  The original claim fails: a final `Deletion` with empty content
is suppressed by `should_show` and appears in no chunk, even though
`chunk_edit_script` emits a chunk for the script. -/
theorem chunk_missing_deletion_counterexample :
    (scriptEdit c6Script 1).kind = EditKind.deletion ∧ 1 < c6Script.length ∧
    chunkEditScript c6Script 3 ≠ [] ∧
    ∀ p ∈ chunksEdits (chunkEditScript c6Script 3), p.1 ≠ 1 := by
  decide

/-- C6 (amended).  For every edit script and every context size, the
chunks of `chunk_edit_script` contain every `Addition` and every
`Deletion` kept by `should_show` (only a final `Deletion` with empty
content is suppressed), and every chunk member is the script edit at its
position, with every `Equal` member within `C` positions of an `Addition`
or `Deletion`. -/
theorem chunk_coverage (script : List EditS) (C : Nat) :
    CoverageProps script C (chunkEditScript script C) := by
  have h0 : ChunkInv script C 0
      { chunks := [], chunkContent := [], context := [], lastMutatingEditIdx := 0 } := by
    refine ⟨by omega, ⟨0, by omega, rfl, ?_, ?_⟩, ?_, ?_, ?_⟩
    · intro j h1 h2; omega
    · intro habs; simp at habs
    · intro habs; simp at habs
    · intro p hp; simp [chunksEdits] at hp
    · intro j hj; exact absurd hj (by omega)
  have hmain := chunkLoop_coverage script C script 0
    { chunks := [], chunkContent := [], context := [], lastMutatingEditIdx := 0 } rfl h0
  have heq : chunkEditScript script C =
      chunkFinish (chunkLoop script.length C
        { chunks := [], chunkContent := [], context := [], lastMutatingEditIdx := 0 }
        0 script) C := rfl
  rw [heq]
  exact hmain

/-- Witness for C6: the coverage theorem at a concrete four-edit script,
with the shown `Deletion` found in a chunk by evaluation. -/
theorem chunk_coverage_witness :
    CoverageProps c6CoverageScript 3 (chunkEditScript c6CoverageScript 3) ∧
    (1, scriptEdit c6CoverageScript 1) ∈ chunksEdits (chunkEditScript c6CoverageScript 3) :=
  ⟨chunk_coverage c6CoverageScript 3, by decide⟩

theorem underEq_refl (p : RPath) : underEq p p := by
  unfold underEq
  exact List.take_length ..

theorem underEq_length {d q : RPath} (h : underEq d q) : d.length ≤ q.length := by
  unfold underEq at h
  have := congrArg List.length h
  simp [List.length_take] at this
  omega

theorem underEq_take (q : RPath) (j : Nat) : underEq (q.take j) q := by
  unfold underEq
  rw [List.length_take]
  by_cases h : j ≤ q.length
  · have : min j q.length = j := by omega
    rw [this]
  · have h1 : min j q.length = q.length := by omega
    rw [h1, List.take_length]
    rw [List.take_of_length_le (by omega)]

theorem underEq_trans {a b q : RPath} (h1 : underEq a b) (h2 : underEq b q) : underEq a q := by
  unfold underEq at *
  have hl : a.length ≤ b.length := by
    have := congrArg List.length h1
    simp [List.length_take] at this
    omega
  calc q.take a.length = (q.take b.length).take a.length := by
        rw [List.take_take]
        congr 1
        omega
    _ = b.take a.length := by rw [h2]
    _ = a := h1

theorem underEq_antisymm {a b : RPath} (h1 : underEq a b) (h2 : underEq b a) : a = b := by
  have l1 := underEq_length h1
  have l2 := underEq_length h2
  unfold underEq at h1
  rw [← h1, List.take_of_length_le (by omega)]

theorem underEq_comparable {d1 d2 q : RPath} (h1 : underEq d1 q) (h2 : underEq d2 q)
    (hl : d1.length ≤ d2.length) : underEq d1 d2 := by
  unfold underEq at *
  calc d2.take d1.length = (q.take d2.length).take d1.length := by rw [h2]
    _ = q.take d1.length := by rw [List.take_take]; congr 1; omega
    _ = d1 := h1

theorem underEq_getD {d q : RPath} (h : underEq d q) {m : Nat} (hm : m < d.length) :
    q.getD m [] = d.getD m [] := by
  unfold underEq at h
  conv_rhs => rw [← h]
  rw [List.getD_eq_getElem?_getD, List.getD_eq_getElem?_getD, List.getElem?_take]
  rw [if_pos hm]

theorem take_underEq_take (p : RPath) {a b : Nat} (h : a ≤ b) :
    underEq (p.take a) (p.take b) := by
  unfold underEq
  rw [List.length_take, List.take_take]
  by_cases ha : a ≤ p.length
  · have h1 : min a p.length = a := by omega
    rw [h1]
    congr 1
    omega
  · have h1 : min a p.length = p.length := by omega
    rw [h1]
    have h2 : min p.length b = p.length := by omega
    rw [h2, List.take_length, List.take_of_length_le (by omega)]

theorem underEq_iff_take {d q : RPath} : underEq d q ↔ d = q.take d.length := by
  unfold underEq
  exact eq_comm

theorem underDir_getD_underEq {d q : RPath} (h : underDir d q) :
    underEq (d ++ [q.getD d.length []]) q := by
  obtain ⟨h1, h2⟩ := h
  unfold underEq
  rw [List.length_append, List.length_cons, List.length_nil]
  rw [List.take_succ, h1]
  congr 1
  rw [List.getD_eq_getElem?_getD]
  rw [List.getElem?_eq_getElem h2]
  rfl

theorem underEq_append_right {d q : RPath} (h : underEq (d ++ q) (d ++ q)) : True := trivial

/-! ## Order facts for the comparison functions -/

theorem cmpNat_eq_iff (a b : Nat) : cmpNat a b = .eq ↔ a = b := by
  unfold cmpNat
  split
  · constructor
    · intro h; cases h
    · intro h; omega
  · split
    · simp [*]
    · constructor
      · intro h; cases h
      · intro h; omega

theorem cmpNat_gt_iff (a b : Nat) : cmpNat a b = .gt ↔ cmpNat b a = .lt := by
  rcases Nat.lt_trichotomy a b with h | h | h
  · have h1 : cmpNat a b = .lt := by unfold cmpNat; rw [if_pos h]
    have h2 : cmpNat b a = .gt := by
      unfold cmpNat; rw [if_neg (by omega), if_neg (by omega)]
    rw [h1, h2]
    constructor <;> intro hx <;> cases hx
  · subst h
    have h1 : cmpNat a a = .eq := by unfold cmpNat; rw [if_neg (by omega), if_pos rfl]
    rw [h1]
    constructor <;> intro hx <;> cases hx
  · have h1 : cmpNat a b = .gt := by
      unfold cmpNat; rw [if_neg (by omega), if_neg (by omega)]
    have h2 : cmpNat b a = .lt := by unfold cmpNat; rw [if_pos h]
    rw [h1, h2]
    simp

theorem cmpNat_lt_trans {a b c : Nat} (h1 : cmpNat a b = .lt) (h2 : cmpNat b c = .lt) :
    cmpNat a c = .lt := by
  have ha : a < b := by
    by_contra hx
    unfold cmpNat at h1
    rw [if_neg hx] at h1
    split at h1 <;> cases h1
  have hb : b < c := by
    by_contra hx
    unfold cmpNat at h2
    rw [if_neg hx] at h2
    split at h2 <;> cases h2
  unfold cmpNat
  rw [if_pos (by omega)]

theorem cmpList_cons_lt {c : α → α → Ordering} {a b : α} {as_ bs : List α}
    (h : c a b = .lt) : cmpList c (a :: as_) (b :: bs) = .lt := by
  rw [cmpList, h]

theorem cmpList_cons_gt {c : α → α → Ordering} {a b : α} {as_ bs : List α}
    (h : c a b = .gt) : cmpList c (a :: as_) (b :: bs) = .gt := by
  rw [cmpList, h]

theorem cmpList_cons_eq {c : α → α → Ordering} {a b : α} {as_ bs : List α}
    (h : c a b = .eq) : cmpList c (a :: as_) (b :: bs) = cmpList c as_ bs := by
  rw [cmpList, h]

theorem cmpList_eq_iff (c : α → α → Ordering) (hc : ∀ x y, c x y = .eq ↔ x = y) :
    ∀ xs ys : List α, cmpList c xs ys = .eq ↔ xs = ys
  | [], [] => by simp [cmpList]
  | [], _ :: _ => by simp [cmpList]
  | _ :: _, [] => by simp [cmpList]
  | a :: as_, b :: bs => by
      rcases hab : c a b with _ | _ | _
      · rw [cmpList_cons_lt hab]
        constructor
        · intro h; cases h
        · intro h
          injection h with h1 h2
          rw [(hc a b).mpr h1] at hab
          cases hab
      · rw [cmpList_cons_eq hab, cmpList_eq_iff c hc as_ bs]
        have hab2 := (hc a b).mp hab
        subst hab2
        constructor
        · intro h; rw [h]
        · intro h
          injection h with h1 h2
          all_goals exact h2
      · rw [cmpList_cons_gt hab]
        constructor
        · intro h; cases h
        · intro h
          injection h with h1 h2
          rw [(hc a b).mpr h1] at hab
          cases hab

theorem cmpList_gt_iff (c : α → α → Ordering) (hc : ∀ x y, c x y = .eq ↔ x = y)
    (hg : ∀ x y, c x y = .gt ↔ c y x = .lt) :
    ∀ xs ys : List α, cmpList c xs ys = .gt ↔ cmpList c ys xs = .lt
  | [], [] => by simp [cmpList]
  | [], _ :: _ => by simp [cmpList]
  | _ :: _, [] => by simp [cmpList]
  | a :: as_, b :: bs => by
      rcases hab : c a b with _ | _ | _
      · rw [cmpList_cons_lt hab, cmpList_cons_gt ((hg b a).mpr hab)]
        constructor <;> intro hx <;> cases hx
      · have hab2 := (hc a b).mp hab
        subst hab2
        rw [cmpList_cons_eq hab, cmpList_cons_eq hab]
        exact cmpList_gt_iff c hc hg as_ bs
      · rw [cmpList_cons_gt hab, cmpList_cons_lt ((hg a b).mp hab)]
        constructor <;> intro hx <;> rfl

theorem cmpList_lt_trans (c : α → α → Ordering) (hc : ∀ x y, c x y = .eq ↔ x = y)
    (ht : ∀ x y z, c x y = .lt → c y z = .lt → c x z = .lt) :
    ∀ xs ys zs : List α, cmpList c xs ys = .lt → cmpList c ys zs = .lt →
      cmpList c xs zs = .lt
  | [], [], _ => by intro h1 _; rw [cmpList] at h1; cases h1
  | [], _ :: _, [] => by intro _ h2; rw [cmpList] at h2; cases h2
  | [], _ :: _, _ :: _ => by intro _ _; rw [cmpList]
  | _ :: _, [], _ => by intro h1 _; rw [cmpList] at h1; cases h1
  | _ :: _, _ :: _, [] => by intro _ h2; rw [cmpList] at h2; cases h2
  | a :: as_, b :: bs, d :: ds => by
      intro h1 h2
      rcases hab : c a b with _ | _ | _
      · rcases hbd : c b d with _ | _ | _
        · exact cmpList_cons_lt (ht a b d hab hbd)
        · have hbd2 := (hc b d).mp hbd
          subst hbd2
          exact cmpList_cons_lt hab
        · rw [cmpList_cons_gt hbd] at h2
          cases h2
      · have hab2 := (hc a b).mp hab
        subst hab2
        rcases hbd : c a d with _ | _ | _
        · exact cmpList_cons_lt hbd
        · rw [cmpList_cons_eq hab] at h1
          rw [cmpList_cons_eq hbd] at h2
          rw [cmpList_cons_eq hbd]
          exact cmpList_lt_trans c hc ht as_ bs ds h1 h2
        · rw [cmpList_cons_gt hbd] at h2
          cases h2
      · rw [cmpList_cons_gt hab] at h1
        cases h1

theorem cmpComp_eq_iff (a b : Comp) : cmpComp a b = .eq ↔ a = b :=
  cmpList_eq_iff cmpNat cmpNat_eq_iff a b

theorem cmpComp_gt_iff (a b : Comp) : cmpComp a b = .gt ↔ cmpComp b a = .lt :=
  cmpList_gt_iff cmpNat cmpNat_eq_iff cmpNat_gt_iff a b

theorem cmpComp_lt_trans {a b c : Comp} (h1 : cmpComp a b = .lt) (h2 : cmpComp b c = .lt) :
    cmpComp a c = .lt :=
  cmpList_lt_trans cmpNat cmpNat_eq_iff (fun _ _ _ => cmpNat_lt_trans) a b c h1 h2

theorem cmpPath_eq_iff (a b : RPath) : cmpPath a b = .eq ↔ a = b :=
  cmpList_eq_iff cmpComp cmpComp_eq_iff a b

theorem cmpPath_gt_iff (a b : RPath) : cmpPath a b = .gt ↔ cmpPath b a = .lt :=
  cmpList_gt_iff cmpComp cmpComp_eq_iff cmpComp_gt_iff a b

theorem cmpPath_lt_trans {a b c : RPath} (h1 : cmpPath a b = .lt) (h2 : cmpPath b c = .lt) :
    cmpPath a c = .lt :=
  cmpList_lt_trans cmpComp cmpComp_eq_iff (fun _ _ _ => cmpComp_lt_trans) a b c h1 h2

theorem cmpPath_self (p : RPath) : cmpPath p p = .eq := (cmpPath_eq_iff p p).mpr rfl

theorem cmpPath_lt_ne {a b : RPath} (h : cmpPath a b = .lt) : a ≠ b := by
  intro hx
  subst hx
  rw [cmpPath_self] at h
  cases h

theorem cmpPath_lt_asymm {a b : RPath} (h : cmpPath a b = .lt) : cmpPath b a ≠ .lt := by
  intro hx
  have := cmpPath_lt_trans h hx
  rw [cmpPath_self] at this
  cases this

theorem cmpComp_self (c : Comp) : cmpComp c c = .eq := (cmpComp_eq_iff c c).mpr rfl

theorem cmpComp_lt_ne {a b : Comp} (h : cmpComp a b = .lt) : a ≠ b := by
  intro hx
  subst hx
  rw [cmpComp_self] at h
  cases h

theorem cmpComp_lt_asymm {a b : Comp} (h : cmpComp a b = .lt) : cmpComp b a ≠ .lt := by
  intro hx
  have := cmpComp_lt_trans h hx
  rw [cmpComp_self] at this
  cases this

theorem insComp_lt {c y : Comp} {ys : List Comp} (h : cmpComp c y = .lt) :
    insComp c (y :: ys) = c :: y :: ys := by rw [insComp, h]

theorem insComp_eq {c y : Comp} {ys : List Comp} (h : cmpComp c y = .eq) :
    insComp c (y :: ys) = y :: ys := by rw [insComp, h]

theorem insComp_gt {c y : Comp} {ys : List Comp} (h : cmpComp c y = .gt) :
    insComp c (y :: ys) = y :: insComp c ys := by rw [insComp, h]

theorem mem_insComp (c : Comp) : ∀ (s : List Comp) (x : Comp),
    x ∈ insComp c s ↔ x = c ∨ x ∈ s
  | [], x => by simp [insComp]
  | y :: ys, x => by
      rcases h : cmpComp c y with _ | _ | _
      · rw [insComp_lt h]
        simp
      · have he := (cmpComp_eq_iff c y).mp h
        subst he
        rw [insComp_eq h]
        simp
        all_goals tauto
      · rw [insComp_gt h]
        rw [List.mem_cons, List.mem_cons, mem_insComp c ys x]
        tauto

theorem insComp_ne_nil (c : Comp) (s : List Comp) : insComp c s ≠ [] := by
  cases s with
  | nil => simp [insComp]
  | cons y ys =>
      rcases h : cmpComp c y with _ | _ | _
      · rw [insComp_lt h]; simp
      · rw [insComp_eq h]; simp
      · rw [insComp_gt h]; simp

theorem sortedC_insComp (c : Comp) : ∀ (s : List Comp), SortedC s → SortedC (insComp c s)
  | [], _ => by unfold SortedC; simp [insComp]
  | y :: ys, h => by
      unfold SortedC at h ⊢
      rcases hcy : cmpComp c y with _ | _ | _
      · rw [insComp_lt hcy]
        rw [List.pairwise_cons]
        refine ⟨?_, h⟩
        intro b hb
        rcases List.mem_cons.mp hb with hb | hb
        · subst hb; exact hcy
        · rw [List.pairwise_cons] at h
          exact cmpComp_lt_trans hcy (h.1 b hb)
      · rw [insComp_eq hcy]; exact h
      · rw [insComp_gt hcy]
        rw [List.pairwise_cons] at h ⊢
        refine ⟨?_, sortedC_insComp c ys h.2⟩
        intro b hb
        rcases (mem_insComp c ys b).mp hb with hb | hb
        · rw [hb]
          exact (cmpComp_gt_iff c y).mp hcy
        · exact h.1 b hb

theorem sortedC_ext : ∀ (s1 s2 : List Comp), SortedC s1 → SortedC s2 →
    (∀ c, c ∈ s1 ↔ c ∈ s2) → s1 = s2
  | [], [], _, _, _ => rfl
  | [], c2 :: t2, _, _, h => by
      have := (h c2).mpr (by simp)
      simp at this
  | c1 :: t1, [], _, _, h => by
      have := (h c1).mp (by simp)
      simp at this
  | c1 :: t1, c2 :: t2, h1, h2, h => by
      unfold SortedC at h1 h2
      rw [List.pairwise_cons] at h1 h2
      have hc12 : c1 = c2 := by
        have hm1 := (h c1).mp (by simp)
        have hm2 := (h c2).mpr (by simp)
        rcases List.mem_cons.mp hm1 with hx | hx
        · exact hx
        · rcases List.mem_cons.mp hm2 with hy | hy
          · exact hy.symm
          · have l1 := h1.1 c2 hy
            have l2 := h2.1 c1 hx
            exact absurd l2 (cmpComp_lt_asymm l1)
      subst hc12
      have ht : t1 = t2 := by
        apply sortedC_ext t1 t2 h1.2 h2.2
        intro c
        constructor
        · intro hc
          have := (h c).mp (by simp [hc])
          rcases List.mem_cons.mp this with hx | hx
          · subst hx
            exact absurd (h1.1 c hc) (by rw [cmpComp_self]; intro hh; cases hh)
          · exact hx
        · intro hc
          have := (h c).mpr (by simp [hc])
          rcases List.mem_cons.mp this with hx | hx
          · subst hx
            exact absurd (h2.1 c hc) (by rw [cmpComp_self]; intro hh; cases hh)
          · exact hx
      rw [ht]

/-! ## Entries-map toolkit -/

theorem lookupEntry_nil (p : RPath) : lookupEntry [] p = none := rfl

theorem lookupEntry_cons (x : IndexEntry) (xs : List IndexEntry) (p : RPath) :
    lookupEntry (x :: xs) p = if x.path = p then some x else lookupEntry xs p := by
  unfold lookupEntry
  rw [List.find?_cons]
  by_cases h : x.path = p
  · simp [h]
  · simp [h]

theorem lookupEntry_none_iff (l : List IndexEntry) (p : RPath) :
    lookupEntry l p = none ↔ ∀ e ∈ l, e.path ≠ p := by
  unfold lookupEntry
  rw [List.find?_eq_none]
  simp

theorem lookupEntry_some (l : List IndexEntry) (p : RPath) (e : IndexEntry)
    (h : lookupEntry l p = some e) : e ∈ l ∧ e.path = p := by
  unfold lookupEntry at h
  refine ⟨List.mem_of_find?_eq_some h, ?_⟩
  have := List.find?_some h
  simpa using this

theorem insEntry_lt {e x : IndexEntry} {xs : List IndexEntry}
    (h : cmpPath e.path x.path = .lt) : insEntry e (x :: xs) = e :: x :: xs := by
  rw [insEntry, h]

theorem insEntry_eq {e x : IndexEntry} {xs : List IndexEntry}
    (h : cmpPath e.path x.path = .eq) : insEntry e (x :: xs) = e :: xs := by
  rw [insEntry, h]

theorem insEntry_gt {e x : IndexEntry} {xs : List IndexEntry}
    (h : cmpPath e.path x.path = .gt) : insEntry e (x :: xs) = x :: insEntry e xs := by
  rw [insEntry, h]

theorem mem_insEntry (e : IndexEntry) : ∀ (l : List IndexEntry) (x : IndexEntry),
    x ∈ insEntry e l → x = e ∨ x ∈ l
  | [], x => by simp [insEntry]
  | y :: ys, x => by
      rcases h : cmpPath e.path y.path with _ | _ | _
      · rw [insEntry_lt h]
        simp
        all_goals tauto
      · rw [insEntry_eq h]
        simp
        all_goals tauto
      · rw [insEntry_gt h]
        intro hx
        rcases List.mem_cons.mp hx with hx | hx
        · right; simp [hx]
        · rcases mem_insEntry e ys x hx with hx | hx
          · exact Or.inl hx
          · right; simp [hx]

theorem mem_insEntry_iff (e : IndexEntry) :
    ∀ (l : List IndexEntry), (∀ x ∈ l, x.path ≠ e.path) →
      ∀ x, x ∈ insEntry e l ↔ x = e ∨ x ∈ l
  | [], _ => by simp [insEntry]
  | y :: ys, hne => by
      intro x
      rcases h : cmpPath e.path y.path with _ | _ | _
      · rw [insEntry_lt h]
        simp
        all_goals tauto
      · have := (cmpPath_eq_iff _ _).mp h
        exact absurd this.symm (hne y (by simp))
      · rw [insEntry_gt h]
        rw [List.mem_cons, List.mem_cons,
          mem_insEntry_iff e ys (fun z hz => hne z (by simp [hz])) x]
        tauto

theorem lookupEntry_insEntry (e : IndexEntry) : ∀ (l : List IndexEntry) (p : RPath),
    lookupEntry (insEntry e l) p = if p = e.path then some e else lookupEntry l p
  | [], p => by
      rw [show insEntry e [] = [e] from rfl, lookupEntry_cons, lookupEntry_nil]
      by_cases h : p = e.path
      · rw [if_pos h, if_pos h.symm]
      · rw [if_neg h, if_neg (fun hx => h hx.symm)]
  | y :: ys, p => by
      rcases h : cmpPath e.path y.path with _ | _ | _
      · rw [insEntry_lt h, lookupEntry_cons]
        by_cases hp : p = e.path
        · rw [if_pos hp.symm, if_pos hp]
        · rw [if_neg (fun hx => hp hx.symm), if_neg hp]
      · have hey := (cmpPath_eq_iff _ _).mp h
        rw [insEntry_eq h, lookupEntry_cons, lookupEntry_cons]
        by_cases hp : p = e.path
        · rw [if_pos hp.symm, if_pos hp]
        · rw [if_neg (fun hx => hp hx.symm), if_neg hp,
            if_neg (fun hx : y.path = p => hp (hey.trans hx).symm)]
      · have hne : e.path ≠ y.path := by
          intro hx
          rw [(cmpPath_eq_iff e.path y.path).mpr hx] at h
          cases h
        rw [insEntry_gt h, lookupEntry_cons, lookupEntry_cons]
        by_cases hy : y.path = p
        · have h3 : ¬ p = e.path := fun hx => hne (hy.trans hx).symm
          rw [if_neg h3, if_pos hy, if_pos hy]
        · rw [if_neg hy, lookupEntry_insEntry e ys p, if_neg hy]

theorem sortedE_insEntry {e : IndexEntry} : ∀ {l : List IndexEntry},
    SortedE l → SortedE (insEntry e l)
  | [], _ => by unfold SortedE; simp [insEntry]
  | y :: ys, h => by
      unfold SortedE at h ⊢
      rcases hey : cmpPath e.path y.path with _ | _ | _
      · rw [insEntry_lt hey, List.pairwise_cons]
        refine ⟨?_, h⟩
        intro b hb
        rcases List.mem_cons.mp hb with hb | hb
        · subst hb; exact hey
        · rw [List.pairwise_cons] at h
          exact cmpPath_lt_trans hey (h.1 b hb)
      · rw [insEntry_eq hey, List.pairwise_cons]
        rw [List.pairwise_cons] at h
        refine ⟨?_, h.2⟩
        intro b hb
        rw [(cmpPath_eq_iff _ _).mp hey]
        exact h.1 b hb
      · rw [insEntry_gt hey, List.pairwise_cons]
        rw [List.pairwise_cons] at h
        refine ⟨?_, sortedE_insEntry h.2⟩
        intro b hb
        rcases mem_insEntry e ys b hb with hb | hb
        · subst hb
          exact (cmpPath_gt_iff _ _).mp hey
        · exact h.1 b hb

theorem eraseEntry_nil (p : RPath) : eraseEntry [] p = [] := rfl

theorem eraseEntry_cons (x : IndexEntry) (xs : List IndexEntry) (p : RPath) :
    eraseEntry (x :: xs) p =
      if x.path = p then eraseEntry xs p else x :: eraseEntry xs p := by
  unfold eraseEntry
  rw [List.filter_cons]
  by_cases h : x.path = p
  · simp [h]
  · simp [h]

theorem mem_eraseEntry (l : List IndexEntry) (p : RPath) (x : IndexEntry) :
    x ∈ eraseEntry l p ↔ x ∈ l ∧ x.path ≠ p := by
  unfold eraseEntry
  rw [List.mem_filter]
  simp

theorem eraseEntry_of_none (l : List IndexEntry) (p : RPath)
    (h : lookupEntry l p = none) : eraseEntry l p = l := by
  rw [lookupEntry_none_iff] at h
  unfold eraseEntry
  rw [List.filter_eq_self]
  intro e he
  simpa using h e he

theorem sortedE_eraseEntry {l : List IndexEntry} (h : SortedE l) (p : RPath) :
    SortedE (eraseEntry l p) := by
  unfold SortedE at *
  exact h.sublist (List.filter_sublist l)

theorem lookupEntry_eraseEntry (p q : RPath) : ∀ (l : List IndexEntry),
    lookupEntry (eraseEntry l p) q = if q = p then none else lookupEntry l q
  | [] => by
      rw [eraseEntry_nil, lookupEntry_nil]
      split <;> rfl
  | x :: xs => by
      rw [eraseEntry_cons]
      by_cases hx : x.path = p
      · rw [if_pos hx, lookupEntry_eraseEntry p q xs, lookupEntry_cons]
        by_cases hq : q = p
        · rw [if_pos hq, if_pos hq]
        · rw [if_neg hq, if_neg hq, if_neg (by rw [hx]; exact fun hh => hq hh.symm)]
      · rw [if_neg hx, lookupEntry_cons, lookupEntry_cons]
        by_cases hxq : x.path = q
        · rw [if_pos hxq]
          rw [if_neg (by rw [← hxq]; exact hx), if_pos hxq]
        · rw [if_neg hxq, if_neg hxq, lookupEntry_eraseEntry p q xs]

theorem sortedE_ext : ∀ (l1 l2 : List IndexEntry), SortedE l1 → SortedE l2 →
    (∀ p, lookupEntry l1 p = lookupEntry l2 p) → l1 = l2
  | [], [], _, _, _ => rfl
  | [], e2 :: t2, _, _, h => by
      have := h e2.path
      rw [lookupEntry_cons, if_pos rfl, lookupEntry_nil] at this
      cases this
  | e1 :: t1, [], _, _, h => by
      have := h e1.path
      rw [lookupEntry_cons, if_pos rfl, lookupEntry_nil] at this
      cases this
  | e1 :: t1, e2 :: t2, h1, h2, h => by
      unfold SortedE at h1 h2
      rw [List.pairwise_cons] at h1 h2
      have hee : e1 = e2 := by
        rcases hc : cmpPath e1.path e2.path with _ | _ | _
        · exfalso
          have he1 := h e1.path
          have hne : e2.path ≠ e1.path := by
            intro hx
            rw [(cmpPath_eq_iff e1.path e2.path).mpr hx.symm] at hc
            cases hc
          rw [lookupEntry_cons, if_pos rfl, lookupEntry_cons, if_neg hne] at he1
          have hnone : lookupEntry t2 e1.path = none := by
            rw [lookupEntry_none_iff]
            intro x hx hxx
            have hlt := cmpPath_lt_trans hc (h2.1 x hx)
            rw [hxx] at hlt
            rw [cmpPath_self] at hlt
            cases hlt
          rw [hnone] at he1
          cases he1
        · have he1 := h e1.path
          have hpe := (cmpPath_eq_iff _ _).mp hc
          rw [lookupEntry_cons, if_pos rfl, lookupEntry_cons, if_pos hpe.symm] at he1
          injection he1
        · exfalso
          have hc2 : cmpPath e2.path e1.path = .lt := (cmpPath_gt_iff _ _).mp hc
          have he2 := h e2.path
          have hne : e1.path ≠ e2.path := by
            intro hx
            rw [(cmpPath_eq_iff e2.path e1.path).mpr hx.symm] at hc2
            cases hc2
          rw [lookupEntry_cons, if_neg hne, lookupEntry_cons, if_pos rfl] at he2
          have hnone : lookupEntry t1 e2.path = none := by
            rw [lookupEntry_none_iff]
            intro x hx hxx
            have hlt := cmpPath_lt_trans hc2 (h1.1 x hx)
            rw [hxx] at hlt
            rw [cmpPath_self] at hlt
            cases hlt
          rw [hnone] at he2
          cases he2
      subst hee
      have ht : t1 = t2 := by
        apply sortedE_ext t1 t2 h1.2 h2.2
        intro p
        by_cases hp : p = e1.path
        · subst hp
          have hn1 : lookupEntry t1 e1.path = none := by
            rw [lookupEntry_none_iff]
            intro x hx hxx
            have := h1.1 x hx
            rw [hxx] at this
            rw [cmpPath_self] at this
            cases this
          have hn2 : lookupEntry t2 e1.path = none := by
            rw [lookupEntry_none_iff]
            intro x hx hxx
            have := h2.1 x hx
            rw [hxx] at this
            rw [cmpPath_self] at this
            cases this
          rw [hn1, hn2]
        · have := h p
          rw [lookupEntry_cons, lookupEntry_cons,
            if_neg (fun hx => hp hx.symm), if_neg (fun hx => hp hx.symm)] at this
          exact this
      rw [ht]

/-! ## Directories-map toolkit -/

theorem dirsLookup_nil (p : RPath) : dirsLookup [] p = none := rfl

theorem dirsLookup_cons (kv : RPath × List Comp) (rest : DirsMap) (p : RPath) :
    dirsLookup (kv :: rest) p = if kv.1 = p then some kv.2 else dirsLookup rest p := by
  unfold dirsLookup
  rw [List.find?_cons]
  by_cases h : kv.1 = p
  · simp [h]
  · simp [h]

theorem dirsLookup_none_iff (d : DirsMap) (p : RPath) :
    dirsLookup d p = none ↔ ∀ kv ∈ d, kv.1 ≠ p := by
  unfold dirsLookup
  rw [Option.map_eq_none']
  rw [List.find?_eq_none]
  simp

theorem dirsLookup_some_mem (d : DirsMap) (p : RPath) (s : List Comp)
    (h : dirsLookup d p = some s) : (p, s) ∈ d := by
  unfold dirsLookup at h
  rw [Option.map_eq_some'] at h
  obtain ⟨kv, hkv, hv⟩ := h
  have h1 := List.mem_of_find?_eq_some hkv
  have h2 := List.find?_some hkv
  simp at h2
  rw [← h2, ← hv]
  exact h1

theorem dirsEraseKey_nil (p : RPath) : dirsEraseKey [] p = [] := rfl

theorem dirsEraseKey_cons (kv : RPath × List Comp) (rest : DirsMap) (p : RPath) :
    dirsEraseKey (kv :: rest) p =
      if kv.1 = p then dirsEraseKey rest p else kv :: dirsEraseKey rest p := by
  unfold dirsEraseKey
  rw [List.filter_cons]
  by_cases h : kv.1 = p
  · simp [h]
  · simp [h]

theorem mem_dirsEraseKey (d : DirsMap) (p : RPath) (kv : RPath × List Comp) :
    kv ∈ dirsEraseKey d p ↔ kv ∈ d ∧ kv.1 ≠ p := by
  unfold dirsEraseKey
  rw [List.mem_filter]
  simp

theorem dirsEraseKey_of_none (d : DirsMap) (p : RPath)
    (h : dirsLookup d p = none) : dirsEraseKey d p = d := by
  rw [dirsLookup_none_iff] at h
  unfold dirsEraseKey
  rw [List.filter_eq_self]
  intro kv hkv
  simpa using h kv hkv

theorem sortedD_eraseKey {d : DirsMap} (h : SortedD d) (p : RPath) :
    SortedD (dirsEraseKey d p) := by
  unfold SortedD at *
  exact h.sublist (List.filter_sublist d)

theorem dirsLookup_eraseKey (p q : RPath) : ∀ (d : DirsMap),
    dirsLookup (dirsEraseKey d p) q = if q = p then none else dirsLookup d q
  | [] => by
      rw [dirsEraseKey_nil, dirsLookup_nil]
      split <;> rfl
  | kv :: rest => by
      rw [dirsEraseKey_cons]
      by_cases hk : kv.1 = p
      · rw [if_pos hk, dirsLookup_eraseKey p q rest, dirsLookup_cons]
        by_cases hq : q = p
        · rw [if_pos hq, if_pos hq]
        · rw [if_neg hq, if_neg hq, if_neg (by rw [hk]; exact fun hh => hq hh.symm)]
      · rw [if_neg hk, dirsLookup_cons, dirsLookup_cons]
        by_cases hkq : kv.1 = q
        · rw [if_pos hkq]
          rw [if_neg (by rw [← hkq]; exact hk), if_pos hkq]
        · rw [if_neg hkq, if_neg hkq, dirsLookup_eraseKey p q rest]

theorem dirsSetValue_nil (p : RPath) (v : List Comp) : dirsSetValue [] p v = [] := rfl

theorem dirsSetValue_cons (kv : RPath × List Comp) (rest : DirsMap) (p : RPath)
    (v : List Comp) :
    dirsSetValue (kv :: rest) p v =
      (if kv.1 = p then (p, v) else kv) :: dirsSetValue rest p v := by
  unfold dirsSetValue
  rw [List.map_cons]

theorem dirsLookup_setValue (p q : RPath) (v : List Comp) : ∀ (d : DirsMap),
    dirsLookup (dirsSetValue d p v) q =
      if q = p then (dirsLookup d p).map (fun _ => v) else dirsLookup d q
  | [] => by
      rw [dirsSetValue_nil, dirsLookup_nil]
      split <;> rfl
  | kv :: rest => by
      rw [dirsSetValue_cons]
      by_cases hk : kv.1 = p
      · rw [if_pos hk, dirsLookup_cons, dirsLookup_cons, if_pos hk]
        by_cases hq : q = p
        · rw [if_pos hq, if_pos hq.symm]
          rfl
        · rw [if_neg hq, if_neg (fun hh : p = q => hq hh.symm),
            dirsLookup_setValue p q v rest, if_neg hq, dirsLookup_cons,
            if_neg (fun hh : kv.1 = q => hq (hh.symm.trans hk))]
      · rw [if_neg hk, dirsLookup_cons, dirsLookup_cons, if_neg hk]
        by_cases hq : q = p
        · have hn1 : ¬ kv.1 = q := by rw [hq]; exact hk
          rw [if_pos hq, if_neg hn1, dirsLookup_setValue p q v rest, if_pos hq]
        · by_cases hkq : kv.1 = q
          · rw [if_pos hkq, if_neg hq, dirsLookup_cons, if_pos hkq]
          · rw [if_neg hkq, if_neg hq, dirsLookup_cons, if_neg hkq,
              dirsLookup_setValue p q v rest, if_neg hq]

theorem dirsSetValue_key (p : RPath) (v : List Comp) (kv : RPath × List Comp) :
    ((if kv.1 = p then (p, v) else kv) : RPath × List Comp).1 = kv.1 := by
  split
  · rename_i h
    rw [← h]
  · rfl

theorem sortedD_setValue {d : DirsMap} (h : SortedD d) (p : RPath) (v : List Comp) :
    SortedD (dirsSetValue d p v) := by
  unfold SortedD at *
  unfold dirsSetValue
  refine List.Pairwise.map _ ?_ h
  intro a b hab
  rw [dirsSetValue_key, dirsSetValue_key]
  exact hab

theorem mem_dirsSetValue_val (d : DirsMap) (p : RPath) (v : List Comp)
    (kv : RPath × List Comp) (h : kv ∈ dirsSetValue d p v) :
    kv.2 = v ∨ ∃ kv2 ∈ d, kv.2 = kv2.2 := by
  unfold dirsSetValue at h
  rw [List.mem_map] at h
  obtain ⟨kv2, hkv2, he⟩ := h
  by_cases hk : kv2.1 = p
  · rw [if_pos hk] at he
    left
    rw [← he]
  · rw [if_neg hk] at he
    right
    exact ⟨kv2, hkv2, by rw [← he]⟩

theorem dirsSetValue_of_none (p : RPath) (v : List Comp) : ∀ (d : DirsMap),
    dirsLookup d p = none → dirsSetValue d p v = d
  | [] => by intro _; rfl
  | kv :: rest => by
      intro h
      rw [dirsLookup_cons] at h
      by_cases hk : kv.1 = p
      · rw [if_pos hk] at h; cases h
      · rw [if_neg hk] at h
        rw [dirsSetValue_cons, if_neg hk, dirsSetValue_of_none p v rest h]

theorem dirsInsertChild_lt {d : DirsMap} {kv : RPath × List Comp} {p : RPath} {c : Comp}
    (h : cmpPath p kv.1 = .lt) :
    dirsInsertChild (kv :: d) p c = (p, [c]) :: kv :: d := by
  rw [dirsInsertChild, h]

theorem dirsInsertChild_eq {d : DirsMap} {kv : RPath × List Comp} {p : RPath} {c : Comp}
    (h : cmpPath p kv.1 = .eq) :
    dirsInsertChild (kv :: d) p c = (kv.1, insComp c kv.2) :: d := by
  rw [dirsInsertChild, h]

theorem dirsInsertChild_gt {d : DirsMap} {kv : RPath × List Comp} {p : RPath} {c : Comp}
    (h : cmpPath p kv.1 = .gt) :
    dirsInsertChild (kv :: d) p c = kv :: dirsInsertChild d p c := by
  rw [dirsInsertChild, h]

theorem mem_dirsInsertChild (p : RPath) (c : Comp) : ∀ (d : DirsMap)
    (kv : RPath × List Comp), kv ∈ dirsInsertChild d p c →
      kv = (p, [c]) ∨ (∃ kv2 ∈ d, kv = (kv2.1, insComp c kv2.2)) ∨ kv ∈ d
  | [], kv => by
      rw [show dirsInsertChild [] p c = [(p, [c])] from rfl]
      simp
  | y :: ys, kv => by
      rcases h : cmpPath p y.1 with _ | _ | _
      · rw [dirsInsertChild_lt h]
        simp
        all_goals tauto
      · rw [dirsInsertChild_eq h]
        intro hkv
        rcases List.mem_cons.mp hkv with hkv | hkv
        · right; left
          exact ⟨y, by simp, hkv⟩
        · right; right; simp [hkv]
      · rw [dirsInsertChild_gt h]
        intro hkv
        rcases List.mem_cons.mp hkv with hkv | hkv
        · right; right; simp [hkv]
        · rcases mem_dirsInsertChild p c ys kv hkv with hx | hx | hx
          · exact Or.inl hx
          · right; left
            obtain ⟨kv2, hkv2, he⟩ := hx
            exact ⟨kv2, by simp [hkv2], he⟩
          · right; right; simp [hx]

theorem sortedD_insertChild (p : RPath) (c : Comp) : ∀ (d : DirsMap),
    SortedD d → SortedD (dirsInsertChild d p c)
  | [], _ => by unfold SortedD; rw [show dirsInsertChild [] p c = [(p, [c])] from rfl]; simp
  | y :: ys, h => by
      unfold SortedD at h ⊢
      rcases hpy : cmpPath p y.1 with _ | _ | _
      · rw [dirsInsertChild_lt hpy, List.pairwise_cons]
        refine ⟨?_, h⟩
        intro b hb
        rcases List.mem_cons.mp hb with hb | hb
        · rw [hb]; exact hpy
        · rw [List.pairwise_cons] at h
          exact cmpPath_lt_trans hpy (h.1 b hb)
      · rw [dirsInsertChild_eq hpy, List.pairwise_cons]
        rw [List.pairwise_cons] at h
        exact ⟨h.1, h.2⟩
      · rw [dirsInsertChild_gt hpy, List.pairwise_cons]
        rw [List.pairwise_cons] at h
        refine ⟨?_, sortedD_insertChild p c ys h.2⟩
        intro b hb
        rcases mem_dirsInsertChild p c ys b hb with hx | hx | hx
        · rw [hx]
          exact (cmpPath_gt_iff _ _).mp hpy
        · obtain ⟨kv2, hkv2, he⟩ := hx
          rw [he]
          exact h.1 kv2 hkv2
        · exact h.1 b hx

theorem dirsLookup_insertChild (p : RPath) (c : Comp) : ∀ (d : DirsMap), SortedD d →
    ∀ q, dirsLookup (dirsInsertChild d p c) q =
      if q = p then some (insComp c ((dirsLookup d p).getD [])) else dirsLookup d q
  | [], _ => by
      intro q
      rw [show dirsInsertChild [] p c = [(p, [c])] from rfl, dirsLookup_cons, dirsLookup_nil]
      by_cases hq : q = p
      · rw [if_pos hq.symm, if_pos hq]
        rfl
      · rw [if_neg (fun hh : p = q => hq hh.symm), if_neg hq]
  | y :: ys, hs => by
      intro q
      unfold SortedD at hs
      rw [List.pairwise_cons] at hs
      rcases hpy : cmpPath p y.1 with _ | _ | _
      · rw [dirsInsertChild_lt hpy, dirsLookup_cons]
        have hlp : dirsLookup (y :: ys) p = none := by
          rw [dirsLookup_none_iff]
          intro kv hkv
          rcases List.mem_cons.mp hkv with hkv | hkv
          · rw [hkv]
            intro hh
            rw [(cmpPath_eq_iff p y.1).mpr hh.symm] at hpy
            cases hpy
          · intro hh
            have := cmpPath_lt_trans hpy (hs.1 kv hkv)
            rw [hh] at this
            rw [cmpPath_self] at this
            cases this
        by_cases hq : q = p
        · rw [if_pos hq.symm, if_pos hq, hlp]
          rfl
        · rw [if_neg (fun hh : p = q => hq hh.symm), if_neg hq]
      · have hpe := (cmpPath_eq_iff p y.1).mp hpy
        rw [dirsInsertChild_eq hpy, dirsLookup_cons, dirsLookup_cons]
        by_cases hq : q = p
        · have hy1 : y.1 = q := by rw [hq, hpe]
          rw [if_pos hy1, if_pos hq, if_pos hpe.symm, Option.getD_some]
        · have hn1 : ¬ y.1 = q := by
            rw [← hpe]
            exact fun hh : p = q => hq hh.symm
          rw [if_neg hn1, if_neg hq, dirsLookup_cons, if_neg hn1]
      · have hne : y.1 ≠ p := by
          intro hh
          rw [(cmpPath_eq_iff p y.1).mpr hh.symm] at hpy
          cases hpy
        rw [dirsInsertChild_gt hpy, dirsLookup_cons, dirsLookup_cons]
        by_cases hq : q = p
        · have hn1 : ¬ y.1 = q := by rw [hq]; exact hne
          rw [if_pos hq, if_neg hn1,
            dirsLookup_insertChild p c ys hs.2 q, if_pos hq, if_neg hne]
        · by_cases hyq : y.1 = q
          · rw [if_pos hyq, if_neg hq, dirsLookup_cons, if_pos hyq]
          · rw [if_neg hyq, if_neg hq, dirsLookup_cons, if_neg hyq,
              dirsLookup_insertChild p c ys hs.2 q, if_neg hq]

theorem sortedD_ext : ∀ (d1 d2 : DirsMap), SortedD d1 → SortedD d2 →
    (∀ p, dirsLookup d1 p = dirsLookup d2 p) → d1 = d2
  | [], [], _, _, _ => rfl
  | [], kv2 :: t2, _, _, h => by
      have := h kv2.1
      rw [dirsLookup_cons, if_pos rfl, dirsLookup_nil] at this
      cases this
  | kv1 :: t1, [], _, _, h => by
      have := h kv1.1
      rw [dirsLookup_cons, if_pos rfl, dirsLookup_nil] at this
      cases this
  | kv1 :: t1, kv2 :: t2, h1, h2, h => by
      unfold SortedD at h1 h2
      rw [List.pairwise_cons] at h1 h2
      have hee : kv1 = kv2 := by
        rcases hc : cmpPath kv1.1 kv2.1 with _ | _ | _
        · exfalso
          have he1 := h kv1.1
          have hne : kv2.1 ≠ kv1.1 := by
            intro hx
            rw [(cmpPath_eq_iff kv1.1 kv2.1).mpr hx.symm] at hc
            cases hc
          rw [dirsLookup_cons, if_pos rfl, dirsLookup_cons, if_neg hne] at he1
          have hnone : dirsLookup t2 kv1.1 = none := by
            rw [dirsLookup_none_iff]
            intro x hx hxx
            have hlt := cmpPath_lt_trans hc (h2.1 x hx)
            rw [hxx] at hlt
            rw [cmpPath_self] at hlt
            cases hlt
          rw [hnone] at he1
          cases he1
        · have hpe := (cmpPath_eq_iff _ _).mp hc
          have he1 := h kv1.1
          rw [dirsLookup_cons, if_pos rfl, dirsLookup_cons, if_pos hpe.symm] at he1
          injection he1 with he1
          exact Prod.ext hpe he1
        · exfalso
          have hc2 : cmpPath kv2.1 kv1.1 = .lt := (cmpPath_gt_iff _ _).mp hc
          have he2 := h kv2.1
          have hne : kv1.1 ≠ kv2.1 := by
            intro hx
            rw [(cmpPath_eq_iff kv2.1 kv1.1).mpr hx.symm] at hc2
            cases hc2
          rw [dirsLookup_cons, if_neg hne, dirsLookup_cons, if_pos rfl] at he2
          have hnone : dirsLookup t1 kv2.1 = none := by
            rw [dirsLookup_none_iff]
            intro x hx hxx
            have hlt := cmpPath_lt_trans hc2 (h1.1 x hx)
            rw [hxx] at hlt
            rw [cmpPath_self] at hlt
            cases hlt
          rw [hnone] at he2
          cases he2
      subst hee
      have ht : t1 = t2 := by
        apply sortedD_ext t1 t2 h1.2 h2.2
        intro p
        by_cases hp : p = kv1.1
        · subst hp
          have hn1 : dirsLookup t1 kv1.1 = none := by
            rw [dirsLookup_none_iff]
            intro x hx hxx
            have := h1.1 x hx
            rw [hxx] at this
            rw [cmpPath_self] at this
            cases this
          have hn2 : dirsLookup t2 kv1.1 = none := by
            rw [dirsLookup_none_iff]
            intro x hx hxx
            have := h2.1 x hx
            rw [hxx] at this
            rw [cmpPath_self] at this
            cases this
          rw [hn1, hn2]
        · have := h p
          rw [dirsLookup_cons, dirsLookup_cons,
            if_neg (fun hx => hp hx.symm), if_neg (fun hx => hp hx.symm)] at this
          exact this
      rw [ht]

/-! ## Size accounting for the directories map -/

theorem dirsSize_nil : dirsSize [] = 0 := rfl

theorem dirsSize_cons (kv : RPath × List Comp) (rest : DirsMap) :
    dirsSize (kv :: rest) = 1 + kv.2.length + dirsSize rest := by
  unfold dirsSize
  rw [List.map_cons, List.sum_cons]

theorem dirsSize_eraseKey_le (p : RPath) : ∀ (d : DirsMap),
    dirsSize (dirsEraseKey d p) ≤ dirsSize d
  | [] => by rw [dirsEraseKey_nil]
  | kv :: rest => by
      rw [dirsEraseKey_cons]
      by_cases hk : kv.1 = p
      · rw [if_pos hk, dirsSize_cons]
        have := dirsSize_eraseKey_le p rest
        omega
      · rw [if_neg hk, dirsSize_cons, dirsSize_cons]
        have := dirsSize_eraseKey_le p rest
        omega

theorem dirsSize_eraseKey_some (p : RPath) (s : List Comp) : ∀ (d : DirsMap),
    SortedD d → dirsLookup d p = some s →
      dirsSize (dirsEraseKey d p) + 1 + s.length = dirsSize d
  | [], _, h => by cases h
  | kv :: rest, hs, h => by
      unfold SortedD at hs
      rw [List.pairwise_cons] at hs
      rw [dirsLookup_cons] at h
      rw [dirsEraseKey_cons]
      by_cases hk : kv.1 = p
      · rw [if_pos hk] at h ⊢
        injection h with h
        have hrest : dirsEraseKey rest p = rest := by
          apply dirsEraseKey_of_none
          rw [dirsLookup_none_iff]
          intro x hx hxx
          have := hs.1 x hx
          rw [hxx, hk] at this
          rw [cmpPath_self] at this
          cases this
        rw [hrest, dirsSize_cons, ← h]
        omega
      · rw [if_neg hk] at h ⊢
        rw [dirsSize_cons, dirsSize_cons]
        have := dirsSize_eraseKey_some p s rest hs.2 h
        omega

theorem dirsSize_setValue_le (p : RPath) (v s : List Comp) (hv : v.length ≤ s.length) :
    ∀ (d : DirsMap), SortedD d → dirsLookup d p = some s →
      dirsSize (dirsSetValue d p v) ≤ dirsSize d
  | [], _, h => by cases h
  | kv :: rest, hs, h => by
      unfold SortedD at hs
      rw [List.pairwise_cons] at hs
      rw [dirsLookup_cons] at h
      rw [dirsSetValue_cons]
      by_cases hk : kv.1 = p
      · rw [if_pos hk] at h ⊢
        injection h with h
        have hrest : dirsSetValue rest p v = rest := by
          apply dirsSetValue_of_none
          rw [dirsLookup_none_iff]
          intro x hx hxx
          have := hs.1 x hx
          rw [hxx, hk] at this
          rw [cmpPath_self] at this
          cases this
        rw [hrest, dirsSize_cons, dirsSize_cons]
        have hlen : kv.2.length = s.length := by rw [h]
        have hpv : ((p, v) : RPath × List Comp).2.length = v.length := rfl
        omega
      · rw [if_neg hk] at h ⊢
        rw [dirsSize_cons, dirsSize_cons]
        have := dirsSize_setValue_le p v s hv rest hs.2 h
        omega

theorem dirsAgree_congr {E : List IndexEntry} {d1 d2 : DirsMap} {q : RPath}
    (h : dirsLookup d1 q = dirsLookup d2 q) (ha : dirsAgree E d2 q) : dirsAgree E d1 q := by
  unfold dirsAgree at *
  rw [h]
  exact ha

theorem take_length_of_le {p : RPath} {k : Nat} (hk : k ≤ p.length) :
    (p.take k).length = k := by
  simp [List.length_take]
  omega

theorem take_succ_getD (p : RPath) (k : Nat) (hk : k < p.length) :
    p.take (k + 1) = p.take k ++ [p.getD k []] := by
  rw [List.take_succ]
  congr 1
  rw [List.getD_eq_getElem?_getD, List.getElem?_eq_getElem hk]
  rfl

theorem underDir_take (p : RPath) (k : Nat) (hk : k < p.length) : underDir (p.take k) p :=
  ⟨underEq_take p k, by rw [take_length_of_le (by omega)]; exact hk⟩

theorem take_ne_take {p : RPath} {a b : Nat} (ha : a ≤ p.length) (hb : b ≤ p.length)
    (hne : a ≠ b) : p.take a ≠ p.take b := by
  intro h
  have := congrArg List.length h
  rw [take_length_of_le ha, take_length_of_le hb] at this
  exact hne this

theorem underEq_p_cases {q p : RPath} (h : underEq q p) :
    q = p ∨ (q = p.take q.length ∧ q.length < p.length) := by
  have hl := underEq_length h
  by_cases he : q.length = p.length
  · left
    have := underEq_iff_take.mp h
    rw [this, he, List.take_length]
  · right
    exact ⟨underEq_iff_take.mp h, by omega⟩

theorem childOf_take_self {E : List IndexEntry} {p : RPath} {e0 : IndexEntry}
    (hmem : lookupEntry E p = some e0) {k : Nat} (hk : k < p.length) :
    childOf E (p.take k) (p.getD k []) := by
  obtain ⟨h0mem, h0path⟩ := lookupEntry_some E p e0 hmem
  refine ⟨e0, h0mem, by rw [h0path]; exact underDir_take p k hk, ?_⟩
  rw [h0path, take_length_of_le (by omega)]

theorem none_under_p {E : List IndexEntry} {p : RPath} {e0 : IndexEntry}
    (hpf : PrefixFree E) (hmem : lookupEntry E p = some e0) :
    ∀ e ∈ eraseEntry E p, ¬ underEq p e.path := by
  intro e he hu
  obtain ⟨heE, hne⟩ := (mem_eraseEntry E p e).mp he
  obtain ⟨h0mem, h0path⟩ := lookupEntry_some E p e0 hmem
  have := hpf e0 h0mem e heE (by rw [h0path]; exact hu)
  rw [h0path] at this
  exact hne this.symm

theorem childOf_at_p_false {E : List IndexEntry} {p : RPath} {e0 : IndexEntry}
    (hpf : PrefixFree E) (hmem : lookupEntry E p = some e0) :
    ∀ c, ¬ childOf E p c := by
  rintro c ⟨e, he, hu, _⟩
  obtain ⟨h0mem, h0path⟩ := lookupEntry_some E p e0 hmem
  have := hpf e0 h0mem e he (by rw [h0path]; exact hu.1)
  have hlen := hu.2
  rw [h0path] at this
  rw [← this] at hlen
  omega

theorem childOf_erase_of_not_pref {E : List IndexEntry} {p q : RPath} {c : Comp}
    (hq : ¬ underEq q p) :
    childOf (eraseEntry E p) q c ↔ childOf E q c := by
  constructor
  · rintro ⟨e, he, hu, hc⟩
    exact ⟨e, ((mem_eraseEntry E p e).mp he).1, hu, hc⟩
  · rintro ⟨e, he, hu, hc⟩
    by_cases hep : e.path = p
    · exfalso
      apply hq
      rw [← hep]
      exact hu.1
    · exact ⟨e, (mem_eraseEntry E p e).mpr ⟨he, hep⟩, hu, hc⟩

theorem childOf_erase_of_ne_comp {E : List IndexEntry} {p : RPath} {k : Nat} {c : Comp}
    (hk : k < p.length) (hc : c ≠ p.getD k []) :
    childOf (eraseEntry E p) (p.take k) c ↔ childOf E (p.take k) c := by
  constructor
  · rintro ⟨e, he, hu, hcc⟩
    exact ⟨e, ((mem_eraseEntry E p e).mp he).1, hu, hcc⟩
  · rintro ⟨e, he, hu, hcc⟩
    by_cases hep : e.path = p
    · exfalso
      apply hc
      rw [← hcc, hep, take_length_of_le (by omega)]
    · exact ⟨e, (mem_eraseEntry E p e).mpr ⟨he, hep⟩, hu, hcc⟩

theorem childOf_erase_comp_iff {E : List IndexEntry} {p : RPath} {k : Nat}
    (hk : k < p.length) :
    childOf (eraseEntry E p) (p.take k) (p.getD k []) ↔
      ∃ e ∈ eraseEntry E p, underEq (p.take (k + 1)) e.path := by
  constructor
  · rintro ⟨e, he, hu, hc⟩
    refine ⟨e, he, ?_⟩
    have h2 := underDir_getD_underEq hu
    rw [hc, ← take_succ_getD p k hk] at h2
    exact h2
  · rintro ⟨e, he, hu⟩
    have hlen1 : (p.take (k + 1)).length = k + 1 := take_length_of_le (by omega)
    have hlen2 : (p.take k).length = k := take_length_of_le (by omega)
    have hle := underEq_length hu
    refine ⟨e, he, ⟨?_, ?_⟩, ?_⟩
    · have h3 : underEq (p.take k) (p.take (k + 1)) := take_underEq_take p (by omega)
      exact underEq_trans h3 hu
    · omega
    · rw [hlen2]
      have h4 := underEq_getD hu (m := k) (by omega)
      have h5 := underEq_getD (underEq_take p (k + 1)) (m := k) (by omega)
      rw [h4, ← h5]

theorem rfd_zero (p : RPath) (dirs : DirsMap) :
    removeFromDirectoriesMapAux p 0 dirs = dirs := rfl

theorem rfd_succ_none {p : RPath} {j : Nat} {dirs : DirsMap}
    (h : dirsLookup dirs (p.take j) = none) :
    removeFromDirectoriesMapAux p (j + 1) dirs = dirs := by
  rw [removeFromDirectoriesMapAux]
  simp only [h]

theorem rfd_succ_some_empty {p : RPath} {j : Nat} {dirs : DirsMap} {children : List Comp}
    (h : dirsLookup dirs (p.take j) = some children)
    (he : (children.filter (fun c => ¬ c = p.getD j [])).isEmpty = true) :
    removeFromDirectoriesMapAux p (j + 1) dirs =
      removeFromDirectoriesMapAux p j (dirsEraseKey dirs (p.take j)) := by
  rw [removeFromDirectoriesMapAux]
  simp only [h, he]
  exact if_pos trivial

theorem rfd_succ_some_nonempty {p : RPath} {j : Nat} {dirs : DirsMap}
    {children : List Comp}
    (h : dirsLookup dirs (p.take j) = some children)
    (he : (children.filter (fun c => ¬ c = p.getD j [])).isEmpty = false) :
    removeFromDirectoriesMapAux p (j + 1) dirs =
      dirsSetValue dirs (p.take j) (children.filter (fun c => ¬ c = p.getD j [])) := by
  rw [removeFromDirectoriesMapAux]
  simp only [h, he]
  exact if_neg (by simp)

/-! ## Structural preservation and size bounds for removal -/

theorem removeFromDirs_struct (p : RPath) : ∀ (j : Nat) (dirs : DirsMap),
    SortedD dirs → (∀ kv ∈ dirs, SortedC kv.2) → (∀ kv ∈ dirs, kv.2 ≠ []) →
    SortedD (removeFromDirectoriesMapAux p j dirs) ∧
    (∀ kv ∈ removeFromDirectoriesMapAux p j dirs, SortedC kv.2) ∧
    (∀ kv ∈ removeFromDirectoriesMapAux p j dirs, kv.2 ≠ []) ∧
    dirsSize (removeFromDirectoriesMapAux p j dirs) ≤ dirsSize dirs
  | 0, dirs, hs, hv, hn => by
      rw [rfd_zero]
      exact ⟨hs, hv, hn, le_refl _⟩
  | j + 1, dirs, hs, hv, hn => by
      cases hlook : dirsLookup dirs (p.take j) with
      | none =>
          rw [rfd_succ_none hlook]
          exact ⟨hs, hv, hn, le_refl _⟩
      | some children =>
          cases hemp : (children.filter (fun c => ¬ c = p.getD j [])).isEmpty with
          | true =>
              rw [rfd_succ_some_empty hlook hemp]
              have hs2 := sortedD_eraseKey hs (p.take j)
              have hv2 : ∀ kv ∈ dirsEraseKey dirs (p.take j), SortedC kv.2 := by
                intro kv hkv
                exact hv kv ((mem_dirsEraseKey dirs (p.take j) kv).mp hkv).1
              have hn2 : ∀ kv ∈ dirsEraseKey dirs (p.take j), kv.2 ≠ [] := by
                intro kv hkv
                exact hn kv ((mem_dirsEraseKey dirs (p.take j) kv).mp hkv).1
              obtain ⟨a, b, c2, d⟩ :=
                removeFromDirs_struct p j (dirsEraseKey dirs (p.take j)) hs2 hv2 hn2
              exact ⟨a, b, c2, le_trans d (dirsSize_eraseKey_le (p.take j) dirs)⟩
          | false =>
              rw [rfd_succ_some_nonempty hlook hemp]
              have hmem2 := dirsLookup_some_mem dirs (p.take j) children hlook
              have hchS : SortedC children := hv _ hmem2
              refine ⟨sortedD_setValue hs _ _, ?_, ?_, ?_⟩
              · intro kv hkv
                rcases mem_dirsSetValue_val dirs (p.take j) _ kv hkv with hx | ⟨kv2, hkv2, hx⟩
                · rw [hx]
                  unfold SortedC at hchS ⊢
                  exact hchS.sublist (List.filter_sublist children)
                · rw [hx]
                  exact hv kv2 hkv2
              · intro kv hkv
                rcases mem_dirsSetValue_val dirs (p.take j) _ kv hkv with hx | ⟨kv2, hkv2, hx⟩
                · rw [hx]
                  intro hnil
                  rw [hnil] at hemp
                  cases hemp
                · rw [hx]
                  exact hn kv2 hkv2
              · exact dirsSize_setValue_le (p.take j) _ children
                  (List.length_filter_le _ children) dirs hs hlook

theorem remove_entries (i : Index) (p : RPath) :
    (i.remove p).entries = eraseEntry i.entries p := by
  unfold Index.remove
  split
  · rfl
  · rename_i hcond
    rw [Option.isSome_iff_exists] at hcond
    push_neg at hcond
    have hnone : lookupEntry i.entries p = none := by
      cases hl : lookupEntry i.entries p with
      | none => rfl
      | some e => exact absurd hl (hcond e)
    rw [eraseEntry_of_none _ _ hnone]

theorem remove_struct (i : Index) (p : RPath) (hE : SortedE i.entries)
    (hs : SortedD i.directories) (hv : ∀ kv ∈ i.directories, SortedC kv.2)
    (hn : ∀ kv ∈ i.directories, kv.2 ≠ []) :
    SortedE (i.remove p).entries ∧ SortedD (i.remove p).directories ∧
    (∀ kv ∈ (i.remove p).directories, SortedC kv.2) ∧
    (∀ kv ∈ (i.remove p).directories, kv.2 ≠ []) ∧
    dirsSize (i.remove p).directories ≤ dirsSize i.directories := by
  unfold Index.remove
  split
  · obtain ⟨a, b, c2, d⟩ := removeFromDirs_struct p p.length i.directories hs hv hn
    exact ⟨sortedE_eraseEntry hE p, a, b, c2, d⟩
  · exact ⟨hE, hs, hv, hn, le_refl _⟩

theorem mem_filter_ne {children : List Comp} {c x : Comp} :
    c ∈ children.filter (fun y => ¬ y = x) ↔ c ∈ children ∧ c ≠ x := by
  rw [List.mem_filter]
  simp

theorem isEmpty_false_ne_nil {l : List Comp} (h : l.isEmpty = false) : l ≠ [] := by
  intro hx
  rw [hx] at h
  cases h

theorem ne_nil_exists_mem {l : List Comp} (h : l ≠ []) : ∃ c, c ∈ l := by
  cases l with
  | nil => exact absurd rfl h
  | cons x xs => exact ⟨x, by simp⟩

theorem dirsAgree_erase_at_p {E : List IndexEntry} {p : RPath} {e0 : IndexEntry}
    {dirs : DirsMap} (hpf : PrefixFree E) (hmem : lookupEntry E p = some e0)
    (h : dirsAgree E dirs p) : dirsAgree (eraseEntry E p) dirs p := by
  obtain ⟨hsome, hnone⟩ := h
  constructor
  · intro s hs
    obtain ⟨hiff, hne⟩ := hsome s hs
    exfalso
    obtain ⟨c, hc⟩ := ne_nil_exists_mem hne
    exact childOf_at_p_false hpf hmem c ((hiff c).mp hc)
  · intro _ c hc
    obtain ⟨e, he, hu, hcc⟩ := hc
    exact childOf_at_p_false hpf hmem c ⟨e, ((mem_eraseEntry E p e).mp he).1, hu, hcc⟩

theorem dirsAgree_erase_not_pref {E : List IndexEntry} {p q : RPath} {dirs : DirsMap}
    (hq : ¬ underEq q p) (h : dirsAgree E dirs q) :
    dirsAgree (eraseEntry E p) dirs q := by
  obtain ⟨hsome, hnone⟩ := h
  constructor
  · intro s hs
    obtain ⟨hiff, hne⟩ := hsome s hs
    refine ⟨fun c => ?_, hne⟩
    rw [childOf_erase_of_not_pref hq]
    exact hiff c
  · intro hn c
    rw [childOf_erase_of_not_pref hq]
    exact hnone hn c

theorem dirsAgree_erase_ancestor {E : List IndexEntry} {p : RPath} {e0 : IndexEntry}
    {dirs : DirsMap} (hpf : PrefixFree E) (hmem : lookupEntry E p = some e0)
    {k : Nat} (hk : k < p.length)
    (hwit : ∃ e ∈ eraseEntry E p, underEq (p.take (k + 1)) e.path)
    (h : dirsAgree E dirs (p.take k)) :
    dirsAgree (eraseEntry E p) dirs (p.take k) := by
  obtain ⟨hsome, hnone⟩ := h
  constructor
  · intro s hs
    obtain ⟨hiff, hne⟩ := hsome s hs
    refine ⟨fun c => ?_, hne⟩
    by_cases hc : c = p.getD k []
    · subst hc
      have h1 : p.getD k [] ∈ s := (hiff _).mpr (childOf_take_self hmem hk)
      have h2 : childOf (eraseEntry E p) (p.take k) (p.getD k []) :=
        (childOf_erase_comp_iff hk).mpr hwit
      exact iff_of_true h1 h2
    · rw [childOf_erase_of_ne_comp hk hc]
      exact hiff c
  · intro hn
    exfalso
    exact (hnone hn _) (childOf_take_self hmem hk)

theorem removeFromDirs_correct (E : List IndexEntry) (dirs0 : DirsMap) (p : RPath)
    (e0 : IndexEntry) (hpf : PrefixFree E)
    (hmem : lookupEntry E p = some e0)
    (hagree0 : ∀ q, dirsAgree E dirs0 q) :
    ∀ (j : Nat) (dirs : DirsMap), j ≤ p.length →
      SortedD dirs →
      (∀ q, (∀ k, j ≤ k → k < p.length → q ≠ p.take k) →
        dirsLookup dirs q = dirsLookup dirs0 q) →
      (∀ k, j ≤ k → k < p.length → dirsAgree (eraseEntry E p) dirs (p.take k)) →
      (∀ e ∈ eraseEntry E p, ¬ underEq (p.take j) e.path) →
      ∀ q, dirsAgree (eraseEntry E p) (removeFromDirectoriesMapAux p j dirs) q
  | 0, dirs, hjl, hsD, ha, hb, hc => by
      rw [rfd_zero]
      intro q
      by_cases hqp : underEq q p
      · rcases underEq_p_cases hqp with hq | ⟨hq, hql⟩
        · subst hq
          have hl : dirsLookup dirs q = dirsLookup dirs0 q := by
            apply ha
            intro k _ hk2 hx
            have hxl := congrArg List.length hx
            rw [take_length_of_le (by omega)] at hxl
            omega
          exact dirsAgree_erase_at_p hpf hmem (dirsAgree_congr hl (hagree0 q))
        · rw [hq]
          exact hb q.length (by omega) hql
      · have hl : dirsLookup dirs q = dirsLookup dirs0 q := by
          apply ha
          intro k _ hk2 hx
          apply hqp
          rw [hx]
          exact underEq_take p k
        exact dirsAgree_erase_not_pref hqp (dirsAgree_congr hl (hagree0 q))
  | j + 1, dirs, hjl, hsD, ha, hb, hc => by
      have hjlen : j < p.length := by omega
      have hparent_pres : dirsLookup dirs (p.take j) = dirsLookup dirs0 (p.take j) := by
        apply ha
        intro k hk1 hk2
        exact take_ne_take (by omega) (by omega) (by omega)
      cases hlook : dirsLookup dirs (p.take j) with
      | none =>
          exfalso
          rw [hlook] at hparent_pres
          exact ((hagree0 (p.take j)).2 hparent_pres.symm _)
            (childOf_take_self hmem hjlen)
      | some children =>
          have hl0 : dirsLookup dirs0 (p.take j) = some children := by
            rw [← hparent_pres, hlook]
          have hiff : ∀ c, c ∈ children ↔ childOf E (p.take j) c :=
            ((hagree0 (p.take j)).1 children hl0).1
          have hch : ∀ c, c ∈ children.filter (fun y => ¬ y = p.getD j []) ↔
              childOf (eraseEntry E p) (p.take j) c := by
            intro c
            rw [mem_filter_ne]
            constructor
            · rintro ⟨hcm, hcne⟩
              rw [childOf_erase_of_ne_comp hjlen hcne]
              exact (hiff c).mp hcm
            · intro hcc
              by_cases hcne : c = p.getD j []
              · exfalso
                subst hcne
                obtain ⟨e, he, hu⟩ := (childOf_erase_comp_iff hjlen).mp hcc
                exact hc e he hu
              · rw [childOf_erase_of_ne_comp hjlen hcne] at hcc
                exact ⟨(hiff c).mpr hcc, hcne⟩
          cases hemp : (children.filter (fun y => ¬ y = p.getD j [])).isEmpty with
          | true =>
              have hnilc : children.filter (fun y => ¬ y = p.getD j []) = [] := by
                cases hfc : children.filter (fun y => ¬ y = p.getD j []) with
                | nil => rfl
                | cons x xs => rw [hfc] at hemp; simp at hemp
              rw [rfd_succ_some_empty hlook hemp]
              apply removeFromDirs_correct E dirs0 p e0 hpf hmem hagree0 j
                (dirsEraseKey dirs (p.take j)) (by omega)
                (sortedD_eraseKey hsD (p.take j))
              · intro q hq
                have hqj : q ≠ p.take j := hq j (le_refl j) hjlen
                rw [dirsLookup_eraseKey (p.take j) q dirs, if_neg hqj]
                apply ha
                intro k hk1 hk2
                exact hq k (by omega) hk2
              · intro k hk1 hk2
                by_cases hkj : k = j
                · subst hkj
                  constructor
                  · intro s hs
                    rw [dirsLookup_eraseKey (p.take k) (p.take k) dirs, if_pos rfl] at hs
                    cases hs
                  · intro _ c hcc
                    have := (hch c).mpr hcc
                    rw [hnilc] at this
                    simp at this
                · have hkgt : j + 1 ≤ k := by omega
                  apply dirsAgree_congr ?_ (hb k hkgt hk2)
                  rw [dirsLookup_eraseKey (p.take j) (p.take k) dirs,
                    if_neg (take_ne_take (by omega) (by omega) (by omega))]
              · intro e he hu
                have hlen := underEq_length hu
                rw [take_length_of_le (by omega)] at hlen
                by_cases hej : e.path.length = j
                · have hep : e.path = p.take j := by
                    have h2 : e.path.take ((p.take j).length) = p.take j := hu
                    rw [take_length_of_le (by omega)] at h2
                    rw [List.take_of_length_le (by omega)] at h2
                    exact h2
                  obtain ⟨h0mem, h0path⟩ := lookupEntry_some E p e0 hmem
                  have hpe : underEq e.path e0.path := by
                    rw [hep, h0path]
                    exact underEq_take p j
                  have := hpf e ((mem_eraseEntry E p e).mp he).1 e0 h0mem hpe
                  rw [h0path, hep] at this
                  have := congrArg List.length this
                  rw [take_length_of_le (by omega)] at this
                  omega
                · have hdir : underDir (p.take j) e.path :=
                    ⟨hu, by rw [take_length_of_le (by omega)]; omega⟩
                  have hcc : childOf (eraseEntry E p) (p.take j) (e.path.getD (p.take j).length []) :=
                    ⟨e, he, hdir, rfl⟩
                  have := (hch _).mpr hcc
                  rw [hnilc] at this
                  simp at this
          | false =>
              rw [rfd_succ_some_nonempty hlook hemp]
              intro q
              by_cases hqj : q = p.take j
              · constructor
                · intro s hs
                  rw [dirsLookup_setValue (p.take j) q _ dirs, if_pos hqj, hlook] at hs
                  simp only [Option.map_some'] at hs
                  injection hs with hs
                  subst hs
                  refine ⟨fun c => ?_, isEmpty_false_ne_nil hemp⟩
                  rw [hqj]
                  exact hch c
                · intro hn
                  rw [dirsLookup_setValue (p.take j) q _ dirs, if_pos hqj, hlook] at hn
                  cases hn
              · have hlq : dirsLookup
                    (dirsSetValue dirs (p.take j) (children.filter (fun y => ¬ y = p.getD j []))) q =
                    dirsLookup dirs q := by
                  rw [dirsLookup_setValue (p.take j) q _ dirs, if_neg hqj]
                by_cases hqp : underEq q p
                · rcases underEq_p_cases hqp with hq | ⟨hq, hql⟩
                  · subst hq
                    have hl : dirsLookup dirs q = dirsLookup dirs0 q := by
                      apply ha
                      intro k hk1 hk2 hx
                      have hxl := congrArg List.length hx
                      rw [take_length_of_le (by omega)] at hxl
                      omega
                    exact dirsAgree_erase_at_p hpf hmem
                      (dirsAgree_congr (hlq.trans hl) (hagree0 q))
                  · by_cases hkj : j + 1 ≤ q.length
                    · rw [hq]
                      apply dirsAgree_congr ?_ (hb q.length hkj hql)
                      rw [← hq]
                      exact hlq
                    · have hklt : q.length < j := by
                        rcases Nat.lt_or_ge q.length j with h | h
                        · exact h
                        · exfalso
                          apply hqj
                          have : q.length = j := by omega
                          rw [hq, this]
                      have hl : dirsLookup dirs q = dirsLookup dirs0 q := by
                        apply ha
                        intro k hk1 hk2
                        rw [hq]
                        exact take_ne_take (by omega) (by omega) (by omega)
                      have hwit : ∃ e ∈ eraseEntry E p, underEq (p.take (q.length + 1)) e.path := by
                        obtain ⟨c, hcm⟩ := ne_nil_exists_mem (isEmpty_false_ne_nil hemp)
                        obtain ⟨e, he, hu, _⟩ := (hch c).mp hcm
                        refine ⟨e, he, ?_⟩
                        exact underEq_trans (take_underEq_take p (by omega)) hu.1
                      rw [hq]
                      exact dirsAgree_erase_ancestor hpf hmem hql hwit
                        (dirsAgree_congr (by rw [← hq]; exact hlq.trans hl) (hagree0 (p.take q.length)))
                · have hl : dirsLookup dirs q = dirsLookup dirs0 q := by
                    apply ha
                    intro k hk1 hk2 hx
                    apply hqp
                    rw [hx]
                    exact underEq_take p k
                  exact dirsAgree_erase_not_pref hqp
                    (dirsAgree_congr (hlq.trans hl) (hagree0 q))

theorem prefixFree_erase {E : List IndexEntry} (hpf : PrefixFree E) (p : RPath) :
    PrefixFree (eraseEntry E p) := by
  intro e1 h1 e2 h2 hu
  exact hpf e1 ((mem_eraseEntry E p e1).mp h1).1 e2 ((mem_eraseEntry E p e2).mp h2).1 hu

/-- Full specification of `Index::remove` on an invariant-satisfying
state: the entry is erased and the invariant is preserved. -/
theorem remove_spec (i : Index) (p : RPath) (h : INV i) :
    INV (i.remove p) ∧ (i.remove p).entries = eraseEntry i.entries p := by
  obtain ⟨hE, hD, hV, hN, hpf, hagree⟩ := h
  refine ⟨?_, remove_entries i p⟩
  unfold Index.remove
  split
  · rename_i hcond
    rw [Option.isSome_iff_exists] at hcond
    obtain ⟨e0, he0⟩ := hcond
    obtain ⟨hsD, hsV, hsN, _⟩ := removeFromDirs_struct p p.length i.directories hD hV hN
    refine ⟨sortedE_eraseEntry hE p, hsD, hsV, hsN, prefixFree_erase hpf p, ?_⟩
    apply removeFromDirs_correct i.entries i.directories p e0 hpf he0 hagree p.length
      i.directories (le_refl _) hD
    · intro q _
      rfl
    · intro k hk1 hk2
      omega
    · intro e he
      rw [List.take_length]
      exact none_under_p hpf he0 e he
  · exact ⟨hE, hD, hV, hN, hpf, hagree⟩

theorem removeDirLoop_nil (fuel : Nat) (i : Index) : removeDirLoop fuel i [] = i := by
  cases fuel <;> rfl

theorem removeDirLoop_entry (fuel : Nat) (i : Index) (p : RPath) (rest : List DirTask) :
    removeDirLoop (fuel + 1) i (.entry p :: rest) = removeDirLoop fuel (i.remove p) rest :=
  rfl

theorem removeDirLoop_dir_none {i : Index} {p : RPath} (fuel : Nat) (rest : List DirTask)
    (h : dirsLookup i.directories p = none) :
    removeDirLoop (fuel + 1) i (.dir p :: rest) = removeDirLoop fuel i rest := by
  simp only [removeDirLoop, h]

theorem removeDirLoop_dir_some {i : Index} {p : RPath} {children : List Comp}
    (fuel : Nat) (rest : List DirTask)
    (h : dirsLookup i.directories p = some children) :
    removeDirLoop (fuel + 1) i (.dir p :: rest) =
      removeDirLoop fuel { i with directories := dirsEraseKey i.directories p }
        ((children.flatMap
          (fun c => [DirTask.entry (p ++ [c]), DirTask.dir (p ++ [c])])) ++ rest) := by
  simp only [removeDirLoop, h]

theorem removeDirectory_none {i : Index} {p : RPath}
    (h : dirsLookup i.directories p = none) : removeDirectory i p = i := by
  unfold removeDirectory
  rw [removeDirLoop_dir_none _ _ h, removeDirLoop_nil]

theorem subtasks_length (children : List Comp) (p : RPath) :
    (children.flatMap
      (fun c => [DirTask.entry (p ++ [c]), DirTask.dir (p ++ [c])])).length =
      2 * children.length := by
  induction children with
  | nil => rfl
  | cons c cs ih =>
      rw [List.flatMap_cons, List.length_append, ih]
      simp
      omega

theorem removeDirLoop_norm : ∀ (B : Nat) (i : Index) (ts : List DirTask) (fuel : Nat),
    SortedE i.entries → SortedD i.directories →
    (∀ kv ∈ i.directories, SortedC kv.2) → (∀ kv ∈ i.directories, kv.2 ≠ []) →
    ts.length + 2 * dirsSize i.directories ≤ B →
    ts.length + 2 * dirsSize i.directories ≤ fuel →
    removeDirLoop fuel i ts = ts.foldl taskStep i
  | 0, i, ts, fuel => by
      intro _ _ _ _ hB _
      have hts : ts = [] := by
        cases ts with
        | nil => rfl
        | cons t r => simp at hB
      subst hts
      rw [removeDirLoop_nil]
      rfl
  | B + 1, i, ts, fuel => by
      intro hE hD hV hN hB hfuel
      cases ts with
      | nil =>
          rw [removeDirLoop_nil]
          rfl
      | cons t rest =>
          cases fuel with
          | zero => simp at hfuel
          | succ fuel =>
              cases t with
              | entry p =>
                  rw [removeDirLoop_entry]
                  obtain ⟨hE2, hD2, hV2, hN2, hsz⟩ := remove_struct i p hE hD hV hN
                  rw [removeDirLoop_norm B (i.remove p) rest fuel hE2 hD2 hV2 hN2
                    (by simp at hB ⊢; omega) (by simp at hfuel ⊢; omega)]
                  rfl
              | dir p =>
                  cases hlook : dirsLookup i.directories p with
                  | none =>
                      rw [removeDirLoop_dir_none fuel rest hlook]
                      rw [removeDirLoop_norm B i rest fuel hE hD hV hN
                        (by simp at hB ⊢; omega) (by simp at hfuel ⊢; omega)]
                      rw [List.foldl_cons]
                      have : taskStep i (.dir p) = i := removeDirectory_none hlook
                      rw [show taskStep i (.dir p) = removeDirectory i p from rfl,
                        removeDirectory_none hlook]
                  | some children =>
                      have hsz := dirsSize_eraseKey_some p children i.directories hD hlook
                      have hsz2 : dirsSize
                          ({ i with directories := dirsEraseKey i.directories p } : Index).directories
                          + 1 + children.length = dirsSize i.directories := hsz
                      have hV2 : ∀ kv ∈ dirsEraseKey i.directories p, SortedC kv.2 :=
                        fun kv hkv => hV kv ((mem_dirsEraseKey _ _ kv).mp hkv).1
                      have hN2 : ∀ kv ∈ dirsEraseKey i.directories p, kv.2 ≠ [] :=
                        fun kv hkv => hN kv ((mem_dirsEraseKey _ _ kv).mp hkv).1
                      have hD2 := sortedD_eraseKey hD p
                      have hlen := subtasks_length children p
                      simp only [List.length_cons] at hB hfuel
                      rw [removeDirLoop_dir_some fuel rest hlook]
                      rw [removeDirLoop_norm B
                        { i with directories := dirsEraseKey i.directories p }
                        ((children.flatMap
                          (fun c => [DirTask.entry (p ++ [c]), DirTask.dir (p ++ [c])])) ++ rest)
                        fuel hE hD2 hV2 hN2
                        (by rw [List.length_append, hlen]; omega)
                        (by rw [List.length_append, hlen]; omega)]
                      rw [List.foldl_append, List.foldl_cons]
                      congr 1
                      rw [show taskStep i (.dir p) = removeDirectory i p from rfl]
                      unfold removeDirectory
                      rw [removeDirLoop_dir_some (1 + 2 * dirsSize i.directories) [] hlook]
                      rw [List.append_nil]
                      rw [removeDirLoop_norm B
                        { i with directories := dirsEraseKey i.directories p }
                        (children.flatMap
                          (fun c => [DirTask.entry (p ++ [c]), DirTask.dir (p ++ [c])]))
                        (1 + 2 * dirsSize i.directories) hE hD2 hV2 hN2
                        (by rw [hlen]; omega)
                        (by rw [hlen]; omega)]

/-! ## Support lemmas for the subtree-pruning specification -/

theorem sortedD_lookup_mem : ∀ {d : DirsMap}, SortedD d → ∀ {kv : RPath × List Comp},
    kv ∈ d → dirsLookup d kv.1 = some kv.2
  | [], _, kv, hkv => by cases hkv
  | y :: ys, hs, kv, hkv => by
      unfold SortedD at hs
      rw [List.pairwise_cons] at hs
      rcases List.mem_cons.mp hkv with hkv | hkv
      · rw [hkv, dirsLookup_cons, if_pos rfl]
      · rw [dirsLookup_cons]
        have hne : y.1 ≠ kv.1 := by
          intro hx
          have := hs.1 kv hkv
          rw [hx] at this
          rw [cmpPath_self] at this
          cases this
        rw [if_neg hne]
        exact sortedD_lookup_mem hs.2 hkv

theorem dirsLookup_filter_keep (pred : RPath × List Comp → Bool) (x : RPath) :
    ∀ (d : DirsMap), (∀ kv ∈ d, kv.1 = x → pred kv = true) →
      dirsLookup (d.filter pred) x = dirsLookup d x
  | [], _ => rfl
  | kv :: rest, h => by
      rw [List.filter_cons]
      by_cases hkx : kv.1 = x
      · rw [if_pos (h kv (by simp) hkx), dirsLookup_cons, dirsLookup_cons,
          if_pos hkx, if_pos hkx]
      · by_cases hp : pred kv = true
        · rw [if_pos hp, dirsLookup_cons, dirsLookup_cons, if_neg hkx, if_neg hkx]
          exact dirsLookup_filter_keep pred x rest (fun z hz => h z (by simp [hz]))
        · rw [if_neg hp, dirsLookup_cons, if_neg hkx]
          exact dirsLookup_filter_keep pred x rest (fun z hz => h z (by simp [hz]))

theorem dirsLookup_filter_none (pred : RPath × List Comp → Bool) (x : RPath)
    (d : DirsMap) (h : dirsLookup d x = none) :
    dirsLookup (d.filter pred) x = none := by
  rw [dirsLookup_none_iff] at h ⊢
  intro kv hkv
  exact h kv (List.mem_of_mem_filter hkv)

theorem dirsLookup_filter_some (pred : RPath × List Comp → Bool) (x : RPath)
    (s : List Comp) {d : DirsMap} (hs : SortedD d)
    (h : dirsLookup (d.filter pred) x = some s) : dirsLookup d x = some s := by
  have hmem := dirsLookup_some_mem _ _ _ h
  exact sortedD_lookup_mem hs (List.mem_of_mem_filter hmem)

theorem dirsSize_filter_le (pred : RPath × List Comp → Bool) : ∀ (d : DirsMap),
    dirsSize (d.filter pred) ≤ dirsSize d
  | [] => le_refl _
  | kv :: rest => by
      rw [List.filter_cons]
      have := dirsSize_filter_le pred rest
      by_cases hp : pred kv = true
      · rw [if_pos hp, dirsSize_cons, dirsSize_cons]
        omega
      · rw [if_neg hp, dirsSize_cons]
        omega

theorem underEq_iff_eq_or_dir {q x : RPath} : underEq q x ↔ x = q ∨ underDir q x := by
  constructor
  · intro h
    have hl := underEq_length h
    by_cases he : x.length = q.length
    · left
      have h2 : x.take q.length = q := h
      rw [← he, List.take_length] at h2
      exact h2
    · right
      exact ⟨h, by omega⟩
  · intro h
    rcases h with h | h
    · rw [h]
      exact underEq_refl q
    · exact h.1

theorem take_append_self (p : RPath) (c : Comp) : (p ++ [c]).take p.length = p := by
  rw [List.take_left]

theorem underEq_append_one (p : RPath) (c : Comp) : underEq p (p ++ [c]) := by
  unfold underEq
  exact take_append_self p c

theorem getD_append_self (p : RPath) (c : Comp) : (p ++ [c]).getD p.length [] = c := by
  rw [List.getD_eq_getElem?_getD, List.getElem?_append_right (le_refl _)]
  simp

theorem length_append_one (p : RPath) (c : Comp) : (p ++ [c]).length = p.length + 1 := by
  simp

theorem underEq_append_iff {p : RPath} {c : Comp} {x : RPath} :
    underEq (p ++ [c]) x ↔ x.take (p.length + 1) = p ++ [c] := by
  unfold underEq
  rw [length_append_one]

theorem underDir_of_underEq_append {p : RPath} {c : Comp} {x : RPath}
    (h : underEq (p ++ [c]) x) : underDir p x := by
  have hl := underEq_length h
  rw [length_append_one] at hl
  refine ⟨?_, by omega⟩
  have := underEq_trans (underEq_append_one p c) h
  exact this

theorem comp_of_underEq_append {p : RPath} {c : Comp} {x : RPath}
    (h : underEq (p ++ [c]) x) : x.getD p.length [] = c := by
  have hl := underEq_length h
  rw [length_append_one] at hl
  have h2 := underEq_getD h (m := p.length) (by rw [length_append_one]; omega)
  rw [getD_append_self] at h2
  exact h2

theorem underEq_append_of_dir {p : RPath} {x : RPath} (h : underDir p x) :
    underEq (p ++ [x.getD p.length []]) x := by
  have h2 := underDir_getD_underEq h
  exact h2

/-- Climbing the key-parent chain: every key strictly below `p` determines
a member of the child set stored at `p` itself. -/
theorem key_climb (dirs : DirsMap) (p : RPath) (children : List Comp)
    (hkp : ∀ d s, dirsLookup dirs d = some s → underDir p d →
      ∃ s2, dirsLookup dirs (d.take (d.length - 1)) = some s2 ∧
        d.getD (d.length - 1) [] ∈ s2)
    (hlookp : dirsLookup dirs p = some children) :
    ∀ (n : Nat) (d : RPath) (s : List Comp), d.length ≤ p.length + 1 + n →
      dirsLookup dirs d = some s → underDir p d →
      d.getD p.length [] ∈ children := by
  intro n
  induction n with
  | zero =>
      intro d s hlen hlook hdir
      have hdl : d.length = p.length + 1 := by
        have := hdir.2
        omega
      obtain ⟨s2, hs2, hmem⟩ := hkp d s hlook hdir
      have hpar : d.take (d.length - 1) = p := by
        rw [hdl]
        simp only [Nat.add_sub_cancel]
        exact hdir.1
      rw [hpar, hlookp] at hs2
      injection hs2 with hs2
      subst hs2
      rw [hdl] at hmem
      simpa using hmem
  | succ m ih =>
      intro d s hlen hlook hdir
      by_cases hdl : d.length = p.length + 1
      · obtain ⟨s2, hs2, hmem⟩ := hkp d s hlook hdir
        have hpar : d.take (d.length - 1) = p := by
          rw [hdl]
          simp only [Nat.add_sub_cancel]
          exact hdir.1
        rw [hpar, hlookp] at hs2
        injection hs2 with hs2
        subst hs2
        rw [hdl] at hmem
        simpa using hmem
      · obtain ⟨s2, hs2, hmem⟩ := hkp d s hlook hdir
        have hplt : p.length < d.length - 1 := by
          have := hdir.2
          omega
        have hdir2 : underDir p (d.take (d.length - 1)) := by
          refine ⟨?_, ?_⟩
          · have h3 : underEq p d := hdir.1
            have h4 := underEq_comparable h3 (underEq_take d (d.length - 1)) (by
              rw [take_length_of_le (by omega)]
              omega)
            exact h4
          · rw [take_length_of_le (by omega)]
            exact hplt
        have hgetD : (d.take (d.length - 1)).getD p.length [] = d.getD p.length [] := by
          have := underEq_getD (underEq_take d (d.length - 1)) (m := p.length)
            (by rw [take_length_of_le (by omega)]; omega)
          exact this.symm
        have := ih (d.take (d.length - 1)) s2 (by rw [take_length_of_le (by omega)]; omega)
          hs2 hdir2
        rw [hgetD] at this
        exact this

theorem remove_parent_missing (i : Index) (q : RPath) (hq : 1 ≤ q.length)
    (h : dirsLookup i.directories (q.take (q.length - 1)) = none) :
    i.remove q = ⟨eraseEntry i.entries q, i.directories⟩ := by
  unfold Index.remove
  split
  · congr 1
    have hql : q.length = (q.length - 1) + 1 := by omega
    rw [hql]
    exact rfd_succ_none h
  · rename_i hcond
    have hnone : lookupEntry i.entries q = none := by
      cases hl : lookupEntry i.entries q with
      | none => rfl
      | some e =>
          rw [Option.isSome_iff_exists] at hcond
          push_neg at hcond
          exact absurd hl (hcond e)
    rw [eraseEntry_of_none _ _ hnone]

theorem no_key_under_of_none (dirs : DirsMap) (p : RPath)
    (hkp : ∀ d s, dirsLookup dirs d = some s → underDir p d →
      ∃ s2, dirsLookup dirs (d.take (d.length - 1)) = some s2 ∧
        d.getD (d.length - 1) [] ∈ s2)
    (hnone : dirsLookup dirs p = none) :
    ∀ (n : Nat) (d : RPath) (s : List Comp), d.length ≤ p.length + 1 + n →
      dirsLookup dirs d = some s → ¬ underDir p d := by
  intro n
  induction n with
  | zero =>
      intro d s hlen hlook hdir
      obtain ⟨s2, hs2, _⟩ := hkp d s hlook hdir
      have hdl : d.length = p.length + 1 := by
        have := hdir.2
        omega
      have hpar : d.take (d.length - 1) = p := by
        rw [hdl]
        simp only [Nat.add_sub_cancel]
        exact hdir.1
      rw [hpar, hnone] at hs2
      cases hs2
  | succ m ih =>
      intro d s hlen hlook hdir
      by_cases hdl : d.length = p.length + 1
      · obtain ⟨s2, hs2, _⟩ := hkp d s hlook hdir
        have hpar : d.take (d.length - 1) = p := by
          rw [hdl]
          simp only [Nat.add_sub_cancel]
          exact hdir.1
        rw [hpar, hnone] at hs2
        cases hs2
      · obtain ⟨s2, hs2, _⟩ := hkp d s hlook hdir
        have hplt : p.length < d.length - 1 := by
          have := hdir.2
          omega
        have hdir2 : underDir p (d.take (d.length - 1)) := by
          refine ⟨?_, ?_⟩
          · exact underEq_comparable hdir.1 (underEq_take d (d.length - 1)) (by
              rw [take_length_of_le (by omega)]
              omega)
          · rw [take_length_of_le (by omega)]
            exact hplt
        exact ih (d.take (d.length - 1)) s2
          (by rw [take_length_of_le (by omega)]; omega) hs2 hdir2

theorem dirsSize_pos_of_mem : ∀ {d : DirsMap} {kv : RPath × List Comp}, kv ∈ d →
    1 + kv.2.length ≤ dirsSize d
  | [], kv, hkv => by cases hkv
  | y :: ys, kv, hkv => by
      rw [dirsSize_cons]
      rcases List.mem_cons.mp hkv with hkv | hkv
      · rw [hkv]
        omega
      · have := dirsSize_pos_of_mem hkv
        omega

theorem sibling_disjoint {p : RPath} {c c2 : Comp} {x : RPath}
    (hx : x.take (p.length + 1) = p ++ [c2]) (hne : c ≠ c2) :
    ¬ underEq (p ++ [c]) x := by
  intro h
  rw [underEq_append_iff] at h
  rw [h] at hx
  have h2 := List.append_cancel_left hx
  injection h2 with h3
  exact hne h3

theorem filter_underEq_split (l : List IndexEntry) (q : RPath) :
    (eraseEntry l q).filter (fun e => ¬ underDir q e.path) =
      l.filter (fun e => ¬ underEq q e.path) := by
  unfold eraseEntry
  rw [List.filter_filter]
  apply List.filter_congr
  intro e _
  by_cases h1 : e.path = q <;> by_cases h2 : underDir q e.path <;>
    simp [h1, h2, underEq_iff_eq_or_dir]

theorem removeDirectory_spec_none (i : Index) (p : RPath)
    (hD : SortedD i.directories)
    (hcov : ∀ e ∈ i.entries, underDir p e.path →
      ∀ j, p.length ≤ j → j < e.path.length →
        ∃ s, dirsLookup i.directories (e.path.take j) = some s ∧ e.path.getD j [] ∈ s)
    (hkp : ∀ d s, dirsLookup i.directories d = some s → underDir p d →
      ∃ s2, dirsLookup i.directories (d.take (d.length - 1)) = some s2 ∧
        d.getD (d.length - 1) [] ∈ s2)
    (hlook : dirsLookup i.directories p = none) :
    removeDirectory i p =
      { entries := i.entries.filter (fun e => ¬ underDir p e.path),
        directories := i.directories.filter (fun kv => ¬ underEq p kv.1) } := by
  rw [removeDirectory_none hlook]
  have he : i.entries.filter (fun e => ¬ underDir p e.path) = i.entries := by
    rw [List.filter_eq_self]
    intro e hee
    simp only [decide_eq_true_eq]
    intro hdir
    obtain ⟨s, hs, _⟩ := hcov e hee hdir p.length (le_refl _) hdir.2
    rw [hdir.1, hlook] at hs
    cases hs
  have hd : i.directories.filter (fun kv => ¬ underEq p kv.1) = i.directories := by
    rw [List.filter_eq_self]
    intro kv hkv
    simp only [decide_eq_true_eq]
    intro hu
    rcases underEq_iff_eq_or_dir.mp hu with hx | hx
    · have hm := sortedD_lookup_mem hD hkv
      rw [hx, hlook] at hm
      cases hm
    · exact no_key_under_of_none i.directories p hkp hlook kv.1.length kv.1 kv.2
        (by omega) (sortedD_lookup_mem hD hkv) hx
  rw [he, hd]

theorem foldPairs_spec (B1 : Nat)
    (HRD : ∀ (i2 : Index) (q : RPath), dirsSize i2.directories ≤ B1 → PruneInv i2 q →
      removeDirectory i2 q =
        { entries := i2.entries.filter (fun e => ¬ underDir q e.path),
          directories := i2.directories.filter (fun kv => ¬ underEq q kv.1) })
    (p : RPath) :
    ∀ (cs : List Comp) (i2 : Index),
      dirsSize i2.directories ≤ B1 →
      SortedE i2.entries → SortedD i2.directories →
      (∀ kv ∈ i2.directories, SortedC kv.2) → (∀ kv ∈ i2.directories, kv.2 ≠ []) →
      dirsLookup i2.directories p = none →
      (∀ e ∈ i2.entries, ∀ c ∈ cs, underEq (p ++ [c]) e.path →
        ∀ j, p.length + 1 ≤ j → j < e.path.length →
          ∃ s, dirsLookup i2.directories (e.path.take j) = some s ∧
            e.path.getD j [] ∈ s) →
      (∀ d s, dirsLookup i2.directories d = some s →
        (∃ c ∈ cs, underEq (p ++ [c]) d) → p.length + 1 < d.length →
          ∃ s2, dirsLookup i2.directories (d.take (d.length - 1)) = some s2 ∧
            d.getD (d.length - 1) [] ∈ s2) →
      SortedC cs →
      ((cs.flatMap
          (fun c => [DirTask.entry (p ++ [c]), DirTask.dir (p ++ [c])])).foldl
          taskStep i2) =
        { entries := i2.entries.filter
            (fun e => ¬ ∃ c ∈ cs, underEq (p ++ [c]) e.path),
          directories := i2.directories.filter
            (fun kv => ¬ ∃ c ∈ cs, underEq (p ++ [c]) kv.1) } := by
  intro cs
  induction cs with
  | nil =>
      intro i2 _ _ _ _ _ _ _ _ _
      rw [List.flatMap_nil, List.foldl_nil]
      have he : i2.entries.filter
          (fun e => ¬ ∃ c ∈ ([] : List Comp), underEq (p ++ [c]) e.path) =
          i2.entries := by
        rw [List.filter_eq_self]
        intro e _
        simp
      have hd : i2.directories.filter
          (fun kv => ¬ ∃ c ∈ ([] : List Comp), underEq (p ++ [c]) kv.1) =
          i2.directories := by
        rw [List.filter_eq_self]
        intro kv _
        simp
      rw [he, hd]
  | cons c cs2 ih =>
      intro i2 hsz hE hD hV hN hpnone hcov2 hkey2 hcs
      unfold SortedC at hcs
      rw [List.pairwise_cons] at hcs
      have hqlen : (p ++ [c]).length = p.length + 1 := length_append_one p c
      rw [List.flatMap_cons, List.cons_append, List.cons_append, List.nil_append,
        List.foldl_cons, List.foldl_cons]
      have hstep1 : taskStep i2 (.entry (p ++ [c])) =
          ⟨eraseEntry i2.entries (p ++ [c]), i2.directories⟩ := by
        rw [show taskStep i2 (.entry (p ++ [c])) = i2.remove (p ++ [c]) from rfl]
        apply remove_parent_missing i2 (p ++ [c]) (by rw [hqlen]; omega)
        rw [hqlen]
        simp only [Nat.add_sub_cancel]
        rw [take_append_self]
        exact hpnone
      rw [hstep1]
      have hstep2 : taskStep (⟨eraseEntry i2.entries (p ++ [c]), i2.directories⟩ : Index)
          (.dir (p ++ [c])) =
          ⟨(eraseEntry i2.entries (p ++ [c])).filter
              (fun e => ¬ underDir (p ++ [c]) e.path),
            i2.directories.filter (fun kv => ¬ underEq (p ++ [c]) kv.1)⟩ := by
        have hinv3 : PruneInv
            (⟨eraseEntry i2.entries (p ++ [c]), i2.directories⟩ : Index) (p ++ [c]) := by
          refine ⟨sortedE_eraseEntry hE _, hD, hV, hN, ?_, ?_⟩
          · intro e hee hdir j hj1 hj2
            have hee2 : e ∈ i2.entries := ((mem_eraseEntry _ _ e).mp hee).1
            exact hcov2 e hee2 c (by simp) hdir.1 j (by rw [hqlen] at hj1; exact hj1) hj2
          · intro d s hlook hdir
            apply hkey2 d s hlook ⟨c, by simp, hdir.1⟩
            have hdl := hdir.2
            rw [hqlen] at hdl
            exact hdl
        have h2 := HRD (⟨eraseEntry i2.entries (p ++ [c]), i2.directories⟩ : Index)
          (p ++ [c]) hsz hinv3
        rw [show taskStep (⟨eraseEntry i2.entries (p ++ [c]), i2.directories⟩ : Index)
          (.dir (p ++ [c])) =
          removeDirectory (⟨eraseEntry i2.entries (p ++ [c]), i2.directories⟩ : Index)
            (p ++ [c]) from rfl]
        exact h2
      rw [hstep2, filter_underEq_split i2.entries (p ++ [c])]
      rw [ih (⟨i2.entries.filter (fun e => ¬ underEq (p ++ [c]) e.path),
            i2.directories.filter (fun kv => ¬ underEq (p ++ [c]) kv.1)⟩ : Index)
        (le_trans (dirsSize_filter_le _ i2.directories) hsz)
        (hE.sublist (List.filter_sublist i2.entries))
        (hD.sublist (List.filter_sublist i2.directories))
        (fun kv hkv => hV kv (List.mem_of_mem_filter hkv))
        (fun kv hkv => hN kv (List.mem_of_mem_filter hkv))
        (dirsLookup_filter_none _ p i2.directories hpnone)
        ?hcov4 ?hkey4 hcs.2]
      case hcov4 =>
        intro e hee c2 hc2 hu j hj1 hj2
        have hee2 : e ∈ i2.entries := List.mem_of_mem_filter hee
        obtain ⟨s, hs, hmem⟩ := hcov2 e hee2 c2 (List.mem_cons_of_mem c hc2) hu j hj1 hj2
        refine ⟨s, ?_, hmem⟩
        have hkeep : dirsLookup
            (i2.directories.filter (fun kv => ¬ underEq (p ++ [c]) kv.1))
            (e.path.take j) = dirsLookup i2.directories (e.path.take j) := by
          apply dirsLookup_filter_keep
          intro kv _ hkx
          have htj : (e.path.take j).take (p.length + 1) = p ++ [c2] := by
            rw [List.take_take, min_eq_left hj1]
            exact underEq_append_iff.mp hu
          have hnu : ¬ underEq (p ++ [c]) (e.path.take j) :=
            sibling_disjoint htj (cmpComp_lt_ne (hcs.1 c2 hc2))
          rw [← hkx] at hnu
          simp [hnu]
        rw [hkeep]
        exact hs
      case hkey4 =>
        intro d s hlook hex hdl
        obtain ⟨c2, hc2, hu⟩ := hex
        have hlook2 : dirsLookup i2.directories d = some s :=
          dirsLookup_filter_some _ d s hD hlook
        obtain ⟨s2, hs2, hmem⟩ :=
          hkey2 d s hlook2 ⟨c2, List.mem_cons_of_mem c hc2, hu⟩ hdl
        refine ⟨s2, ?_, hmem⟩
        have hkeep : dirsLookup
            (i2.directories.filter (fun kv => ¬ underEq (p ++ [c]) kv.1))
            (d.take (d.length - 1)) = dirsLookup i2.directories (d.take (d.length - 1)) := by
          apply dirsLookup_filter_keep
          intro kv _ hkx
          have htj : (d.take (d.length - 1)).take (p.length + 1) = p ++ [c2] := by
            rw [List.take_take, min_eq_left (by omega)]
            exact underEq_append_iff.mp hu
          have hnu : ¬ underEq (p ++ [c]) (d.take (d.length - 1)) :=
            sibling_disjoint htj (cmpComp_lt_ne (hcs.1 c2 hc2))
          rw [← hkx] at hnu
          simp [hnu]
        rw [hkeep]
        exact hs2
      dsimp only
      rw [List.filter_filter, List.filter_filter]
      congr 1
      · apply List.filter_congr
        intro x _
        by_cases h1 : underEq (p ++ [c]) x.path <;>
          by_cases h2 : ∃ c2 ∈ cs2, underEq (p ++ [c2]) x.path <;>
          simp [h1, h2, List.mem_cons]
      · apply List.filter_congr
        intro x _
        by_cases h1 : underEq (p ++ [c]) x.1 <;>
          by_cases h2 : ∃ c2 ∈ cs2, underEq (p ++ [c2]) x.1 <;>
          simp [h1, h2, List.mem_cons]

theorem removeDirectory_spec : ∀ (B : Nat) (i : Index) (p : RPath),
    dirsSize i.directories ≤ B → PruneInv i p →
    removeDirectory i p =
      { entries := i.entries.filter (fun e => ¬ underDir p e.path),
        directories := i.directories.filter (fun kv => ¬ underEq p kv.1) } := by
  intro B
  induction B with
  | zero =>
      intro i p hsz hinv
      cases hlook : dirsLookup i.directories p with
      | none => exact removeDirectory_spec_none i p hinv.sD hinv.cover hinv.keyPar hlook
      | some children =>
          exfalso
          have hmem := dirsLookup_some_mem _ _ _ hlook
          have := dirsSize_pos_of_mem hmem
          omega
  | succ B ih =>
      intro i p hsz hinv
      obtain ⟨hE, hD, hV, hN, hcov, hkp⟩ := hinv
      cases hlook : dirsLookup i.directories p with
      | none => exact removeDirectory_spec_none i p hD hcov hkp hlook
      | some children =>
          have hszk := dirsSize_eraseKey_some p children i.directories hD hlook
          have hsz2 : dirsSize
              ({ i with directories := dirsEraseKey i.directories p } : Index).directories
              + 1 + children.length = dirsSize i.directories := hszk
          have hD2 := sortedD_eraseKey hD p
          have hV2 : ∀ kv ∈ dirsEraseKey i.directories p, SortedC kv.2 :=
            fun kv hkv => hV kv ((mem_dirsEraseKey _ _ kv).mp hkv).1
          have hN2 : ∀ kv ∈ dirsEraseKey i.directories p, kv.2 ≠ [] :=
            fun kv hkv => hN kv ((mem_dirsEraseKey _ _ kv).mp hkv).1
          have hlen := subtasks_length children p
          unfold removeDirectory
          rw [removeDirLoop_dir_some (1 + 2 * dirsSize i.directories) [] hlook,
            List.append_nil]
          rw [removeDirLoop_norm (2 * dirsSize i.directories)
            { i with directories := dirsEraseKey i.directories p }
            (children.flatMap (fun c => [DirTask.entry (p ++ [c]), DirTask.dir (p ++ [c])]))
            (1 + 2 * dirsSize i.directories) hE hD2 hV2 hN2
            (by rw [hlen]; omega) (by rw [hlen]; omega)]
          have hpn : dirsLookup (dirsEraseKey i.directories p) p = none := by
            rw [dirsLookup_eraseKey]
            exact if_pos rfl
          have hcovc : ∀ e ∈ i.entries, ∀ c ∈ children, underEq (p ++ [c]) e.path →
              ∀ j, p.length + 1 ≤ j → j < e.path.length →
                ∃ s, dirsLookup (dirsEraseKey i.directories p) (e.path.take j) = some s ∧
                  e.path.getD j [] ∈ s := by
            intro e hee c hc hu j hj1 hj2
            obtain ⟨s, hs, hmem⟩ := hcov e hee (underDir_of_underEq_append hu)
              j (by omega) hj2
            refine ⟨s, ?_, hmem⟩
            rw [dirsLookup_eraseKey]
            rw [if_neg ?hne]
            case hne =>
              intro hx
              have hxl := congrArg List.length hx
              rw [take_length_of_le (by omega)] at hxl
              omega
            exact hs
          have hkeyc : ∀ d s, dirsLookup (dirsEraseKey i.directories p) d = some s →
              (∃ c ∈ children, underEq (p ++ [c]) d) → p.length + 1 < d.length →
                ∃ s2, dirsLookup (dirsEraseKey i.directories p)
                    (d.take (d.length - 1)) = some s2 ∧
                  d.getD (d.length - 1) [] ∈ s2 := by
            intro d s hlk hex hdl
            by_cases hdp : d = p
            · rw [dirsLookup_eraseKey, if_pos hdp] at hlk
              cases hlk
            · rw [dirsLookup_eraseKey, if_neg hdp] at hlk
              obtain ⟨c, hc, hu⟩ := hex
              obtain ⟨s2, hs2, hmem⟩ := hkp d s hlk (underDir_of_underEq_append hu)
              refine ⟨s2, ?_, hmem⟩
              rw [dirsLookup_eraseKey]
              rw [if_neg ?hne2]
              case hne2 =>
                intro hx
                have hxl := congrArg List.length hx
                rw [take_length_of_le (by omega)] at hxl
                omega
              exact hs2
          have hsc : SortedC children := hV (p, children) (dirsLookup_some_mem _ _ _ hlook)
          rw [foldPairs_spec B ih p children
            ({ i with directories := dirsEraseKey i.directories p } : Index)
            (by omega) hE hD2 hV2 hN2 hpn hcovc hkeyc hsc]
          dsimp only
          congr 1
          · apply List.filter_congr
            intro e hee
            rw [decide_eq_decide]
            apply not_congr
            constructor
            · rintro ⟨c, hc, hu⟩
              exact underDir_of_underEq_append hu
            · intro hdir
              obtain ⟨s, hs, hmem⟩ := hcov e hee hdir p.length (le_refl _) hdir.2
              rw [hdir.1, hlook] at hs
              have hsch : s = children := (Option.some.inj hs).symm
              rw [hsch] at hmem
              exact ⟨e.path.getD p.length [], hmem, underEq_append_of_dir hdir⟩
          · unfold dirsEraseKey
            rw [List.filter_filter]
            apply List.filter_congr
            intro kv hkv
            by_cases hu : underEq p kv.1
            · rcases underEq_iff_eq_or_dir.mp hu with hx | hx
              · simp [hx, underEq_refl p]
              · have hc0 := key_climb i.directories p children hkp hlook
                  kv.1.length kv.1 kv.2 (by omega) (sortedD_lookup_mem hD hkv) hx
                have hA : ∃ c ∈ children, underEq (p ++ [c]) kv.1 :=
                  ⟨kv.1.getD p.length [], hc0, underEq_append_of_dir hx⟩
                simp [hA, hu]
            · have hnA : ¬ ∃ c ∈ children, underEq (p ++ [c]) kv.1 := by
                rintro ⟨c, hc, hux⟩
                exact hu (underEq_trans (underEq_append_one p c) hux)
              have hne : ¬ kv.1 = p := by
                intro heq
                apply hu
                rw [heq]
                exact underEq_refl p
              simp [hnA, hne, hu]

theorem INV_pruneInv {i : Index} (h : INV i) (p : RPath) : PruneInv i p := by
  obtain ⟨hE, hD, hV, hN, hpf, hagree⟩ := h
  refine ⟨hE, hD, hV, hN, ?_, ?_⟩
  · intro e hee hdir j hj1 hj2
    have hchild : childOf i.entries (e.path.take j) (e.path.getD j []) := by
      refine ⟨e, hee, ⟨underEq_take e.path j, ?_⟩, ?_⟩
      · rw [take_length_of_le (by omega)]
        exact hj2
      · rw [take_length_of_le (by omega)]
    cases hlk : dirsLookup i.directories (e.path.take j) with
    | none =>
        exact absurd hchild ((hagree (e.path.take j)).2 hlk (e.path.getD j []))
    | some s =>
        refine ⟨s, rfl, ?_⟩
        exact (((hagree (e.path.take j)).1 s hlk).1 (e.path.getD j [])).mpr hchild
  · intro d s hlk hdir
    have hne := ((hagree d).1 s hlk).2
    have hmem : ∃ c, c ∈ s := by
      cases s with
      | nil => exact absurd rfl hne
      | cons c cs => exact ⟨c, by simp⟩
    obtain ⟨c, hc⟩ := hmem
    have hchild : childOf i.entries d c := (((hagree d).1 s hlk).1 c).mp hc
    obtain ⟨e, hee, hedir, hec⟩ := hchild
    have hdl : 1 ≤ d.length := by
      have := hdir.2
      omega
    have htake : e.path.take (d.length - 1) = d.take (d.length - 1) := by
      have h1 : (e.path.take d.length).take (d.length - 1) = d.take (d.length - 1) := by
        rw [hedir.1]
      rw [List.take_take, min_eq_left (by omega)] at h1
      exact h1
    have hgd : e.path.getD (d.length - 1) [] = d.getD (d.length - 1) [] := by
      exact underEq_getD hedir.1 (m := d.length - 1) (by omega)
    have hchild2 : childOf i.entries (d.take (d.length - 1)) (d.getD (d.length - 1) []) := by
      refine ⟨e, hee, ⟨?_, ?_⟩, ?_⟩
      · rw [take_length_of_le (by omega), ← htake]
      · rw [take_length_of_le (by omega)]
        have := hedir.2
        omega
      · rw [take_length_of_le (by omega)]
        exact hgd
    cases hlk2 : dirsLookup i.directories (d.take (d.length - 1)) with
    | none =>
        exact absurd hchild2 ((hagree _).2 hlk2 _)
    | some s2 =>
        refine ⟨s2, rfl, ?_⟩
        exact (((hagree _).1 s2 hlk2).1 _).mpr hchild2

/-! ## The directory-insertion walk of add_entry -/

theorem dirsLookup_none_of_lt {p : RPath} : ∀ {d : DirsMap}, SortedD d →
    (∀ kv ∈ d, cmpPath p kv.1 = .lt) → dirsLookup d p = none := by
  intro d hs hlt
  rw [dirsLookup_none_iff]
  intro kv hkv
  exact fun hx => cmpPath_lt_ne (hlt kv hkv) hx.symm

theorem insertAux_sortedD (p : RPath) : ∀ (j : Nat) (D : DirsMap), SortedD D →
    SortedD (insertIntoDirectoriesMapAux p j D)
  | 0, D, h => h
  | j + 1, D, h => by
      rw [show insertIntoDirectoriesMapAux p (j + 1) D =
        insertIntoDirectoriesMapAux p j
          (dirsInsertChild D (p.take j) (p.getD j [])) from rfl]
      exact insertAux_sortedD p j _ (sortedD_insertChild _ _ D h)

theorem insertAux_values (p : RPath) : ∀ (j : Nat) (D : DirsMap),
    (∀ kv ∈ D, SortedC kv.2) → (∀ kv ∈ D, kv.2 ≠ []) →
    ∀ kv ∈ insertIntoDirectoriesMapAux p j D, SortedC kv.2 ∧ kv.2 ≠ []
  | 0, D, hv, hn => fun kv hkv => ⟨hv kv hkv, hn kv hkv⟩
  | j + 1, D, hv, hn => by
      rw [show insertIntoDirectoriesMapAux p (j + 1) D =
        insertIntoDirectoriesMapAux p j
          (dirsInsertChild D (p.take j) (p.getD j [])) from rfl]
      apply insertAux_values p j
      · intro kv hkv
        rcases mem_dirsInsertChild _ _ _ kv hkv with hx | hx | hx
        · rw [hx]
          unfold SortedC
          simp
        · obtain ⟨kv2, hkv2, he⟩ := hx
          rw [he]
          exact sortedC_insComp _ _ (hv kv2 hkv2)
        · exact hv kv hx
      · intro kv hkv
        rcases mem_dirsInsertChild _ _ _ kv hkv with hx | hx | hx
        · rw [hx]
          simp
        · obtain ⟨kv2, hkv2, he⟩ := hx
          rw [he]
          exact insComp_ne_nil _ _
        · exact hn kv hx

theorem insertAux_lookup (p : RPath) : ∀ (j : Nat) (D : DirsMap) (q : RPath),
    j ≤ p.length → SortedD D →
    dirsLookup (insertIntoDirectoriesMapAux p j D) q =
      if q.length < j ∧ q = p.take q.length then
        some (insComp (p.getD q.length []) ((dirsLookup D q).getD []))
      else dirsLookup D q
  | 0, D, q => by
      intro _ _
      rw [if_neg (by omega)]
      rfl
  | j + 1, D, q => by
      intro hj hs
      rw [show insertIntoDirectoriesMapAux p (j + 1) D =
        insertIntoDirectoriesMapAux p j
          (dirsInsertChild D (p.take j) (p.getD j [])) from rfl]
      rw [insertAux_lookup p j _ q (by omega) (sortedD_insertChild _ _ D hs)]
      rw [dirsLookup_insertChild _ _ D hs q]
      by_cases hc1 : q.length < j ∧ q = p.take q.length
      · rw [if_pos hc1]
        have hqj : ¬ q = p.take j := by
          intro hx
          have hxl := congrArg List.length hx
          rw [take_length_of_le (by omega)] at hxl
          omega
        rw [if_neg hqj,
          if_pos (⟨by omega, hc1.2⟩ : q.length < j + 1 ∧ q = p.take q.length)]
      · rw [if_neg hc1]
        by_cases hc2 : q = p.take j
        · have hql : q.length = j := by
            rw [hc2, take_length_of_le (by omega)]
          have htgt : q.length < j + 1 ∧ q = p.take q.length := by
            refine ⟨by omega, ?_⟩
            rw [hql]
            exact hc2
          rw [if_pos hc2, if_pos htgt, hql, hc2]
        · have hntgt : ¬ (q.length < j + 1 ∧ q = p.take q.length) := by
            rintro ⟨hlt, heq⟩
            by_cases hql : q.length < j
            · exact hc1 ⟨hql, heq⟩
            · have hqlj : q.length = j := by omega
              rw [hqlj] at heq
              exact hc2 heq
          rw [if_neg hc2, if_neg hntgt]

/-! ## discard_conflicting_entries -/

theorem remove_not_present {i : Index} {q : RPath}
    (h : lookupEntry i.entries q = none) : i.remove q = i := by
  unfold Index.remove
  rw [h]
  rfl

theorem mem_ancestorsList (p a : RPath) : a ∈ ancestorsList p ↔ underEq a p := by
  unfold ancestorsList
  rw [List.mem_map]
  constructor
  · rintro ⟨n, hn, he⟩
    rw [List.mem_reverse, List.mem_range] at hn
    rw [← he]
    exact underEq_take p n
  · intro h
    refine ⟨a.length, ?_, ?_⟩
    · rw [List.mem_reverse, List.mem_range]
      have := underEq_length h
      omega
    · exact h

theorem fold_noop : ∀ (L : List RPath) (j : Index),
    (∀ a ∈ L, lookupEntry j.entries a = none) → L.foldl Index.remove j = j
  | [], j, _ => rfl
  | a :: L2, j, h => by
      rw [List.foldl_cons, remove_not_present (h a (by simp))]
      exact fold_noop L2 j (fun x hx => h x (by simp [hx]))

theorem fold_removes : ∀ (L : List RPath) (j : Index), INV j →
    INV (L.foldl Index.remove j) ∧
    (L.foldl Index.remove j).entries = j.entries.filter (fun x => ¬ x.path ∈ L)
  | [], j, h => by
      refine ⟨h, ?_⟩
      rw [List.foldl_nil]
      exact (List.filter_eq_self.mpr (by intro e _; simp)).symm
  | a :: L2, j, h => by
      rw [List.foldl_cons]
      obtain ⟨h1, h2⟩ := remove_spec j a h
      obtain ⟨h3, h4⟩ := fold_removes L2 (j.remove a) h1
      refine ⟨h3, ?_⟩
      rw [h4, h2]
      unfold eraseEntry
      rw [List.filter_filter]
      apply List.filter_congr
      intro x _
      by_cases hxa : x.path = a <;> by_cases hxl : x.path ∈ L2 <;>
        simp [hxa, hxl, List.mem_cons]

theorem prefixFree_filter {l : List IndexEntry} (h : PrefixFree l)
    (f : IndexEntry → Bool) : PrefixFree (l.filter f) := by
  intro x hx y hy hu
  exact h x (List.mem_of_mem_filter hx) y (List.mem_of_mem_filter hy) hu

theorem discard_spec (i : Index) (p : RPath) (h : INV i) :
    DiscardOut i p (discardConflictingEntries i p) := by
  by_cases hA : ∃ a ∈ i.entries, underEq a.path p
  · obtain ⟨a, ha, hap⟩ := hA
    have hnu : ∀ x ∈ i.entries, ¬ underDir p x.path := by
      intro x hx hdx
      have hx1 : underEq a.path x.path := underEq_trans hap hdx.1
      have hx2 := h.pf a ha x hx hx1
      have hl1 := underEq_length hap
      have hl2 := hdx.2
      have := congrArg List.length hx2
      omega
    have hlpn : dirsLookup i.directories p = none := by
      cases hlk : dirsLookup i.directories p with
      | none => rfl
      | some s =>
          exfalso
          have hag := (h.agree p).1 s hlk
          have hsne := hag.2
          cases s with
          | nil => exact hsne rfl
          | cons c cs =>
              have hc : childOf i.entries p c := (hag.1 c).mp (by simp)
              obtain ⟨e, he, hedir, _⟩ := hc
              exact hnu e he hedir
    unfold discardConflictingEntries
    rw [removeDirectory_none hlpn]
    obtain ⟨hI2, hE2⟩ := fold_removes (ancestorsList p) i h
    have hent : ((ancestorsList p).foldl Index.remove i).entries =
        i.entries.filter (fun e => ¬ underDir p e.path ∧ ¬ underEq e.path p) := by
      rw [hE2]
      apply List.filter_congr
      intro x hx
      by_cases hm : x.path ∈ ancestorsList p
      · rw [mem_ancestorsList] at hm
        simp [hm, (mem_ancestorsList p x.path).mpr hm]
      · have hm2 : ¬ underEq x.path p := fun hu => hm ((mem_ancestorsList p x.path).mpr hu)
        simp [hm2, hnu x hx, (mem_ancestorsList p x.path).not.mpr hm2]
    refine ⟨hI2.sE, hI2.sD, hI2.sV, hI2.ne, hI2.pf, hent, ?_, ?_⟩
    · intro q _
      exact hI2.agree q
    · intro q _
      refine ⟨?_, ?_⟩
      · intro s hs
        have hag := (hI2.agree q).1 s hs
        exact ⟨fun c hc => (hag.1 c).mpr hc, fun c hc => Or.inl ((hag.1 c).mp hc)⟩
      · intro hn c
        exact (hI2.agree q).2 hn c
  · push_neg at hA
    have hrd := removeDirectory_spec (dirsSize i.directories) i p (le_refl _)
      (INV_pruneInv h p)
    unfold discardConflictingEntries
    rw [hrd]
    set E1 : List IndexEntry := i.entries.filter (fun e => ¬ underDir p e.path) with hE1
    set D1 : DirsMap := i.directories.filter (fun kv => ¬ underEq p kv.1) with hD1
    have hnoop : (ancestorsList p).foldl Index.remove
        ({ entries := E1, directories := D1 } : Index) =
        { entries := E1, directories := D1 } := by
      apply fold_noop
      intro x hx
      rw [lookupEntry_none_iff]
      intro e he hep
      have he2 : e ∈ i.entries := List.mem_of_mem_filter he
      apply hA e he2
      rw [hep]
      exact (mem_ancestorsList p x).mp hx
    rw [hnoop]
    have hmemE1 : ∀ e, e ∈ E1 ↔ e ∈ i.entries ∧ ¬ underDir p e.path := by
      intro e
      rw [hE1, List.mem_filter]
      simp
    have hlkD1keep : ∀ q, ¬ underEq p q → dirsLookup D1 q = dirsLookup i.directories q := by
      intro q hq
      rw [hD1]
      apply dirsLookup_filter_keep
      intro kv _ hk
      rw [← hk] at hq
      simp [hq]
    refine ⟨?_, ?_, ?_, ?_, ?_, ?_, ?_, ?_⟩
    · exact h.sE.sublist (List.filter_sublist i.entries)
    · exact h.sD.sublist (List.filter_sublist i.directories)
    · intro kv hkv
      exact h.sV kv (List.mem_of_mem_filter hkv)
    · intro kv hkv
      exact h.ne kv (List.mem_of_mem_filter hkv)
    · exact prefixFree_filter h.pf _
    · apply List.filter_congr
      intro x hx
      have hx2 := hA x hx
      by_cases hd : underDir p x.path <;> simp [hd, hx2]
    · intro q hq
      by_cases hpq : underEq p q
      · have hnone : dirsLookup D1 q = none := by
          rw [dirsLookup_none_iff]
          intro kv hkv hk
          rw [hD1] at hkv
          have := (List.mem_filter.mp hkv).2
          rw [hk] at this
          simp [hpq] at this
        constructor
        · intro s hs
          rw [hnone] at hs
          cases hs
        · rintro _ c ⟨e, he, hedir, _⟩
          have hpe : underDir p e.path := by
            refine ⟨underEq_trans hpq hedir.1, ?_⟩
            have := underEq_length hpq
            have := hedir.2
            omega
          exact ((hmemE1 e).mp he).2 hpe
      · have hlk := hlkD1keep q hpq
        have hch : ∀ c, childOf E1 q c ↔ childOf i.entries q c := by
          intro c
          constructor
          · rintro ⟨e, he, hedir, hc⟩
            exact ⟨e, ((hmemE1 e).mp he).1, hedir, hc⟩
          · rintro ⟨e, he, hedir, hc⟩
            refine ⟨e, (hmemE1 e).mpr ⟨he, ?_⟩, hedir, hc⟩
            intro hpe
            by_cases hlen : p.length ≤ q.length
            · exact hpq (underEq_comparable hpe.1 hedir.1 hlen)
            · exact hq ⟨underEq_comparable hedir.1 hpe.1 (by omega), by omega⟩
        constructor
        · intro s hs
          rw [hlk] at hs
          have hag := (h.agree q).1 s hs
          exact ⟨fun c => (hag.1 c).trans (hch c).symm, hag.2⟩
        · intro hn c
          rw [hlk] at hn
          rw [hch c]
          exact (h.agree q).2 hn c
    · intro q hq
      have hpq : ¬ underEq p q := by
        intro hu
        have h1 := underEq_length hu
        have h2 := hq.2
        omega
      have hlk := hlkD1keep q hpq
      constructor
      · intro s hs
        rw [hlk] at hs
        have hag := (h.agree q).1 s hs
        constructor
        · rintro c ⟨e, he, hedir, hc⟩
          exact (hag.1 c).mpr ⟨e, ((hmemE1 e).mp he).1, hedir, hc⟩
        · intro c hc
          obtain ⟨e, he, hedir, hcc⟩ := (hag.1 c).mp hc
          by_cases hpe : underDir p e.path
          · right
            rw [← hcc]
            exact underEq_getD hpe.1 hq.2
          · left
            exact ⟨e, (hmemE1 e).mpr ⟨he, hpe⟩, hedir, hcc⟩
      · intro hn c
        rw [hlk] at hn
        rintro ⟨e, he, hedir, hc⟩
        exact (h.agree q).2 hn c ⟨e, ((hmemE1 e).mp he).1, hedir, hc⟩

/-! ## add_entry -/

theorem addEntry_unfold (i : Index) (e : IndexEntry) :
    i.addEntry e =
      { entries := insEntry e (discardConflictingEntries i e.path).entries
        directories := insertIntoDirectoriesMapAux e.path e.path.length
          (discardConflictingEntries i e.path).directories } := rfl

theorem addEntry_spec (i : Index) (e : IndexEntry) (h : INV i) :
    INV (i.addEntry e) ∧
    (i.addEntry e).entries = insEntry e (i.entries.filter
      (fun x => ¬ underDir e.path x.path ∧ ¬ underEq x.path e.path)) := by
  obtain ⟨sE, sD, sV, nE, pf, ent, agreeOut, agreeAnc⟩ := discard_spec i e.path h
  have hnid : ∀ x ∈ (discardConflictingEntries i e.path).entries, x.path ≠ e.path := by
    intro x hx
    rw [ent] at hx
    have := (List.mem_filter.mp hx).2
    simp only [decide_eq_true_eq, Bool.and_eq_true] at this
    intro hxe
    apply this.2
    rw [hxe]
    exact underEq_refl e.path
  have hmem3 := mem_insEntry_iff e (discardConflictingEntries i e.path).entries hnid
  have hvn := insertAux_values e.path e.path.length
    (discardConflictingEntries i e.path).directories sV nE
  have hch3 : ∀ q c, ¬ underDir q e.path →
      (childOf (insEntry e (discardConflictingEntries i e.path).entries) q c ↔
        childOf (discardConflictingEntries i e.path).entries q c) := by
    intro q c hq
    constructor
    · rintro ⟨x, hx, hdir, hc⟩
      rcases (hmem3 x).mp hx with hx2 | hx2
      · rw [hx2] at hdir
        exact absurd hdir hq
      · exact ⟨x, hx2, hdir, hc⟩
    · rintro ⟨x, hx, hdir, hc⟩
      exact ⟨x, (hmem3 x).mpr (Or.inr hx), hdir, hc⟩
  have hch3anc : ∀ q c, underDir q e.path →
      (childOf (insEntry e (discardConflictingEntries i e.path).entries) q c ↔
        (c = e.path.getD q.length [] ∨
          childOf (discardConflictingEntries i e.path).entries q c)) := by
    intro q c hq
    constructor
    · rintro ⟨x, hx, hdir, hc⟩
      rcases (hmem3 x).mp hx with hx2 | hx2
      · left
        rw [← hc, hx2]
      · right
        exact ⟨x, hx2, hdir, hc⟩
    · rintro (hc | hc)
      · exact ⟨e, (hmem3 e).mpr (Or.inl rfl), hq, hc.symm⟩
      · obtain ⟨x, hx, hdir, hc2⟩ := hc
        exact ⟨x, (hmem3 x).mpr (Or.inr hx), hdir, hc2⟩
  rw [addEntry_unfold]
  refine ⟨⟨sortedE_insEntry sE, insertAux_sortedD e.path e.path.length _ sD,
    fun kv hkv => (hvn kv hkv).1, fun kv hkv => (hvn kv hkv).2, ?_, ?_⟩, ?_⟩
  · intro x hx y hy hu
    rcases (hmem3 x).mp hx with hx2 | hx2 <;> rcases (hmem3 y).mp hy with hy2 | hy2
    · rw [hx2, hy2]
    · rw [hx2] at hu ⊢
      rw [ent] at hy2
      have hyp := (List.mem_filter.mp hy2).2
      simp only [decide_eq_true_eq, Bool.and_eq_true] at hyp
      rcases underEq_iff_eq_or_dir.mp hu with hx3 | hx3
      · rw [hx3]
      · exact absurd hx3 hyp.1
    · rw [hy2] at hu ⊢
      rw [ent] at hx2
      have hxp := (List.mem_filter.mp hx2).2
      simp only [decide_eq_true_eq, Bool.and_eq_true] at hxp
      exact absurd hu hxp.2
    · exact pf x hx2 y hy2 hu
  · intro q
    have hlk := insertAux_lookup e.path e.path.length
      (discardConflictingEntries i e.path).directories q (le_refl _) sD
    unfold dirsAgree
    rw [hlk]
    by_cases hqd : underDir q e.path
    · rw [if_pos (⟨hqd.2, hqd.1.symm⟩ : q.length < e.path.length ∧
        q = e.path.take q.length)]
      refine ⟨?_, ?_⟩
      · intro s hs
        have hse : s = insComp (e.path.getD q.length [])
            ((dirsLookup (discardConflictingEntries i e.path).directories q).getD []) :=
          (Option.some.inj hs).symm
        refine ⟨?_, by rw [hse]; exact insComp_ne_nil _ _⟩
        intro c
        rw [hse, mem_insComp, hch3anc q c hqd]
        cases hlkd : dirsLookup (discardConflictingEntries i e.path).directories q with
        | some s2 =>
            have hanc := (agreeAnc q hqd).1 s2 hlkd
            simp only [Option.getD_some]
            constructor
            · rintro (hc | hc)
              · exact Or.inl hc
              · rcases hanc.2 c hc with hc2 | hc2
                · exact Or.inr hc2
                · exact Or.inl hc2
            · rintro (hc | hc)
              · exact Or.inl hc
              · exact Or.inr (hanc.1 c hc)
        | none =>
            have hanc := (agreeAnc q hqd).2 hlkd
            simp only [Option.getD_none]
            constructor
            · rintro (hc | hc)
              · exact Or.inl hc
              · simp at hc
            · rintro (hc | hc)
              · exact Or.inl hc
              · exact absurd hc (hanc c)
      · intro hn
        cases hn
    · rw [if_neg (fun hx : q.length < e.path.length ∧ q = e.path.take q.length =>
        hqd ⟨hx.2.symm, hx.1⟩)]
      have hag := agreeOut q hqd
      unfold dirsAgree at hag
      refine ⟨?_, ?_⟩
      · intro s hs
        have h2 := hag.1 s hs
        exact ⟨fun c => (h2.1 c).trans (hch3 q c hqd).symm, h2.2⟩
      · intro hn c
        rw [hch3 q c hqd]
        exact hag.2 hn c
  · rw [ent]

theorem INV_empty : INV Index.empty := by
  refine ⟨List.Pairwise.nil, List.Pairwise.nil, ?_, ?_, ?_, ?_⟩
  · intro kv hkv
    cases hkv
  · intro kv hkv
    cases hkv
  · intro x hx
    cases hx
  · intro q
    constructor
    · intro s hs
      cases hs
    · rintro _ c ⟨e, he, _, _⟩
      cases he

theorem INV_applyOp {i : Index} (h : INV i) (op : IndexOp) : INV (applyOp i op) := by
  cases op with
  | add e => exact (addEntry_spec i e h).1
  | del p => exact (remove_spec i p h).1

theorem INV_foldOps : ∀ (ops : List IndexOp) (i : Index), INV i → INV (ops.foldl applyOp i)
  | [], _, h => h
  | op :: rest, i, h => INV_foldOps rest _ (INV_applyOp h op)

theorem INV_runOps (ops : List IndexOp) : INV (runOps ops) :=
  INV_foldOps ops Index.empty INV_empty

/-! ## Rebuilding an index from its own entries -/

theorem dirs_unique {i1 i2 : Index} (h1 : INV i1) (h2 : INV i2)
    (he : i1.entries = i2.entries) : i1.directories = i2.directories := by
  apply sortedD_ext _ _ h1.sD h2.sD
  intro q
  cases hl1 : dirsLookup i1.directories q with
  | some s1 =>
      have hag1 := (h1.agree q).1 s1 hl1
      rw [he] at hag1
      cases hl2 : dirsLookup i2.directories q with
      | some s2 =>
          have hag2 := (h2.agree q).1 s2 hl2
          have hsc1 : SortedC s1 := h1.sV (q, s1) (dirsLookup_some_mem _ _ _ hl1)
          have hsc2 : SortedC s2 := h2.sV (q, s2) (dirsLookup_some_mem _ _ _ hl2)
          rw [sortedC_ext s1 s2 hsc1 hsc2
            (fun c => (hag1.1 c).trans (hag2.1 c).symm)]
      | none =>
          exfalso
          have hne := hag1.2
          cases s1 with
          | nil => exact hne rfl
          | cons c cs =>
              exact (h2.agree q).2 hl2 c ((hag1.1 c).mp (by simp))
  | none =>
      cases hl2 : dirsLookup i2.directories q with
      | none => rfl
      | some s2 =>
          exfalso
          have hag2 := (h2.agree q).1 s2 hl2
          rw [← he] at hag2
          have hne := hag2.2
          cases s2 with
          | nil => exact hne rfl
          | cons c cs =>
              exact (h1.agree q).2 hl1 c ((hag2.1 c).mp (by simp))

theorem insEntry_gt_all : ∀ (l : List IndexEntry) (e : IndexEntry),
    (∀ x ∈ l, cmpPath x.path e.path = .lt) → insEntry e l = l ++ [e]
  | [], e, _ => rfl
  | y :: ys, e, h => by
      have hgt : cmpPath e.path y.path = .gt :=
        (cmpPath_gt_iff _ _).mpr (h y (by simp))
      rw [insEntry_gt hgt, insEntry_gt_all ys e (fun x hx => h x (by simp [hx])),
        List.cons_append]

theorem index_eq_of (a b : Index) (h1 : a.entries = b.entries)
    (h2 : a.directories = b.directories) : a = b := by
  cases a
  cases b
  cases h1
  cases h2
  rfl

theorem index_rebuild_aux : ∀ (l : List IndexEntry), SortedE l → PrefixFree l →
    INV (l.foldl Index.addEntry Index.empty) ∧
    (l.foldl Index.addEntry Index.empty).entries = l := by
  intro l
  induction l using List.reverseRecOn with
  | nil =>
      intro _ _
      exact ⟨INV_empty, rfl⟩
  | append_singleton l2 e ih =>
      intro hs hp
      have hs2 : SortedE l2 := by
        unfold SortedE at *
        exact hs.sublist (List.sublist_append_left _ _)
      have hp2 : PrefixFree l2 := by
        intro x hx y hy hu
        exact hp x (by simp [hx]) y (by simp [hy]) hu
      obtain ⟨hI, hEq⟩ := ih hs2 hp2
      have hcross : ∀ x ∈ l2, cmpPath x.path e.path = .lt := by
        unfold SortedE at hs
        rw [List.pairwise_append] at hs
        intro x hx
        exact hs.2.2 x hx e (by simp)
      rw [List.foldl_append, List.foldl_cons, List.foldl_nil]
      obtain ⟨hI3, hent3⟩ := addEntry_spec (l2.foldl Index.addEntry Index.empty) e hI
      refine ⟨hI3, ?_⟩
      rw [hent3, hEq]
      have hflt : l2.filter
          (fun x => ¬ underDir e.path x.path ∧ ¬ underEq x.path e.path) = l2 := by
        rw [List.filter_eq_self]
        intro x hx
        have hne : x.path ≠ e.path := cmpPath_lt_ne (hcross x hx)
        have hnu1 : ¬ underEq x.path e.path := by
          intro hu
          exact hne (hp x (by simp [hx]) e (by simp) hu)
        have hnu2 : ¬ underDir e.path x.path := by
          intro hd
          have heq2 := hp e (by simp) x (by simp [hx]) hd.1
          have := congrArg List.length heq2
          have := hd.2
          omega
        simp [hnu1, hnu2]
      rw [hflt]
      exact insEntry_gt_all l2 e hcross

theorem index_rebuild (i : Index) (h : INV i) :
    i.entries.foldl Index.addEntry Index.empty = i := by
  obtain ⟨hI, hEq⟩ := index_rebuild_aux i.entries h.sE h.pf
  exact index_eq_of _ _ hEq (dirs_unique hI h hEq)

/-- C3: every index state reachable from the empty index by `add_entry`
and `remove` has prefix-free entry paths - no entry path is a proper
prefix of another - and adding an entry at path `p` and then an entry at
path `q`, where `q` is a strict path-prefix or strict path-extension of
`p`, leaves an index holding exactly the entry at `q`. -/
theorem index_collision_invariant :
    (∀ ops : List IndexOp, PrefixFree (runOps ops).entries) ∧
    (∀ e1 e2 : IndexEntry,
      underDir e2.path e1.path ∨ underDir e1.path e2.path →
      ((Index.empty.addEntry e1).addEntry e2).entries = [e2]) := by
  constructor
  · intro ops
    exact (INV_runOps ops).pf
  · intro e1 e2 hcl
    obtain ⟨hI1, hent1⟩ := addEntry_spec Index.empty e1 INV_empty
    obtain ⟨hI2, hent2⟩ := addEntry_spec (Index.empty.addEntry e1) e2 hI1
    rw [hent2, hent1]
    rw [show (Index.empty.entries.filter
      (fun x => ¬ underDir e1.path x.path ∧ ¬ underEq x.path e1.path)) = [] from rfl]
    rw [show insEntry e1 [] = [e1] from rfl]
    have hpred : ¬ (¬ underDir e2.path e1.path ∧ ¬ underEq e1.path e2.path) := by
      rcases hcl with hc | hc
      · exact fun hh => hh.1 hc
      · exact fun hh => hh.2 hc.1
    have hfe : [e1].filter
        (fun x => ¬ underDir e2.path x.path ∧ ¬ underEq x.path e2.path) = [] := by
      simp [List.filter_cons, hpred]
    rw [hfe]
    rfl

/-- The collision claim evaluated on the concrete pair of paths a and
a/b. -/
theorem index_collision_invariant_witness :
    (underDir (c3Entry [[97], [98]]).path (c3Entry [[97]]).path ∨
      underDir (c3Entry [[97]]).path (c3Entry [[97], [98]]).path) ∧
    ((Index.empty.addEntry (c3Entry [[97]])).addEntry
      (c3Entry [[97], [98]])).entries = [c3Entry [[97], [98]]] :=
  ⟨by decide, index_collision_invariant.2 (c3Entry [[97]]) (c3Entry [[97], [98]])
    (by decide)⟩

/-! ## Whole-index round trip -/

theorem parseEntries_walk : ∀ (l : List IndexEntry) (idx : Index) (bytes : List Nat)
    (pos : Nat) (tail : List Nat),
    (∀ e ∈ l, WfEntry e) → pos ≤ bytes.length →
    bytes.drop pos = l.flatMap IndexEntry.asVec ++ tail →
    parseEntries bytes idx l.length pos = .ok (l.foldl Index.addEntry idx)
  | [], idx, bytes, pos, tail, _, _, _ => rfl
  | e :: l2, idx, bytes, pos, tail, hwf, hpos, hdrop => by
      have hdrop2 : bytes.drop pos = e.asVec ++ (l2.flatMap IndexEntry.asVec ++ tail) := by
        rw [hdrop, List.flatMap_cons, List.append_assoc]
      have hlens := congrArg List.length hdrop2
      rw [List.length_drop, List.length_append] at hlens
      show parseEntries bytes idx (l2.length + 1) pos = _
      rw [parseEntries]
      rw [if_pos hpos, hdrop2, parseEntry_asVec e (hwf e (by simp)) _, exceptOkBind]
      simp only []
      rw [List.foldl_cons]
      apply parseEntries_walk l2 (idx.addEntry e) bytes (pos + e.asVec.length) tail
        (fun x hx => hwf x (by simp [hx])) (by omega)
      rw [← List.drop_drop, hdrop2, List.drop_left]

theorem asVec_length_ge (i : Index) : 12 ≤ i.asVec.length := by
  unfold Index.asVec
  simp only [List.length_append]
  have : ([68, 73, 82, 67] ++ [0, 0, 0, 2] ++ u32be i.entries.length).length = 12 := rfl
  simp only [List.length_append] at this
  omega

/-- C1 (amended): for every index state reachable from the empty index by
`add_entry` and `remove` whose entries are all well formed (real
half-byte object ids, `Mode::new`-coerced modes, encodable paths) and
whose entry count fits in a `u32`, `Index::from_bytes` applied to
`Index::as_vec` succeeds and returns an index equal to the original, with
field-wise equal entries and an equal directories map. -/
theorem index_round_trip (ops : List IndexOp)
    (hwf : ∀ e ∈ (runOps ops).entries, WfEntry e)
    (hcnt : (runOps ops).entries.length < 2 ^ 32) :
    Index.fromBytes ((runOps ops).asVec) = .ok (runOps ops) := by
  have hINV : INV (runOps ops) := INV_runOps ops
  have hslice : sliceCk (runOps ops).asVec 8 4 =
      .ok (u32be (runOps ops).entries.length) := by
    unfold sliceCk
    rw [if_pos (by have := asVec_length_ge (runOps ops); omega)]
    rfl
  unfold Index.fromBytes
  rw [hslice, exceptOkBind, toBeU32_u32be hcnt, exceptOkBind]
  have hdrop : (runOps ops).asVec.drop 12 =
      (runOps ops).entries.flatMap IndexEntry.asVec ++
      sha1Hash ([68, 73, 82, 67] ++ [0, 0, 0, 2] ++
        u32be (runOps ops).entries.length ++
        (runOps ops).entries.flatMap IndexEntry.asVec) := rfl
  rw [parseEntries_walk (runOps ops).entries Index.empty ((runOps ops).asVec) 12 _
    hwf (asVec_length_ge (runOps ops)) hdrop]
  rw [index_rebuild (runOps ops) hINV]

set_option maxRecDepth 10000000 in
/-- C1 counterexample: a state reachable by one `add_entry`, whose
entry's object id is the two-value list `[1, 2]` rather than 40 half-byte
values, does not survive the round trip: the emitted id field degenerates
(one byte instead of twenty), so parsing reads the remaining fields
shifted and returns a different index. -/
theorem index_round_trip_counterexample :
    Index.fromBytes ((Index.empty.addEntry c1BadEntry).asVec) ≠
      .ok (Index.empty.addEntry c1BadEntry) := by decide

set_option maxRecDepth 10000000 in
/-- The round-trip theorem evaluated on the one-entry index holding the
repository's own well-formed test entry. -/
theorem index_round_trip_witness :
    (∀ e ∈ (runOps [IndexOp.add c2Entry]).entries, WfEntry e) ∧
    (runOps [IndexOp.add c2Entry]).entries.length < 2 ^ 32 ∧
    Index.fromBytes ((runOps [IndexOp.add c2Entry]).asVec) =
      .ok (runOps [IndexOp.add c2Entry]) :=
  ⟨by decide, by decide,
    index_round_trip [IndexOp.add c2Entry] (by decide) (by decide)⟩

end Rut
